import Mathlib

/-!
# Shortest subscriber chains (`main.go`)

A shallow embedding of the graph construction (`addGraph`, `addEdge`, `addNode`), the
search (`newCostTable`, `getNodeEdges`, `getClosestNonVisitedNode`, `dijkstra`) and the
query driver (`formResult`) of `main.go`, followed by theorems about them.

Modelling conventions.

* A `*node` is `Option node`, `none` being the nil pointer.  Every non-nil node pointer
  that the program ever stores in the graph is a value of the email map built by
  `addGraph`, and the node stored under key `k` has `Name = k`; two such pointers are
  equal exactly when the nodes they point to are equal, so pointer comparison is
  comparison of the values.
* A Go map is an association list with unique keys (`mapGet`, `mapSet`).  Where the
  program ranges over a map and the outcome depends on the order, the order is an
  explicit argument (`pick`).
* `int` is `Int`, arithmetic wraps to 64 bits (`wrap64`).
* A `[][]string` value is a slice header (`slice`) into a store of backing arrays;
  `append` writes in place when `len < cap` and allocates otherwise.  The capacity of
  a new backing array is chosen by the runtime; it is the parameter `grow`, and `goGrow`
  is what the Go runtime does for short slices.
* A run-time failure (nil dereference, index out of range) is `Except.error`.
* The query table `map[int]map[string]string` with the keys `0 .. n-1` is the list of its
  rows, a row being a `way` with the values under "from" and "to".

The definitions come first (the program, then the vocabulary of the statements and the
invariants of the search), the theorems after them.
-/

namespace Dijkstra

/-! ## Data model -/

structure subscriber where
  Email : String
  Created : String
deriving DecidableEq, Repr

structure user where
  Nick : String
  Email : String
  Created : String
  Subscribers : List subscriber
deriving DecidableEq, Repr

structure singlePath where
  Email : String
  Created : String
deriving DecidableEq, Repr

structure result where
  ID : Int
  From : String
  To : String
  Path : List singlePath
deriving DecidableEq, Repr

structure node where
  Name : String
  Created : String
deriving DecidableEq, Repr

structure edge where
  Parent : Option node
  Child : Option node
  Cost : Int
deriving DecidableEq, Repr

structure graph where
  Edges : List edge
  Nodes : List (Option node)
deriving DecidableEq, Repr

/-- Header of a `[][]string`: index of the backing array in the store, length, capacity.
The nil slice is `⟨0, 0, 0⟩`. -/
structure slice where
  arr : Nat
  len : Nat
  cap : Nat
deriving DecidableEq, Repr

structure nodeInfo where
  Cost : Int
  path : slice
deriving DecidableEq, Repr

/-- One row of the query table: the inner map with its keys "from" and "to". -/
structure way where
  From : String
  To : String
deriving DecidableEq, Repr

/-- Run-time failures of the program; `outOfFuel` is the model's own and marks a loop
that was cut before its condition became false. -/
inductive Abort where
  | nilPointer
  | indexOutOfRange
  | outOfFuel
deriving DecidableEq, Repr

/-- The constant `math.MaxInt64`. -/
def infinity : Int := 9223372036854775807

/-- Two's complement wrap-around of a 64-bit `int`. -/
def wrap64 (x : Int) : Int := (x + 9223372036854775808) % 18446744073709551616 - 9223372036854775808

/-! ## Go maps -/

/-- Map lookup `m[k]`; `none` when the key is absent. -/
def mapGet {κ ν : Type} [DecidableEq κ] : List (κ × ν) → κ → Option ν
  | [], _ => none
  | (k', v) :: r, k => if k' = k then some v else mapGet r k

/-- Map assignment `m[k] = v`. -/
def mapSet {κ ν : Type} [DecidableEq κ] : List (κ × ν) → κ → ν → List (κ × ν)
  | [], k, v => [(k, v)]
  | (k', v') :: r, k, v => if k' = k then (k, v) :: r else (k', v') :: mapSet r k v

/-! ## Graph construction -/

/-- The method `addNode`: append the node unless the scan of `g.Nodes` finds it. -/
def addNode (g : graph) (n : Option node) : graph :=
  if n ∈ g.Nodes then g else { g with Nodes := g.Nodes ++ [n] }

/-- The method `addEdge`. -/
def addEdge (g : graph) (parent child : Option node) (cost : Int) : graph :=
  addNode (addNode { g with Edges := g.Edges ++ [⟨parent, child, cost⟩] } parent) child

/-- First loop of `addGraph`: the email map. -/
def buildMap (users : List user) : List (String × node) :=
  users.foldl (fun m u => mapSet m u.Email ⟨u.Email, u.Created⟩) []

/-- Inner loop of the second loop of `addGraph`: the edges of one user. -/
def addUserEdges (m : List (String × node)) (g : graph) (u : user) : graph :=
  u.Subscribers.foldl (fun g s => addEdge g (mapGet m u.Email) (mapGet m s.Email) 1) g

/-- The method `addGraph`: the graph after the call and the returned email map. -/
def addGraph (g : graph) (users : List user) : graph × List (String × node) :=
  let mapNodePointers := buildMap users
  (users.foldl (addUserEdges mapNodePointers) g, mapNodePointers)

/-! ## Search -/

/-- The method `newCostTable`. -/
def newCostTable (g : graph) (startNode : Option node) : List (Option node × nodeInfo) :=
  g.Nodes.foldl
    (fun t n => if n ≠ startNode then mapSet t n ⟨infinity, ⟨0, 0, 0⟩⟩ else t)
    (mapSet [] startNode ⟨0, ⟨0, 0, 0⟩⟩)

/-- The method `getNodeEdges`. -/
def getNodeEdges (g : graph) (n : Option node) : List edge :=
  g.Edges.filter (fun e => e.Parent = n)

/-- The function `positiveCheck`. -/
def positiveCheck (n : Int) : Int := if n < 0 then infinity else n

/-- The least cost among the rows, starting from `m`. -/
def minCost : Int → List (Option node × nodeInfo) → Int
  | m, [] => m
  | m, e :: r => minCost (if e.2.Cost < m then e.2.Cost else m) r

/-- The function `getClosestNonVisitedNode`.  The rows of unvisited nodes are collected
in map order and sorted by cost with `sort.Slice`, and the node of `sorted[0]` is
returned: a row of least cost, which one among several being decided by the map order
and the sort.  `pick` makes that decision: it indexes the rows of least cost.  On an
empty `sorted` the index expression fails. -/
def getClosestNonVisitedNode (costTable : List (Option node × nodeInfo))
    (visited : List (Option node)) (pick : Nat) : Except Abort (Option node) :=
  match costTable.filter (fun e => decide (e.1 ∉ visited)) with
  | [] => .error .indexOutOfRange
  | c :: cs =>
    let ties := (c :: cs).filter (fun e => e.2.Cost = minCost c.2.Cost cs)
    match ties.get? (pick % ties.length) with
    | some e => .ok e.1
    | none => .ok c.1

/-- The contents of a slice. -/
def readSlice (heap : List (List (List String))) (s : slice) : List (List String) :=
  (heap.getD s.arr []).take s.len

/-- The builtin `append` of one element to a `[][]string`. -/
def appendPath (grow : Nat → Nat) (heap : List (List (List String))) (s : slice)
    (x : List String) : List (List (List String)) × slice :=
  if s.len < s.cap then
    (heap.set s.arr ((heap.getD s.arr []).set s.len x), ⟨s.arr, s.len + 1, s.cap⟩)
  else
    (heap ++ [readSlice heap s ++ x :: List.replicate (max (grow s.cap) (s.len + 1) - (s.len + 1)) []],
      ⟨heap.length, s.len + 1, max (grow s.cap) (s.len + 1)⟩)

/-- The body of the loop over `nodeEdges` in `dijkstra`, for one edge. -/
def relaxEdge (grow : Nat → Nat) (startNode cur : Option node)
    (st : List (Option node × nodeInfo) × List (List (List String))) (e : edge) :
    Except Abort (List (Option node × nodeInfo) × List (List (List String))) :=
  match mapGet st.1 cur with
  | none => .error .nilPointer
  | some ni =>
    match mapGet st.1 e.Child with
    | none => .error .nilPointer
    | some ci =>
      if positiveCheck (wrap64 (ni.Cost + e.Cost)) < ci.Cost then
        if cur ≠ startNode then
          match cur with
          | none => .error .nilPointer
          | some n =>
            .ok (mapSet st.1 e.Child
                  ⟨positiveCheck (wrap64 (ni.Cost + e.Cost)),
                    (appendPath grow st.2 ni.path [n.Name, n.Created]).2⟩,
                 (appendPath grow st.2 ni.path [n.Name, n.Created]).1)
        else .ok (mapSet st.1 e.Child ⟨positiveCheck (wrap64 (ni.Cost + e.Cost)), ci.path⟩, st.2)
      else .ok st

/-- The loop over `nodeEdges` in `dijkstra`. -/
def relaxEdges (grow : Nat → Nat) (startNode cur : Option node) :
    List edge → List (Option node × nodeInfo) × List (List (List String)) →
    Except Abort (List (Option node × nodeInfo) × List (List (List String)))
  | [], st => .ok st
  | e :: es, st =>
    match relaxEdge grow startNode cur st e with
    | .error a => .error a
    | .ok st' => relaxEdges grow startNode cur es st'

/-- The state of the main loop of `dijkstra`. -/
structure searchState where
  costTable : List (Option node × nodeInfo)
  heap : List (List (List String))
  visited : List (Option node)
deriving DecidableEq, Repr

/-- One iteration of the main loop of `dijkstra`. -/
def visitNext (grow : Nat → Nat) (g : graph) (startNode : Option node) (pick : Nat)
    (s : searchState) : Except Abort searchState :=
  match getClosestNonVisitedNode s.costTable s.visited pick with
  | .error a => .error a
  | .ok cur =>
    match relaxEdges grow startNode cur (getNodeEdges g cur) (s.costTable, s.heap) with
    | .error a => .error a
    | .ok st => .ok ⟨st.1, st.2, s.visited ++ [cur]⟩

/-- The main loop of `dijkstra`, `for len(visited) != len(g.Nodes)`, cut after `fuel`
iterations.  The iteration that starts with `k` visited nodes uses `picks k`. -/
def searchLoop (grow : Nat → Nat) (g : graph) (startNode : Option node) (picks : Nat → Nat) :
    Nat → searchState → Except Abort searchState
  | 0, s => if s.visited.length ≠ g.Nodes.length then .error .outOfFuel else .ok s
  | fuel + 1, s =>
    if s.visited.length ≠ g.Nodes.length then
      match visitNext grow g startNode (picks s.visited.length) s with
      | .error a => .error a
      | .ok s' => searchLoop grow g startNode picks fuel s'
    else .ok s

/-- The last loop of `dijkstra`: range over the cost table, keep the path of the row
whose node has the name of `endNode`.  `acc` is `shortestPath`. -/
def selectPath (endNode : Option node) : List (Option node × nodeInfo) → slice → Except Abort slice
  | [], acc => .ok acc
  | (k, info) :: r, acc =>
    match k, endNode with
    | some n, some e => selectPath endNode r (if n.Name = e.Name then info.path else acc)
    | _, _ => .error .nilPointer

/-- The method `dijkstra`; the returned slice is given by its contents. -/
def dijkstra (grow : Nat → Nat) (g : graph) (picks : Nat → Nat) (startNode endNode : Option node) :
    Except Abort (List (List String)) :=
  match searchLoop grow g startNode picks g.Nodes.length ⟨newCostTable g startNode, [], []⟩ with
  | .error a => .error a
  | .ok s =>
    match selectPath endNode s.costTable ⟨0, 0, 0⟩ with
    | .error a => .error a
    | .ok p => .ok (readSlice s.heap p)

/-! ## Query driver -/

/-- The exchange `n[i], n[j] = n[j], n[i]`. -/
def swapAt (n : List (List String)) (i j : Nat) : List (List String) :=
  (n.set i (n.getD j [])).set j (n.getD i [])

/-- The loop of `reverseSlice`, `for i, j := 0, len(n)-1; i < j; i, j = i+1, j-1`, cut
after `fuel` iterations. -/
def reverseLoop : Nat → Nat → Nat → List (List String) → List (List String)
  | 0, _, _, n => n
  | fuel + 1, i, j, n =>
    if i < j then reverseLoop fuel (i + 1) (j - 1) (swapAt n i j) else n

/-- The function `reverseSlice`, on the contents of the slice.  It reverses in place;
the backing array is not read again by the program after the call, apart from the
returned slice. -/
def reverseSlice (n : List (List String)) : List (List String) :=
  reverseLoop n.length 0 (n.length - 1) n

/-- The loop `for _, j := range shortestPathSorted` of `formResult`. -/
def toPath : List (List String) → List singlePath → Except Abort (List singlePath)
  | [], acc => .ok acc
  | j :: r, acc =>
    match j.get? 0, j.get? 1 with
    | some a, some b => toPath r (acc ++ [⟨a, b⟩])
    | _, _ => .error .indexOutOfRange

/-- The loop of `formResult` from index `i` on, `ways` being the rows `i, i+1, ...` of the
table and `id` the counter.  Query `i` is searched with the picks `picks i`. -/
def formResultFrom (grow : Nat → Nat) (g : graph) (mapNodePointers : List (String × node))
    (picks : Nat → Nat → Nat) : List way → Nat → Int → Except Abort (List result)
  | [], _, _ => .ok []
  | w :: ws, i, id =>
    match dijkstra grow g (picks i) (mapGet mapNodePointers w.To) (mapGet mapNodePointers w.From) with
    | .error a => .error a
    | .ok shortestPath =>
      match toPath (reverseSlice shortestPath) [] with
      | .error a => .error a
      | .ok p =>
        match formResultFrom grow g mapNodePointers picks ws (i + 1) (id + 1) with
        | .error a => .error a
        | .ok rs => .ok (⟨id + 1, w.From, w.To, p⟩ :: rs)

/-- The method `formResult`, for a query table with the keys `0 .. n-1` given as the
list of its rows. -/
def formResult (grow : Nat → Nat) (g : graph) (userWay : List way)
    (mapNodePointers : List (String × node)) (picks : Nat → Nat → Nat) : Except Abort (List result) :=
  formResultFrom grow g mapNodePointers picks userWay 0 0

/-- Capacity growth of the gc runtime for slices of fewer than 256 elements: doubling. -/
def goGrow (c : Nat) : Nat := if c = 0 then 1 else 2 * c

/-- The program after reading its inputs: `addGraph` on the empty graph, then `formResult`. -/
def run (grow : Nat → Nat) (users : List user) (userWay : List way) (picks : Nat → Nat → Nat) :
    Except Abort (List result) :=
  formResult grow (addGraph ⟨[], []⟩ users).1 userWay (addGraph ⟨[], []⟩ users).2 picks


/-! ## Reading the query table -/

/-- What ends `readCsv` otherwise than with a table: the three errors it returns, and the
run-time failures of an index expression and of a write to a nil map. -/
inductive csvFailure where
  | cantReadCsv
  | cantReadUserLine
  | noUserWays
  | indexOutOfRange
  | nilMap
deriving DecidableEq, Repr

/-- The loop of `readCsv`.  The list holds what the successive calls of
`inputReader.Read()` return before the call that returns `io.EOF`: a record or an error.
The table `userWay` is `none` when it is the nil map and `some rows` when it is a map with
the keys `0 .. n-1`, the counter `i` being the number of its rows. -/
def readCsvLoop : List (Except String (List String)) → Option (List way) →
    Except csvFailure (Option (List way))
  | [], userWay => .ok userWay
  | .error _ :: _, _ => .error .cantReadUserLine
  | .ok line :: rest, userWay =>
    match line.get? 0, line.get? 1 with
    | some a, some b =>
      match userWay with
      | some rows => readCsvLoop rest (some (rows ++ [⟨a, b⟩]))
      | none => .error .nilMap
    | _, _ => .error .indexOutOfRange

/-- The function `readCsv`.  `file` is `none` when the file cannot be opened; the table
starts as `some []`, what `make` returns. -/
def readCsv (file : Option (List (Except String (List String)))) : Except csvFailure (List way) :=
  match file with
  | none => .error .cantReadCsv
  | some reads =>
    match readCsvLoop reads (some []) with
    | .error f => .error f
    | .ok none => .error .noUserWays
    | .ok (some rows) => .ok rows

/-- What ends `main` before it has records to write: a failure of `readCsv`, an error of
`readJSON`, a run-time failure of the query phase. -/
inductive mainFailure where
  | csv (f : csvFailure)
  | json
  | abort (a : Abort)
deriving DecidableEq, Repr

/-- The function `main` up to the call of `createResult`: the records handed to it.
`users` is what `readJSON` returns, `none` standing for its error. -/
def mainRecords (grow : Nat → Nat) (file : Option (List (Except String (List String))))
    (users : Option (List user)) (picks : Nat → Nat → Nat) : Except mainFailure (List result) :=
  match readCsv file with
  | .error f => .error (.csv f)
  | .ok userWay =>
    match users with
    | none => .error .json
    | some us =>
      match run grow us userWay picks with
      | .error a => .error (.abort a)
      | .ok rs => .ok rs
/-! ## Specification vocabulary -/

/-- The graph has an edge with the given parent and child. -/
def Adj (g : graph) (a b : Option node) : Prop :=
  ∃ e ∈ g.Edges, e.Parent = a ∧ e.Child = b

/-- `Reach g a n b`: there is a directed walk of `n` edges from `a` to `b`. -/
def Reach (g : graph) (a : Option node) : Nat → Option node → Prop
  | 0, b => a = b
  | n + 1, b => ∃ m, Reach g a n m ∧ Adj g m b

/-- The graph has an edge whose parent is the node named `x` and whose child is the node
named `y` ("user `x` has subscriber `y`"). -/
def hasEdge (g : graph) (x y : String) : Prop :=
  ∃ e ∈ g.Edges, e.Parent.map (fun n => n.Name) = some x ∧ e.Child.map (fun n => n.Name) = some y

instance (g : graph) (x y : String) : Decidable (hasEdge g x y) := by
  unfold hasEdge; infer_instance

/-- A list of emails is a directed walk: each consecutive pair is an edge. -/
def isWalk (g : graph) : List String → Prop
  | x :: y :: r => hasEdge g x y ∧ isWalk g (y :: r)
  | _ => True

/-- Deciding `isWalk` pair by pair. -/
def decideWalk (g : graph) : (l : List String) → Decidable (isWalk g l)
  | [] => isTrue (by simp [isWalk])
  | [_] => isTrue (by simp [isWalk])
  | x :: y :: r =>
    @decidable_of_iff _ (hasEdge g x y ∧ isWalk g (y :: r)) (by simp [isWalk])
      (@instDecidableAnd _ _ _ (decideWalk g (y :: r)))

instance (g : graph) (l : List String) : Decidable (isWalk g l) := decideWalk g l

/-- Every subscriber email is the email of a user. -/
def subscribersRegistered (users : List user) : Prop :=
  ∀ u ∈ users, ∀ s ∈ u.Subscribers, ∃ v ∈ users, v.Email = s.Email

instance (users : List user) : Decidable (subscribersRegistered users) := by
  unfold subscribersRegistered; infer_instance

/-- The email is the email of a user. -/
def registered (users : List user) (e : String) : Prop := ∃ u ∈ users, u.Email = e

instance (users : List user) (e : String) : Decidable (registered users e) := by
  unfold registered; infer_instance

/-- The emails of a path, in order. -/
def emails (p : List singlePath) : List String := p.map (fun x => x.Email)

/-- The nil slice. -/
def nilSlice : slice := ⟨0, 0, 0⟩

/-- A slice header is usable: nil, or within a stored array of its capacity. -/
def sliceOk (heap : List (List (List String))) (s : slice) : Prop :=
  s = nilSlice ∨ (s.arr < heap.length ∧ (heap.getD s.arr []).length = s.cap ∧ s.len ≤ s.cap)

/-- Invariant of the cost table during the search.  `V` are the visited nodes, `R` the
edges relaxed so far, `m` the cost of the node visited last. -/
structure CostInv (g : graph) (start : Option node) (V : List (Option node)) (R : edge → Prop)
    (m : Int) (t : List (Option node × nodeInfo)) : Prop where
  start_row : ∃ ni, mapGet t start = some ni ∧ ni.Cost = 0
  range : ∀ v ni, mapGet t v = some ni → 0 ≤ ni.Cost ∧ ni.Cost ≤ infinity
  sound : ∀ v ni, mapGet t v = some ni → ni.Cost < infinity →
    ∃ n : Nat, (n : Int) = ni.Cost ∧ Reach g start n v
  relaxed : ∀ e, R e → ∀ np nc, mapGet t e.Parent = some np → mapGet t e.Child = some nc →
    np.Cost < infinity → nc.Cost ≤ np.Cost + 1
  relaxed_parent : ∀ e, R e → e.Parent ∈ V
  vis_le : ∀ u ∈ V, ∀ ni, mapGet t u = some ni → ni.Cost ≤ m
  unvis_ge : ∀ x, x ∉ V → ∀ ni, mapGet t x = some ni → m ≤ ni.Cost
  bound_vis : ∀ u ∈ V, ∀ ni, mapGet t u = some ni → ni.Cost < infinity → ni.Cost < V.length
  bound_unvis : ∀ x, x ∉ V → ∀ ni, mapGet t x = some ni → ni.Cost < infinity → ni.Cost ≤ V.length
  frontier : ∀ x, x ∉ V → ∀ ni, mapGet t x = some ni → ni.Cost < infinity → ni.Cost ≤ m + 1

/-- Invariant of the recorded paths during the search. -/
structure PathInv (start : Option node) (V : List (Option node))
    (t : List (Option node × nodeInfo)) (heap : List (List (List String))) : Prop where
  start_nil : ∀ ni, mapGet t start = some ni → ni.path = nilSlice
  inf_nil : ∀ v ni, mapGet t v = some ni → ni.Cost = infinity → ni.path = nilSlice
  len : ∀ v ni, mapGet t v = some ni → v ≠ start → ni.Cost < infinity →
    (ni.path.len : Int) + 1 = ni.Cost
  wf : ∀ v ni, mapGet t v = some ni → sliceOk heap ni.path
  entries : ∀ v ni, mapGet t v = some ni → ∀ i, i < ni.path.len →
    ∃ n nn, (heap.getD ni.path.arr []).get? i = some [n.Name, n.Created] ∧ some n ∈ V ∧
      mapGet t (some n) = some nn ∧ nn.Cost = (i : Int) + 1

/-- Invariant of the loop over the edges of the node `cur` being visited. -/
structure RelaxInv (g : graph) (start : Option node) (K V : List (Option node))
    (R : edge → Prop) (m : Int) (cur : Option node)
    (st : List (Option node × nodeInfo) × List (List (List String))) : Prop where
  keys : st.1.map Prod.fst = K
  cost : CostInv g start V R m st.1
  path : PathInv start V st.1 st.2
  cur_mem : cur ∈ V
  cur_cost : ∃ ni, mapGet st.1 cur = some ni ∧ ni.Cost = m

/-- The edges whose parent has been visited. -/
def relaxedOf (g : graph) (V : List (Option node)) (e : edge) : Prop :=
  e ∈ g.Edges ∧ e.Parent ∈ V

/-- Invariant of the main loop of `dijkstra`. -/
structure SearchInv (g : graph) (start : Option node) (K : List (Option node))
    (s : searchState) : Prop where
  keys : s.costTable.map Prod.fst = K
  cost : ∃ m, CostInv g start s.visited (relaxedOf g s.visited) m s.costTable
  path : PathInv start s.visited s.costTable s.heap
  vis_nodup : s.visited.Nodup
  vis_sub : ∀ v ∈ s.visited, v ∈ K

/-- What the search assumes of the graph: unit costs, the ends of every edge among the
nodes, no node listed twice. -/
structure GraphOk (g : graph) : Prop where
  unit : ∀ e ∈ g.Edges, e.Cost = 1
  ends : ∀ e ∈ g.Edges, e.Parent ∈ g.Nodes ∧ e.Child ∈ g.Nodes
  nodup : g.Nodes.Nodup

/-- The keys of the cost table of a search from `start`. -/
def tableKeys (g : graph) (start : Option node) : List (Option node) :=
  (newCostTable g start).map Prod.fst

/-- The user record that counts for an email: the last one in the list with that email. -/
def lastUser (users : List user) (k : String) : Option user :=
  users.reverse.find? (fun u => u.Email = k)

/-- Invariant of graph construction with the email map `m`. -/
structure Built (users : List user) (m : List (String × node)) (g : graph) : Prop where
  nodup : g.Nodes.Nodup
  ends : ∀ e ∈ g.Edges, e.Parent ∈ g.Nodes ∧ e.Child ∈ g.Nodes
  nodes_from : ∀ n ∈ g.Nodes, ∃ e ∈ g.Edges, e.Parent = n ∨ e.Child = n
  edges_from : ∀ e ∈ g.Edges, e.Cost = 1 ∧ ∃ u ∈ users, ∃ s ∈ u.Subscribers,
    e.Parent = mapGet m u.Email ∧ e.Child = mapGet m s.Email

/-- The record that `formResult` makes of one element of the reversed path. -/
def entryOf (j : List String) : singlePath := ⟨j.getD 0 "", j.getD 1 ""⟩

/-- The element that `dijkstra` appends to a path for a node. -/
def nodeEntry (n : node) : List String := [n.Name, n.Created]

/-- The list of emails is a directed walk from `a` to `b`; it has `l.length - 1` edges. -/
def walkFromTo (g : graph) (a b : String) (l : List String) : Prop :=
  isWalk g l ∧ l.head? = some a ∧ l.getLast? = some b

instance (g : graph) (a b : String) (l : List String) : Decidable (walkFromTo g a b l) := by
  unfold walkFromTo; infer_instance

/-- The content of the slice `s` lists the nodes strictly between `start` and `v` on a
walk from `start` to `v`. -/
def chainOk (g : graph) (start : Option node) (heap : List (List (List String))) (s : slice)
    (v : Option node) : Prop :=
  ∃ ns : List node, readSlice heap s = ns.map nodeEntry ∧
    List.Chain' (Adj g) (start :: (ns.map some ++ [v]))

/-- The capacities that go with the lengths of a slice grown by appending one element at
a time, when the first three arrays have the capacities 1, 2 and 4. -/
def shapeOk (s : slice) : Prop :=
  (s.len = 0 ∧ s.cap = 0) ∨ (s.len = 1 ∧ s.cap = 1) ∨ (s.len = 2 ∧ s.cap = 2) ∨
    ((s.len = 3 ∨ s.len = 4) ∧ s.cap = 4) ∨ 5 ≤ s.len

/-- Invariant of the recorded paths that concerns the sharing of backing arrays, for a
runtime that gives the capacities 1, 2, 4 to the first three arrays of a growing slice.
`shape`: which capacities go with which lengths; `uniq`: a slice of length 3 or 5 belongs
to one row only; `own`: below a slice of length at most 6, the cell that follows a
shorter slice on the same array holds the node of that shorter slice; `valid`: a path of
at most 6 entries is a walk. -/
structure AliasInv (g : graph) (start : Option node) (t : List (Option node × nodeInfo))
    (heap : List (List (List String))) : Prop where
  shape : ∀ v ni, mapGet t v = some ni → shapeOk ni.path
  uniq : ∀ x y nx ny, mapGet t x = some nx → mapGet t y = some ny →
    nx.path.arr = ny.path.arr → nx.path.len = ny.path.len →
    (nx.path.len = 3 ∨ nx.path.len = 5) → x = y
  own : ∀ x y nx ny, mapGet t x = some nx → mapGet t y = some ny →
    nx.path.arr = ny.path.arr → 1 ≤ ny.path.len → ny.path.len < nx.path.len →
    nx.path.len ≤ 6 →
    ∃ n, y = some n ∧ (heap.getD nx.path.arr []).get? ny.path.len = some (nodeEntry n)
  valid : ∀ v ni, mapGet t v = some ni → v ≠ start → ni.Cost < infinity →
    ni.path.len ≤ 6 → chainOk g start heap ni.path v

/-- The graph after a sequence of `addEdge` calls on the empty graph, a call being given by
its arguments parent, child and cost. -/
def addEdges (calls : List (Option node × Option node × Int)) : graph :=
  calls.foldl (fun g c => addEdge g c.1 c.2.1 c.2.2) ⟨[], []⟩

/-- The state in which the main loop of `dijkstra` starts. -/
def searchInit (g : graph) (start : Option node) : searchState :=
  ⟨newCostTable g start, [], []⟩

/-- The state of the main loop of `dijkstra` after `k` more iterations from the state `s`,
the loop condition left aside. -/
def searchTrace (grow : Nat → Nat) (g : graph) (start : Option node) (picks : Nat → Nat) :
    Nat → searchState → Except Abort searchState
  | 0, s => .ok s
  | k + 1, s =>
    match visitNext grow g start (picks s.visited.length) s with
    | .error a => .error a
    | .ok s' => searchTrace grow g start picks k s'

/-- The row of the node `v` in the cost table together with the content of its path. -/
def rowPath (st : List (Option node × nodeInfo) × List (List (List String)))
    (v : Option node) : Option (nodeInfo × List (List String)) :=
  (mapGet st.1 v).map (fun ni => (ni, readSlice st.2 ni.path))


/-! ## Concrete inputs -/

instance {ε α : Type} [DecidableEq ε] [DecidableEq α] : DecidableEq (Except ε α) := fun a b =>
  match a, b with
  | .ok x, .ok y =>
    if h : x = y then isTrue (by rw [h]) else isFalse (fun h' => h (by injection h'))
  | .error x, .error y =>
    if h : x = y then isTrue (by rw [h]) else isFalse (fun h' => h (by injection h'))
  | .ok _, .error _ => isFalse (fun h => by cases h)
  | .error _, .ok _ => isFalse (fun h => by cases h)

/-- Users `a`, `b`, `c` with the subscriptions `a → b`, `b → c`. -/
def usersChain : List user :=
  [⟨"A", "a", "2020", [⟨"b", "1999"⟩]⟩, ⟨"B", "b", "2021", [⟨"c", "1999"⟩]⟩, ⟨"C", "c", "2022", []⟩]

/-- Users `a`, `b`, `c` on the cycle `a → b → c → a`, and `d` without any subscription. -/
def usersCycle : List user :=
  [⟨"A", "a", "2020", [⟨"b", "1999"⟩]⟩, ⟨"B", "b", "2021", [⟨"c", "1999"⟩]⟩,
   ⟨"C", "c", "2022", [⟨"a", "1999"⟩]⟩, ⟨"D", "d", "2023", []⟩]

/-- Users `a`, `b` with the subscription `a → b`. -/
def usersPair : List user :=
  [⟨"A", "a", "2020", [⟨"b", "1999"⟩]⟩, ⟨"B", "b", "2021", []⟩]

/-- User `a` with a subscriber `zz` that is not a user, and user `b`. -/
def usersDangling : List user :=
  [⟨"A", "a", "2020", [⟨"zz", "1999"⟩]⟩, ⟨"B", "b", "2021", []⟩]

/-- The choice that always takes the first row of least cost. -/
def firstPick : Nat → Nat → Nat := fun _ _ => 0

/-- Three queries over `usersChain`. -/
def queriesChain : List way := [⟨"a", "c"⟩, ⟨"c", "a"⟩, ⟨"a", "a"⟩]

/-- What the program returns for `queriesChain` over `usersChain`. -/
def resultsChain : List result :=
  [⟨1, "a", "c", []⟩, ⟨2, "c", "a", [⟨"b", "2021"⟩]⟩, ⟨3, "a", "a", []⟩]

/-- Users on the line `s → 1 → 2 → 3 → 4 → 5 → 6 → 7`. -/
def usersLine : List user :=
  [⟨"S", "s", "2010", [⟨"1", "1999"⟩]⟩, ⟨"U1", "1", "2011", [⟨"2", "1999"⟩]⟩,
   ⟨"U2", "2", "2012", [⟨"3", "1999"⟩]⟩, ⟨"U3", "3", "2013", [⟨"4", "1999"⟩]⟩,
   ⟨"U4", "4", "2014", [⟨"5", "1999"⟩]⟩, ⟨"U5", "5", "2015", [⟨"6", "1999"⟩]⟩,
   ⟨"U6", "6", "2016", [⟨"7", "1999"⟩]⟩, ⟨"U7", "7", "2017", []⟩]

/-- What the program returns for the query `(7, s)` over `usersLine`. -/
def resultsLine : List result :=
  [⟨1, "7", "s", [⟨"6", "2016"⟩, ⟨"5", "2015"⟩, ⟨"4", "2014"⟩, ⟨"3", "2013"⟩, ⟨"2", "2012"⟩,
    ⟨"1", "2011"⟩]⟩]

/-- Users on the line `s → 1 → ... → 6`, where `6` has the subscribers `7a` and `7b`, `7a`
has the subscriber `8a` and `7b` has the subscriber `8b`. -/
def usersFork : List user :=
  [⟨"S", "s", "2010", [⟨"1", "1999"⟩]⟩, ⟨"U1", "1", "2011", [⟨"2", "1999"⟩]⟩,
   ⟨"U2", "2", "2012", [⟨"3", "1999"⟩]⟩, ⟨"U3", "3", "2013", [⟨"4", "1999"⟩]⟩,
   ⟨"U4", "4", "2014", [⟨"5", "1999"⟩]⟩, ⟨"U5", "5", "2015", [⟨"6", "1999"⟩]⟩,
   ⟨"U6", "6", "2016", [⟨"7a", "1999"⟩, ⟨"7b", "1999"⟩]⟩,
   ⟨"U7a", "7a", "2017", [⟨"8a", "1999"⟩]⟩, ⟨"U7b", "7b", "2017", [⟨"8b", "1999"⟩]⟩,
   ⟨"U8a", "8a", "2018", []⟩, ⟨"U8b", "8b", "2018", []⟩]

/-- What the program returns for the query `(8a, s)` over `usersFork`. -/
def resultsFork : List result :=
  [⟨1, "8a", "s", [⟨"7b", "2017"⟩, ⟨"6", "2016"⟩, ⟨"5", "2015"⟩, ⟨"4", "2014"⟩, ⟨"3", "2013"⟩,
    ⟨"2", "2012"⟩, ⟨"1", "2011"⟩]⟩]

/-- Two user records with the email `a`, the first with the subscriber `b` and the second
with the subscriber `c`, then the users `b` and `c`. -/
def usersTwice : List user :=
  [⟨"A", "a", "2020", [⟨"b", "1999"⟩]⟩, ⟨"A2", "a", "2021", [⟨"c", "1999"⟩]⟩,
   ⟨"B", "b", "2022", []⟩, ⟨"C", "c", "2023", []⟩]

/-- Users on the diamond `s → a → t`, `s → b → t`. -/
def usersDiamond : List user :=
  [⟨"S", "s", "2020", [⟨"a", "1999"⟩, ⟨"b", "1999"⟩]⟩, ⟨"A", "a", "2021", [⟨"t", "1999"⟩]⟩,
   ⟨"B", "b", "2022", [⟨"t", "1999"⟩]⟩, ⟨"T", "t", "2023", []⟩]

/-- The choice that always takes the second row of least cost. -/
def secondPick : Nat → Nat → Nat := fun _ _ => 1

/-- The graph built from `usersFork`. -/
def graphFork : graph := (addGraph ⟨[], []⟩ usersFork).1

/-- The node of `s` in the email map built from `usersFork`. -/
def startFork : Option node := mapGet (addGraph ⟨[], []⟩ usersFork).2 "s"

/-- The search from `s` over `usersFork` after eight iterations of the main loop, when
`s`, `1`, ..., `6` and `7a` are visited. -/
def beforeFork : Except Abort searchState :=
  searchTrace goGrow graphFork startFork (firstPick 0) 8 (searchInit graphFork startFork)


/-! ## Maps and the choice of the closest node -/


section maps
variable {κ ν : Type} [DecidableEq κ]

theorem mapGet_mapSet_self (m : List (κ × ν)) (k : κ) (v : ν) :
    mapGet (mapSet m k v) k = some v := by
  induction m with
  | nil => simp [mapSet, mapGet]
  | cons a r ih =>
    obtain ⟨k', v'⟩ := a
    by_cases h : k' = k
    · simp [mapSet, mapGet, h]
    · simp [mapSet, mapGet, h, ih]

theorem mapGet_mapSet_ne (m : List (κ × ν)) (k k' : κ) (v : ν) (h : k' ≠ k) :
    mapGet (mapSet m k v) k' = mapGet m k' := by
  induction m with
  | nil => simp [mapSet, mapGet, Ne.symm h]
  | cons a r ih =>
    obtain ⟨k'', v''⟩ := a
    by_cases h1 : k'' = k
    · subst h1
      simp [mapSet, mapGet, Ne.symm h]
    · by_cases h2 : k'' = k'
      · subst h2
        simp [mapSet, mapGet, h1]
      · simp [mapSet, mapGet, h1, h2, ih]

theorem mapGet_isSome_iff (m : List (κ × ν)) (k : κ) :
    (∃ v, mapGet m k = some v) ↔ k ∈ m.map Prod.fst := by
  induction m with
  | nil => simp [mapGet]
  | cons a r ih =>
    obtain ⟨k', v'⟩ := a
    by_cases h : k' = k
    · simp [mapGet, h]
    · simp only [mapGet, h, if_false, ih, List.map_cons, List.mem_cons]
      constructor
      · intro h1; exact Or.inr h1
      · rintro (h1 | h1)
        · exact absurd h1.symm h
        · exact h1

theorem mapSet_keys_of_mem (m : List (κ × ν)) (k : κ) (v : ν) (h : k ∈ m.map Prod.fst) :
    (mapSet m k v).map Prod.fst = m.map Prod.fst := by
  induction m with
  | nil => simp at h
  | cons a r ih =>
    obtain ⟨k', v'⟩ := a
    by_cases h1 : k' = k
    · simp [mapSet, h1]
    · simp only [List.map_cons, List.mem_cons] at h
      rcases h with h | h
      · exact absurd h.symm h1
      · simp [mapSet, h1, ih h]

theorem mapSet_keys_of_not_mem (m : List (κ × ν)) (k : κ) (v : ν) (h : k ∉ m.map Prod.fst) :
    (mapSet m k v).map Prod.fst = m.map Prod.fst ++ [k] := by
  induction m with
  | nil => simp [mapSet]
  | cons a r ih =>
    obtain ⟨k', v'⟩ := a
    simp only [List.map_cons, List.mem_cons, not_or] at h
    have h1 : ¬ k' = k := fun e => h.1 e.symm
    simp [mapSet, h1, ih h.2]

theorem mapGet_of_mem (m : List (κ × ν)) (hnd : (m.map Prod.fst).Nodup) (k : κ) (v : ν)
    (h : (k, v) ∈ m) : mapGet m k = some v := by
  induction m with
  | nil => simp at h
  | cons a r ih =>
    obtain ⟨k', v'⟩ := a
    simp only [List.map_cons, List.nodup_cons] at hnd
    simp only [List.mem_cons, Prod.mk.injEq] at h
    rcases h with ⟨h1, h2⟩ | h
    · simp [mapGet, h1, h2]
    · have : k' ≠ k := by
        rintro rfl
        exact hnd.1 (List.mem_map.mpr ⟨(k', v), h, rfl⟩)
      simp [mapGet, this, ih hnd.2 h]

theorem mem_of_mapGet (m : List (κ × ν)) (k : κ) (v : ν) (h : mapGet m k = some v) :
    (k, v) ∈ m := by
  induction m with
  | nil => simp [mapGet] at h
  | cons a r ih =>
    obtain ⟨k', v'⟩ := a
    by_cases h1 : k' = k
    · simp [mapGet, h1] at h
      simp [h1, h]
    · simp [mapGet, h1] at h
      exact List.mem_cons_of_mem _ (ih h)

end maps

theorem minCost_le_init (m : Int) (l : List (Option node × nodeInfo)) : minCost m l ≤ m := by
  induction l generalizing m with
  | nil => simp [minCost]
  | cons e r ih =>
    simp only [minCost]
    split
    · exact le_trans (ih _) (le_of_lt ‹_›)
    · exact ih _

theorem minCost_le_mem (m : Int) (l : List (Option node × nodeInfo)) :
    ∀ e ∈ l, minCost m l ≤ e.2.Cost := by
  induction l generalizing m with
  | nil => simp
  | cons e r ih =>
    intro x hx
    simp only [minCost]
    rcases List.mem_cons.mp hx with rfl | hx
    · split
      · exact minCost_le_init _ _
      · exact le_trans (minCost_le_init _ _) (not_lt.mp ‹_›)
    · exact ih _ x hx

theorem minCost_attained (m : Int) (l : List (Option node × nodeInfo)) :
    minCost m l = m ∨ ∃ e ∈ l, e.2.Cost = minCost m l := by
  induction l generalizing m with
  | nil => simp [minCost]
  | cons e r ih =>
    simp only [minCost]
    split
    · rcases ih e.2.Cost with h | ⟨x, hx, h⟩
      · exact Or.inr ⟨e, List.mem_cons_self _ _, h.symm⟩
      · exact Or.inr ⟨x, List.mem_cons_of_mem _ hx, h⟩
    · rcases ih m with h | ⟨x, hx, h⟩
      · exact Or.inl h
      · exact Or.inr ⟨x, List.mem_cons_of_mem _ hx, h⟩

/-- What `getClosestNonVisitedNode` returns: an unvisited row of least cost. -/
theorem getClosest_spec (t : List (Option node × nodeInfo)) (vis : List (Option node)) (pick : Nat)
    (cur : Option node) (h : getClosestNonVisitedNode t vis pick = .ok cur) :
    cur ∉ vis ∧ ∃ ni, (cur, ni) ∈ t ∧ ∀ x nx, (x, nx) ∈ t → x ∉ vis → ni.Cost ≤ nx.Cost := by
  unfold getClosestNonVisitedNode at h
  split at h
  · simp at h
  · rename_i c cs hf
    have hmemf : ∀ e, e ∈ c :: cs ↔ e ∈ t ∧ e.1 ∉ vis := by
      intro e; rw [← hf]; simp [List.mem_filter]
    have hmin : ∀ e ∈ c :: cs, minCost c.2.Cost cs ≤ e.2.Cost := by
      intro e he
      rcases List.mem_cons.mp he with rfl | he
      · exact minCost_le_init _ _
      · exact minCost_le_mem _ _ e he
    have key : ∀ e ∈ c :: cs, e.2.Cost = minCost c.2.Cost cs →
        e.1 ∉ vis ∧ ∃ ni, (e.1, ni) ∈ t ∧ ∀ x nx, (x, nx) ∈ t → x ∉ vis → ni.Cost ≤ nx.Cost := by
      intro e he hc
      have := (hmemf e).mp he
      refine ⟨this.2, e.2, this.1, ?_⟩
      intro x nx hx hxv
      rw [hc]
      exact hmin (x, nx) ((hmemf _).mpr ⟨hx, hxv⟩)
    simp only at h
    split at h
    · rename_i e he
      injection h with h
      subst h
      have hm := List.get?_mem he
      rw [List.mem_filter] at hm
      exact key e hm.1 (by simpa using hm.2)
    · injection h with h
      subst h
      rename_i hnone
      -- the list of ties is not empty
      exfalso
      have hne : ((c :: cs).filter (fun e => decide (e.2.Cost = minCost c.2.Cost cs))) ≠ [] := by
        rcases minCost_attained c.2.Cost cs with h1 | ⟨x, hx, h1⟩
        · intro hh
          have : c ∈ (c :: cs).filter (fun e => decide (e.2.Cost = minCost c.2.Cost cs)) := by
            rw [List.mem_filter]; exact ⟨List.mem_cons_self _ _, by simp [h1]⟩
          rw [hh] at this; simp at this
        · intro hh
          have : x ∈ (c :: cs).filter (fun e => decide (e.2.Cost = minCost c.2.Cost cs)) := by
            rw [List.mem_filter]; exact ⟨List.mem_cons_of_mem _ hx, by simp [h1]⟩
          rw [hh] at this; simp at this
      rw [List.get?_eq_none] at hnone
      have hpos : 0 < ((c :: cs).filter (fun e => decide (e.2.Cost = minCost c.2.Cost cs))).length :=
        List.length_pos.mpr hne
      have := Nat.mod_lt pick hpos
      omega

/-- `getClosestNonVisitedNode` fails only when every row is visited. -/
theorem getClosest_ok (t : List (Option node × nodeInfo)) (vis : List (Option node)) (pick : Nat)
    (x : Option node × nodeInfo) (hx : x ∈ t) (hv : x.1 ∉ vis) :
    ∃ cur, getClosestNonVisitedNode t vis pick = .ok cur := by
  unfold getClosestNonVisitedNode
  split
  · rename_i hf
    have : x ∈ t.filter (fun e => decide (e.1 ∉ vis)) := by
      rw [List.mem_filter]; exact ⟨hx, by simpa using hv⟩
    rw [hf] at this; simp at this
  · simp only
    split
    · exact ⟨_, rfl⟩
    · exact ⟨_, rfl⟩


theorem mem_get? {α : Type} (l : List α) (x : α) (h : x ∈ l) : ∃ i, l.get? i = some x := by
  obtain ⟨i, hi, hx⟩ := List.mem_iff_getElem.mp h
  exact ⟨i, by rw [List.get?_eq_getElem?, List.getElem?_eq_getElem hi, hx]⟩

theorem get?_of_length_eq {α β : Type} (l : List α) (l' : List β) (h : l.length = l'.length)
    (i : Nat) (x : α) (hx : l.get? i = some x) : ∃ y, l'.get? i = some y := by
  have hi : i < l.length := by
    by_contra hcon
    rw [List.get?_eq_none.mpr (by omega)] at hx
    simp at hx
  exact ⟨l'[i], by rw [List.get?_eq_getElem?, List.getElem?_eq_getElem (by omega)]⟩


/-! ## The reversal of a slice -/

theorem swapAt_length (n : List (List String)) (i j : Nat) : (swapAt n i j).length = n.length := by
  simp [swapAt]

theorem swapAt_get (n : List (List String)) (i j p : Nat) (hi : i < n.length) (hj : j < n.length) :
    (swapAt n i j)[p]? = if p = j then n[i]? else if p = i then n[j]? else n[p]? := by
  unfold swapAt
  rw [List.getElem?_set]
  by_cases h1 : j = p
  · subst h1
    simp [List.getD_eq_getElem?_getD, List.getElem?_eq_getElem hi, hj]
  · rw [if_neg h1, if_neg (Ne.symm h1), List.getElem?_set]
    by_cases h2 : i = p
    · subst h2
      simp [List.getD_eq_getElem?_getD, List.getElem?_eq_getElem hj, hi]
    · rw [if_neg h2, if_neg (Ne.symm h2)]

theorem reverseLoop_spec (n : List (List String)) (hL : 0 < n.length) :
    ∀ (fuel i j : Nat) (m : List (List String)), m.length = n.length →
    i + j = n.length - 1 → j < i + 2 * fuel + 1 →
    (∀ p, p < n.length → m[p]? = if p < i ∨ j < p then n[n.length - 1 - p]? else n[p]?) →
    reverseLoop fuel i j m = n.reverse := by
  have fin : ∀ (i j : Nat) (m : List (List String)), m.length = n.length →
      i + j = n.length - 1 → j ≤ i →
      (∀ p, p < n.length → m[p]? = if p < i ∨ j < p then n[n.length - 1 - p]? else n[p]?) →
      m = n.reverse := by
    intro i j m hm hij hji hinv
    apply List.ext_getElem?
    intro p
    by_cases hp : p < n.length
    · rw [hinv p hp, List.getElem?_reverse hp]
      split
      · rfl
      · rename_i hc
        have : p = n.length - 1 - p := by omega
        rw [← this]
    · rw [List.getElem?_eq_none (by omega), List.getElem?_eq_none (by simp; omega)]
  intro fuel
  induction fuel with
  | zero =>
    intro i j m hm hij hf hinv
    simp only [reverseLoop]
    exact fin i j m hm hij (by omega) hinv
  | succ fuel ih =>
    intro i j m hm hij hf hinv
    simp only [reverseLoop]
    split
    · rename_i hlt
      apply ih (i + 1) (j - 1) (swapAt m i j) (by rw [swapAt_length, hm]) (by omega) (by omega)
      intro p hp
      rw [swapAt_get m i j p (by omega) (by omega)]
      by_cases h1 : p = j
      · subst h1
        rw [if_pos rfl, if_pos (by omega), hinv i (by omega), if_neg (by omega)]
        congr 1
        omega
      · rw [if_neg h1]
        by_cases h2 : p = i
        · subst h2
          rw [if_pos rfl, if_pos (by omega), hinv j (by omega), if_neg (by omega)]
          congr 1
          omega
        · rw [if_neg h2, hinv p hp]
          by_cases h3 : p < i ∨ j < p
          · rw [if_pos h3, if_pos (by omega)]
          · rw [if_neg h3, if_neg (by omega)]
    · rename_i hlt
      exact fin i j m hm hij (by omega) hinv

/-- The exchange loop of `reverseSlice` reverses the slice. -/
theorem reverseSlice_eq_reverse (n : List (List String)) : reverseSlice n = n.reverse := by
  unfold reverseSlice
  cases hn : n with
  | nil => simp [reverseLoop]
  | cons a r =>
    rw [← hn]
    have hL : 0 < n.length := by rw [hn]; simp
    apply reverseLoop_spec n hL n.length 0 (n.length - 1) n rfl (by omega) (by omega)
    intro p hp
    rw [if_neg (by omega)]

/-! ## Arithmetic and the store of backing arrays -/


theorem relaxCost (c : Int) (h0 : 0 ≤ c) (h1 : c ≤ infinity) :
    positiveCheck (wrap64 (c + 1)) = if c = infinity then infinity else c + 1 := by
  unfold positiveCheck wrap64 infinity at *
  split_ifs <;> omega

theorem getD_set_heap {α : Type} (heap : List (List α)) (a b : Nat) (X : List α) (ha : a < heap.length) :
    (heap.set a X).getD b [] = if b = a then X else heap.getD b [] := by
  simp only [List.getD_eq_getElem?_getD]
  by_cases h : b = a
  · subst h
    simp [List.getElem?_set, ha]
  · simp [List.getElem?_set, h, Ne.symm h]

theorem getD_append_heap {α : Type} (heap : List (List α)) (b : Nat) (B : List α) (hb : b < heap.length) :
    (heap ++ [B]).getD b [] = heap.getD b [] := by
  simp only [List.getD_eq_getElem?_getD]
  rw [List.getElem?_append_left hb]

theorem getD_append_heap_self {α : Type} (heap : List (List α)) (B : List α) :
    (heap ++ [B]).getD heap.length [] = B := by
  simp [List.getD_eq_getElem?_getD]


theorem appendPath_len (grow : Nat → Nat) (heap : List (List (List String))) (s : slice)
    (x : List String) : (appendPath grow heap s x).2.len = s.len + 1 := by
  unfold appendPath; split <;> rfl

theorem appendPath_heap_length (grow : Nat → Nat) (heap : List (List (List String))) (s : slice)
    (x : List String) : heap.length ≤ (appendPath grow heap s x).1.length := by
  unfold appendPath; split <;> simp

theorem appendPath_ok (grow : Nat → Nat) (heap : List (List (List String))) (s : slice)
    (x : List String) (hs : sliceOk heap s) :
    (appendPath grow heap s x).2.arr < (appendPath grow heap s x).1.length ∧
    ((appendPath grow heap s x).1.getD (appendPath grow heap s x).2.arr []).length
      = (appendPath grow heap s x).2.cap ∧
    (appendPath grow heap s x).2.len ≤ (appendPath grow heap s x).2.cap := by
  unfold appendPath
  split
  · rename_i hlt
    rcases hs with hs | ⟨h1, h2, h3⟩
    · rw [hs] at hlt; simp [nilSlice] at hlt
    · refine ⟨by simpa using h1, ?_, by simpa using hlt⟩
      simp only
      rw [getD_set_heap _ _ _ _ h1]
      simpa using h2
  · rename_i hlt
    refine ⟨by simp, ?_, by simp⟩
    simp only
    rw [getD_append_heap_self]
    have hl : (readSlice heap s).length = s.len := by
      unfold readSlice
      rcases hs with hs | ⟨h1, h2, h3⟩
      · rw [hs]; simp [nilSlice]
      · simp only [List.getD_eq_getElem?_getD] at *; simp; omega
    simp [hl]
    omega

/-- Below the old length the appended slice reads what the old slice read. -/
theorem appendPath_old (grow : Nat → Nat) (heap : List (List (List String))) (s : slice)
    (x : List String) (hs : sliceOk heap s) (i : Nat) (hi : i < s.len) :
    ((appendPath grow heap s x).1.getD (appendPath grow heap s x).2.arr []).get? i
      = (heap.getD s.arr []).get? i := by
  unfold appendPath
  split
  · rename_i hlt
    rcases hs with hs | ⟨h1, h2, h3⟩
    · rw [hs] at hlt; simp [nilSlice] at hlt
    · simp only
      rw [getD_set_heap _ _ _ _ h1]
      simp only [if_true, List.get?_eq_getElem?]
      rw [List.getElem?_set]
      have : ¬ s.len = i := by omega
      simp [this]
  · simp only
    rw [getD_append_heap_self]
    rcases hs with hs | ⟨h1, h2, h3⟩
    · rw [hs] at hi; simp [nilSlice] at hi
    · unfold readSlice
      simp only [List.get?_eq_getElem?]
      simp only [List.getD_eq_getElem?_getD] at *
      rw [List.getElem?_append_left (by simp; omega)]
      rw [List.getElem?_take]
      simp [hi]

/-- At the old length the appended slice reads the new element. -/
theorem appendPath_new (grow : Nat → Nat) (heap : List (List (List String))) (s : slice)
    (x : List String) (hs : sliceOk heap s) :
    ((appendPath grow heap s x).1.getD (appendPath grow heap s x).2.arr []).get? s.len = some x := by
  unfold appendPath
  split
  · rename_i hlt
    rcases hs with hs | ⟨h1, h2, h3⟩
    · rw [hs] at hlt; simp [nilSlice] at hlt
    · simp only
      rw [getD_set_heap _ _ _ _ h1]
      simp only [if_true, List.get?_eq_getElem?]
      rw [List.getElem?_set]
      simp only [List.getD_eq_getElem?_getD] at *
      simp; omega
  · simp only
    rw [getD_append_heap_self]
    have hl : (readSlice heap s).length = s.len := by
      unfold readSlice
      rcases hs with hs | ⟨h1, h2, h3⟩
      · rw [hs]; simp [nilSlice]
      · simp only [List.getD_eq_getElem?_getD] at *; simp; omega
    simp only [List.get?_eq_getElem?]
    rw [List.getElem?_append_right (by omega)]
    simp [hl]

/-- Effect of an append on the arrays that existed before: lengths stay, and a cell
changes only by receiving the appended element at the old length of the slice. -/
theorem appendPath_frame (grow : Nat → Nat) (heap : List (List (List String))) (s : slice)
    (x : List String) (a : Nat) (ha : a < heap.length) :
    ((appendPath grow heap s x).1.getD a []).length = (heap.getD a []).length ∧
    ∀ i, ((appendPath grow heap s x).1.getD a []).get? i = (heap.getD a []).get? i ∨
      (a = s.arr ∧ i = s.len ∧ s.len < s.cap ∧
        ((appendPath grow heap s x).1.getD a []).get? i = some x) := by
  unfold appendPath
  split
  · rename_i hlt
    simp only
    by_cases h1 : s.arr < heap.length
    · rw [getD_set_heap _ _ _ _ h1]
      by_cases h2 : a = s.arr
      · subst h2
        simp only [if_true, List.length_set, true_and]
        intro i
        by_cases h3 : i = s.len
        · subst h3
          by_cases h4 : s.len < (heap.getD s.arr []).length
          · right
            simp only [List.getD_eq_getElem?_getD] at h4
            simp [List.getElem?_set, h4, hlt]
          · left
            rw [List.set_eq_of_length_le (by omega)]
        · left
          simp only [List.get?_eq_getElem?]
          rw [List.getElem?_set]
          simp [Ne.symm h3]
      · simp [h2]
    · rw [List.set_eq_of_length_le (by omega)]
      simp
  · simp only
    rw [getD_append_heap _ _ _ ha]
    simp


/-! ## Relaxation of one edge -/


/-- The three ways in which the relaxation of one edge can succeed. -/
theorem relaxEdge_cases (grow : Nat → Nat) (start cur : Option node)
    (t t' : List (Option node × nodeInfo)) (heap heap' : List (List (List String))) (e : edge)
    (h : relaxEdge grow start cur (t, heap) e = .ok (t', heap')) :
    ∃ ni ci, mapGet t cur = some ni ∧ mapGet t e.Child = some ci ∧
      ((¬ positiveCheck (wrap64 (ni.Cost + e.Cost)) < ci.Cost ∧ t' = t ∧ heap' = heap) ∨
       (positiveCheck (wrap64 (ni.Cost + e.Cost)) < ci.Cost ∧ cur = start ∧
          t' = mapSet t e.Child ⟨positiveCheck (wrap64 (ni.Cost + e.Cost)), ci.path⟩ ∧ heap' = heap) ∨
       (positiveCheck (wrap64 (ni.Cost + e.Cost)) < ci.Cost ∧ cur ≠ start ∧ ∃ n, cur = some n ∧
          t' = mapSet t e.Child ⟨positiveCheck (wrap64 (ni.Cost + e.Cost)),
                (appendPath grow heap ni.path [n.Name, n.Created]).2⟩ ∧
          heap' = (appendPath grow heap ni.path [n.Name, n.Created]).1)) := by
  unfold relaxEdge at h
  simp only at h
  split at h
  · simp at h
  · rename_i ni hni
    split at h
    · simp at h
    · rename_i ci hci
      refine ⟨ni, ci, hni, hci, ?_⟩
      split at h
      · rename_i hd
        split at h
        · rename_i hne
          split at h
          · simp at h
          · rename_i n
            injection h with h
            injection h with h1 h2
            exact Or.inr (Or.inr ⟨hd, hne, n, rfl, h1.symm, h2.symm⟩)
        · rename_i hne
          injection h with h
          injection h with h1 h2
          exact Or.inr (Or.inl ⟨hd, not_not.mp hne, h1.symm, h2.symm⟩)
      · rename_i hd
        injection h with h
        injection h with h1 h2
        exact Or.inl ⟨hd, h1.symm, h2.symm⟩

/-- The relaxation of an edge fails only on a nil dereference. -/
theorem relaxEdge_ok (grow : Nat → Nat) (start cur : Option node)
    (t : List (Option node × nodeInfo)) (heap : List (List (List String))) (e : edge)
    (h1 : ∃ ni, mapGet t cur = some ni) (h2 : ∃ ci, mapGet t e.Child = some ci)
    (h3 : cur ≠ none) : ∃ st, relaxEdge grow start cur (t, heap) e = .ok st := by
  obtain ⟨ni, hni⟩ := h1
  obtain ⟨ci, hci⟩ := h2
  unfold relaxEdge
  simp only [hni, hci]
  split
  · split
    · cases cur with
      | none => exact absurd rfl h3
      | some n => exact ⟨_, rfl⟩
    · exact ⟨_, rfl⟩
  · exact ⟨_, rfl⟩

theorem Reach_step (g : graph) (a m b : Option node) (n : Nat) (h : Reach g a n m)
    (e : edge) (he : e ∈ g.Edges) (hp : e.Parent = m) (hc : e.Child = b) : Reach g a (n + 1) b :=
  ⟨m, h, e, he, hp, hc⟩

/-- Relaxing an edge of the current node keeps the cost invariant. -/
theorem relaxEdge_costInv (grow : Nat → Nat) (g : graph) (start : Option node)
    (K V : List (Option node)) (R : edge → Prop) (m : Int) (cur : Option node)
    (t t' : List (Option node × nodeInfo)) (heap heap' : List (List (List String))) (e : edge)
    (hI : RelaxInv g start K V R m cur (t, heap))
    (he : e ∈ g.Edges) (hp : e.Parent = cur) (hc : e.Cost = 1)
    (h : relaxEdge grow start cur (t, heap) e = .ok (t', heap')) :
    CostInv g start V (fun e' => R e' ∨ e' = e) m t' ∧ t'.map Prod.fst = K ∧
      ∃ ni, mapGet t' cur = some ni ∧ ni.Cost = m := by
  obtain ⟨ni, ci, hni, hci, hcase⟩ := relaxEdge_cases grow start cur t t' heap heap' e h
  obtain ⟨ni0, hni0, hm⟩ := hI.cur_cost
  simp only at hni0
  rw [hni] at hni0
  injection hni0 with hni0
  subst hni0
  have hC := hI.cost
  have hrange := hC.range cur ni hni
  rw [hm] at hrange
  have hd : positiveCheck (wrap64 (ni.Cost + e.Cost)) = if m = infinity then infinity else m + 1 := by
    rw [hc, hm]; exact relaxCost m hrange.1 hrange.2
  have hcr := hC.range e.Child ci hci
  -- the case without update
  have noupd : t' = t → ¬ positiveCheck (wrap64 (ni.Cost + e.Cost)) < ci.Cost →
      CostInv g start V (fun e' => R e' ∨ e' = e) m t' ∧ t'.map Prod.fst = K ∧
      ∃ ni, mapGet t' cur = some ni ∧ ni.Cost = m := by
    intro ht hnd
    subst ht
    refine ⟨⟨hC.start_row, hC.range, hC.sound, ?_, ?_, hC.vis_le, hC.unvis_ge, hC.bound_vis,
      hC.bound_unvis, hC.frontier⟩, hI.keys, ni, hni, hm⟩
    · rintro e' (hR | rfl) np nc hnp hnc hfin
      · exact hC.relaxed e' hR np nc hnp hnc hfin
      · rw [hp, hni] at hnp
        injection hnp with hnp
        subst hnp
        rw [hci] at hnc
        injection hnc with hnc
        subst hnc
        rw [hd] at hnd
        rw [hm] at hfin ⊢
        have : m ≠ infinity := ne_of_lt hfin
        simp only [this, if_false] at hnd
        omega
    · rintro e' (hR | rfl)
      · exact hC.relaxed_parent e' hR
      · rw [hp]; exact hI.cur_mem
  -- the case with update
  have upd : ∀ p, positiveCheck (wrap64 (ni.Cost + e.Cost)) < ci.Cost →
      t' = mapSet t e.Child ⟨positiveCheck (wrap64 (ni.Cost + e.Cost)), p⟩ →
      CostInv g start V (fun e' => R e' ∨ e' = e) m t' ∧ t'.map Prod.fst = K ∧
      ∃ ni, mapGet t' cur = some ni ∧ ni.Cost = m := by
    intro p hlt ht
    rw [hd] at hlt ht
    have hmfin : m ≠ infinity := by
      intro hmi
      simp only [hmi, if_true] at hlt
      omega
    simp only [hmfin, if_false] at hlt ht
    have hmlt : m < infinity := lt_of_le_of_ne hrange.2 hmfin
    have hwV : e.Child ∉ V := by
      intro hw
      have := hC.vis_le e.Child hw ci hci
      omega
    have hwcur : e.Child ≠ cur := fun hh => hwV (hh ▸ hI.cur_mem)
    have hget : ∀ v, v ≠ e.Child → mapGet t' v = mapGet t v := by
      intro v hv; rw [ht]; exact mapGet_mapSet_ne _ _ _ _ hv
    have hgetw : mapGet t' e.Child = some ⟨m + 1, p⟩ := by
      rw [ht]; exact mapGet_mapSet_self _ _ _
    have hrow : ∀ v nv, mapGet t' v = some nv →
        (v ≠ e.Child ∧ mapGet t v = some nv) ∨ (v = e.Child ∧ nv = ⟨m + 1, p⟩) := by
      intro v nv hv
      by_cases hvw : v = e.Child
      · subst hvw
        rw [hgetw] at hv
        injection hv with hv
        exact Or.inr ⟨rfl, hv.symm⟩
      · rw [hget v hvw] at hv
        exact Or.inl ⟨hvw, hv⟩
    refine ⟨⟨?_, ?_, ?_, ?_, ?_, ?_, ?_, ?_, ?_, ?_⟩, ?_, ni, ?_, hm⟩
    · obtain ⟨ns, hns, hns0⟩ := hC.start_row
      refine ⟨ns, ?_, hns0⟩
      rw [hget]
      · exact hns
      · intro hh
        rw [hh, hci] at hns
        injection hns with hns
        subst hns
        omega
    · intro v nv hv
      rcases hrow v nv hv with ⟨_, h1⟩ | ⟨_, h1⟩
      · exact hC.range v nv h1
      · subst h1
        simp only
        constructor <;> omega
    · intro v nv hv hfin
      rcases hrow v nv hv with ⟨_, h1⟩ | ⟨h0, h1⟩
      · exact hC.sound v nv h1 hfin
      · subst h1
        obtain ⟨n, hn, hreach⟩ := hC.sound cur ni hni (by rw [hm]; exact hmlt)
        refine ⟨n + 1, ?_, ?_⟩
        · simp only; push_cast; rw [hn, hm]
        · rw [h0]; exact Reach_step g start cur e.Child n hreach e he hp rfl
    · rintro e' (hR | rfl) np nc hnp hnc hfin
      · have hpV := hC.relaxed_parent e' hR
        have hpne : e'.Parent ≠ e.Child := fun hh => hwV (hh ▸ hpV)
        rw [hget _ hpne] at hnp
        rcases hrow _ nc hnc with ⟨_, h1⟩ | ⟨h0, h1⟩
        · exact hC.relaxed e' hR np nc hnp h1 hfin
        · subst h1
          simp only
          rw [h0] at hnc
          have := hC.relaxed e' hR np ci hnp (by rw [h0]; exact hci) hfin
          omega
      · rw [hp, hget _ (Ne.symm hwcur), hni] at hnp
        injection hnp with hnp
        subst hnp
        rw [hgetw] at hnc
        injection hnc with hnc
        subst hnc
        simp only
        omega
    · rintro e' (hR | rfl)
      · exact hC.relaxed_parent e' hR
      · rw [hp]; exact hI.cur_mem
    · intro u hu nu hnu
      have : u ≠ e.Child := fun hh => hwV (hh ▸ hu)
      rw [hget u this] at hnu
      exact hC.vis_le u hu nu hnu
    · intro x hx nx hnx
      rcases hrow x nx hnx with ⟨_, h1⟩ | ⟨_, h1⟩
      · exact hC.unvis_ge x hx nx h1
      · subst h1; simp only; omega
    · intro u hu nu hnu
      have : u ≠ e.Child := fun hh => hwV (hh ▸ hu)
      rw [hget u this] at hnu
      exact hC.bound_vis u hu nu hnu
    · intro x hx nx hnx hfin
      rcases hrow x nx hnx with ⟨_, h1⟩ | ⟨_, h1⟩
      · exact hC.bound_unvis x hx nx h1 hfin
      · subst h1
        simp only
        have := hC.bound_vis cur hI.cur_mem ni hni (by rw [hm]; exact hmlt)
        omega
    · intro x hx nx hnx hfin
      rcases hrow x nx hnx with ⟨_, h1⟩ | ⟨_, h1⟩
      · exact hC.frontier x hx nx h1 hfin
      · subst h1; simp only; omega
    · rw [ht, mapSet_keys_of_mem]
      · exact hI.keys
      · exact (mapGet_isSome_iff t e.Child).mp ⟨ci, hci⟩
    · rw [hget _ (Ne.symm hwcur)]; exact hni
  rcases hcase with ⟨h1, h2, _⟩ | ⟨h1, _, h2, _⟩ | ⟨h1, _, n, _, h2, _⟩
  · exact noupd h2 h1
  · exact upd _ h1 h2
  · exact upd _ h1 h2



/-- Relaxing an edge of the current node keeps the path invariant. -/
theorem relaxEdge_pathInv (grow : Nat → Nat) (g : graph) (start : Option node)
    (K V : List (Option node)) (R : edge → Prop) (m : Int) (cur : Option node)
    (t t' : List (Option node × nodeInfo)) (heap heap' : List (List (List String))) (e : edge)
    (hI : RelaxInv g start K V R m cur (t, heap)) (hc : e.Cost = 1)
    (h : relaxEdge grow start cur (t, heap) e = .ok (t', heap')) :
    PathInv start V t' heap' := by
  obtain ⟨ni, ci, hni, hci, hcase⟩ := relaxEdge_cases grow start cur t t' heap heap' e h
  obtain ⟨ni0, hni0, hm⟩ := hI.cur_cost
  simp only at hni0
  rw [hni] at hni0
  injection hni0 with hni0
  subst hni0
  have hC := hI.cost
  have hP := hI.path
  simp only at hC hP
  have hrange := hC.range cur ni hni
  rw [hm] at hrange
  have hd : positiveCheck (wrap64 (ni.Cost + e.Cost)) = if m = infinity then infinity else m + 1 := by
    rw [hc, hm]; exact relaxCost m hrange.1 hrange.2
  have hcr := hC.range e.Child ci hci
  -- facts shared by the two updating cases
  have common : positiveCheck (wrap64 (ni.Cost + e.Cost)) < ci.Cost →
      positiveCheck (wrap64 (ni.Cost + e.Cost)) = m + 1 ∧ m + 1 < ci.Cost ∧ m < infinity ∧
      e.Child ∉ V ∧ e.Child ≠ start ∧ ci.Cost = infinity := by
    intro hlt
    rw [hd] at hlt ⊢
    have hmfin : m ≠ infinity := by
      intro hmi
      simp only [hmi, if_true] at hlt
      omega
    simp only [hmfin, if_false] at hlt ⊢
    have hwV : e.Child ∉ V := by
      intro hw
      have := hC.vis_le e.Child hw ci hci
      omega
    refine ⟨trivial, hlt, lt_of_le_of_ne hrange.2 hmfin, hwV, ?_, ?_⟩
    · intro hh
      obtain ⟨ns, hns, hns0⟩ := hC.start_row
      rw [← hh, hci] at hns
      injection hns with hns
      subst hns
      omega
    · by_contra hne
      have := hC.frontier e.Child hwV ci hci (lt_of_le_of_ne hcr.2 hne)
      omega
  rcases hcase with ⟨h1, h2, h3⟩ | ⟨h1, hcs, h2, h3⟩ | ⟨h1, hcs, n, hn, h2, h3⟩
  · subst h2; subst h3; exact hP
  · -- the current node is the start node: the child keeps its (nil) path
    obtain ⟨hd', hlt, hmlt, hwV, hws, hinf⟩ := common h1
    rw [hd'] at h2
    subst h3
    have hm0 : m = 0 := by
      obtain ⟨ns, hns, hns0⟩ := hC.start_row
      rw [← hcs, hni] at hns
      injection hns with hns
      subst hns
      rw [← hm]; exact hns0
    have hcinil : ci.path = nilSlice := hP.inf_nil e.Child ci hci hinf
    have hget : ∀ v, v ≠ e.Child → mapGet t' v = mapGet t v := by
      intro v hv; rw [h2]; exact mapGet_mapSet_ne _ _ _ _ hv
    have hgetw : mapGet t' e.Child = some ⟨m + 1, ci.path⟩ := by
      rw [h2]; exact mapGet_mapSet_self _ _ _
    have hrow : ∀ v nv, mapGet t' v = some nv →
        (v ≠ e.Child ∧ mapGet t v = some nv) ∨ (v = e.Child ∧ nv = ⟨m + 1, ci.path⟩) := by
      intro v nv hv
      by_cases hvw : v = e.Child
      · subst hvw
        rw [hgetw] at hv
        injection hv with hv
        exact Or.inr ⟨rfl, hv.symm⟩
      · rw [hget v hvw] at hv
        exact Or.inl ⟨hvw, hv⟩
    refine ⟨?_, ?_, ?_, ?_, ?_⟩
    · intro ns hns
      rw [hget _ (Ne.symm hws)] at hns
      exact hP.start_nil ns hns
    · intro v nv hv hvi
      rcases hrow v nv hv with ⟨_, h1⟩ | ⟨_, h1⟩
      · exact hP.inf_nil v nv h1 hvi
      · subst h1; exact hcinil
    · intro v nv hv hvs hfin
      rcases hrow v nv hv with ⟨_, h1⟩ | ⟨_, h1⟩
      · exact hP.len v nv h1 hvs hfin
      · subst h1
        simp only [hcinil, nilSlice, hm0]
        norm_num
    · intro v nv hv
      rcases hrow v nv hv with ⟨_, h1⟩ | ⟨_, h1⟩
      · exact hP.wf v nv h1
      · subst h1; exact Or.inl hcinil
    · intro v nv hv i hi
      rcases hrow v nv hv with ⟨_, h1⟩ | ⟨_, h1⟩
      · obtain ⟨n, nn, e1, e2, e3, e4⟩ := hP.entries v nv h1 i hi
        refine ⟨n, nn, e1, e2, ?_, e4⟩
        rw [hget _ (fun hh => hwV (hh ▸ e2))]
        exact e3
      · subst h1
        simp only [hcinil, nilSlice] at hi
        omega
  · -- the general case: the child's path is the current node's path with one more entry
    obtain ⟨hd', hlt, hmlt, hwV, hws, hinf⟩ := common h1
    rw [hd'] at h2
    have hsok : sliceOk heap ni.path := hP.wf cur ni hni
    have hlen : (ni.path.len : Int) + 1 = m := by
      rw [← hm]; exact hP.len cur ni hni hcs (by rw [hm]; exact hmlt)
    have hget : ∀ v, v ≠ e.Child → mapGet t' v = mapGet t v := by
      intro v hv; rw [h2]; exact mapGet_mapSet_ne _ _ _ _ hv
    have hgetw : mapGet t' e.Child =
        some ⟨m + 1, (appendPath grow heap ni.path [n.Name, n.Created]).2⟩ := by
      rw [h2]; exact mapGet_mapSet_self _ _ _
    have hrow : ∀ v nv, mapGet t' v = some nv →
        (v ≠ e.Child ∧ mapGet t v = some nv) ∨
        (v = e.Child ∧ nv = ⟨m + 1, (appendPath grow heap ni.path [n.Name, n.Created]).2⟩) := by
      intro v nv hv
      by_cases hvw : v = e.Child
      · subst hvw
        rw [hgetw] at hv
        injection hv with hv
        exact Or.inr ⟨rfl, hv.symm⟩
      · rw [hget v hvw] at hv
        exact Or.inl ⟨hvw, hv⟩
    have hcurV : some n ∈ V := hn ▸ hI.cur_mem
    have hcurrow : mapGet t' (some n) = some ni := by
      rw [hget _ (fun hh => hwV (hh ▸ hcurV)), ← hn]; exact hni
    obtain ⟨ok1, ok2, ok3⟩ := appendPath_ok grow heap ni.path [n.Name, n.Created] hsok
    subst h3
    refine ⟨?_, ?_, ?_, ?_, ?_⟩
    · intro ns hns
      rw [hget _ (Ne.symm hws)] at hns
      exact hP.start_nil ns hns
    · intro v nv hv hvi
      rcases hrow v nv hv with ⟨_, h1⟩ | ⟨_, h1⟩
      · exact hP.inf_nil v nv h1 hvi
      · subst h1
        simp only at hvi
        omega
    · intro v nv hv hvs hfin
      rcases hrow v nv hv with ⟨_, h1⟩ | ⟨_, h1⟩
      · exact hP.len v nv h1 hvs hfin
      · subst h1
        simp only [appendPath_len]
        push_cast
        omega
    · intro v nv hv
      rcases hrow v nv hv with ⟨_, h1⟩ | ⟨_, h1⟩
      · rcases hP.wf v nv h1 with hw | ⟨w1, w2, w3⟩
        · exact Or.inl hw
        · obtain ⟨f1, _⟩ := appendPath_frame grow heap ni.path [n.Name, n.Created] nv.path.arr w1
          exact Or.inr ⟨lt_of_lt_of_le w1 (appendPath_heap_length _ _ _ _), by rw [f1]; exact w2, w3⟩
      · subst h1
        exact Or.inr ⟨ok1, ok2, ok3⟩
    · intro v nv hv i hi
      rcases hrow v nv hv with ⟨_, h1⟩ | ⟨_, h1⟩
      · obtain ⟨n', nn, e1, e2, e3, e4⟩ := hP.entries v nv h1 i hi
        rcases hP.wf v nv h1 with hw | ⟨w1, w2, w3⟩
        · rw [hw] at hi; simp [nilSlice] at hi
        · obtain ⟨_, f2⟩ := appendPath_frame grow heap ni.path [n.Name, n.Created] nv.path.arr w1
          rcases f2 i with f2 | ⟨_, f3, _, f4⟩
          · refine ⟨n', nn, by rw [f2]; exact e1, e2, ?_, e4⟩
            rw [hget _ (fun hh => hwV (hh ▸ e2))]
            exact e3
          · refine ⟨n, ni, f4, hcurV, hcurrow, ?_⟩
            rw [hm, f3]; omega
      · subst h1
        simp only [appendPath_len] at hi
        by_cases hi' : i < ni.path.len
        · obtain ⟨n', nn, e1, e2, e3, e4⟩ := hP.entries cur ni hni i hi'
          refine ⟨n', nn, ?_, e2, ?_, e4⟩
          · simp only
            rw [appendPath_old grow heap ni.path _ hsok i hi']
            exact e1
          · rw [hget _ (fun hh => hwV (hh ▸ e2))]
            exact e3
        · have hie : i = ni.path.len := by omega
          subst hie
          refine ⟨n, ni, ?_, hcurV, hcurrow, ?_⟩
          · simp only
            exact appendPath_new grow heap ni.path _ hsok
          · rw [hm]; omega

/-- Relaxing an edge of the current node keeps the invariant of the inner loop. -/
theorem relaxEdge_inv (grow : Nat → Nat) (g : graph) (start : Option node)
    (K V : List (Option node)) (R : edge → Prop) (m : Int) (cur : Option node)
    (st st' : List (Option node × nodeInfo) × List (List (List String))) (e : edge)
    (hI : RelaxInv g start K V R m cur st)
    (he : e ∈ g.Edges) (hp : e.Parent = cur) (hc : e.Cost = 1)
    (h : relaxEdge grow start cur st e = .ok st') :
    RelaxInv g start K V (fun e' => R e' ∨ e' = e) m cur st' := by
  obtain ⟨t, heap⟩ := st
  obtain ⟨t', heap'⟩ := st'
  obtain ⟨c1, c2, c3⟩ := relaxEdge_costInv grow g start K V R m cur t t' heap heap' e hI he hp hc h
  exact ⟨c2, c1, relaxEdge_pathInv grow g start K V R m cur t t' heap heap' e hI hc h, hI.cur_mem, c3⟩

/-- The loop over the edges of the current node keeps its invariant and relaxes every
edge it is given. -/
theorem relaxEdges_inv (grow : Nat → Nat) (g : graph) (start : Option node)
    (K V : List (Option node)) (m : Int) (cur : Option node) (es : List edge) :
    ∀ (R : edge → Prop) (st st' : List (Option node × nodeInfo) × List (List (List String))),
    RelaxInv g start K V R m cur st →
    (∀ e ∈ es, e ∈ g.Edges ∧ e.Parent = cur ∧ e.Cost = 1) →
    relaxEdges grow start cur es st = .ok st' →
    RelaxInv g start K V (fun e' => R e' ∨ e' ∈ es) m cur st' := by
  induction es with
  | nil =>
    intro R st st' hI _ h
    simp only [relaxEdges] at h
    injection h with h
    subst h
    have : (fun e' => R e' ∨ e' ∈ ([] : List edge)) = R := by
      funext e'; simp
    rw [this]; exact hI
  | cons e es ih =>
    intro R st st' hI hes h
    simp only [relaxEdges] at h
    split at h
    · simp at h
    · rename_i st1 h1
      obtain ⟨he, hp, hc⟩ := hes e (List.mem_cons_self _ _)
      have hI1 := relaxEdge_inv grow g start K V R m cur st st1 e hI he hp hc h1
      have := ih _ st1 st' hI1 (fun e' he' => hes e' (List.mem_cons_of_mem _ he')) h
      have heq : (fun e' => (R e' ∨ e' = e) ∨ e' ∈ es) = (fun e' => R e' ∨ e' ∈ e :: es) := by
        funext e'; simp [or_assoc]
      rw [heq] at this; exact this

/-- The loop over the edges of the current node does not fail when every child has a row
and the current node is not nil. -/
theorem relaxEdges_ok (grow : Nat → Nat) (g : graph) (start : Option node)
    (K V : List (Option node)) (m : Int) (cur : Option node) (es : List edge) :
    ∀ (R : edge → Prop) (st : List (Option node × nodeInfo) × List (List (List String))),
    RelaxInv g start K V R m cur st →
    (∀ e ∈ es, e ∈ g.Edges ∧ e.Parent = cur ∧ e.Cost = 1) →
    (∀ e ∈ es, e.Child ∈ K) → cur ≠ none →
    ∃ st', relaxEdges grow start cur es st = .ok st' := by
  induction es with
  | nil => intro R st _ _ _ _; exact ⟨st, rfl⟩
  | cons e es ih =>
    intro R st hI hes hch hcur
    obtain ⟨he, hp, hc⟩ := hes e (List.mem_cons_self _ _)
    obtain ⟨nc, hnc, _⟩ := hI.cur_cost
    have hchild : ∃ ci, mapGet st.1 e.Child = some ci := by
      rw [mapGet_isSome_iff, hI.keys]; exact hch e (List.mem_cons_self _ _)
    obtain ⟨st1, h1⟩ := relaxEdge_ok grow start cur st.1 st.2 e ⟨nc, hnc⟩ hchild hcur
    have hI1 := relaxEdge_inv grow g start K V R m cur st st1 e hI he hp hc h1
    obtain ⟨st', h'⟩ := ih _ st1 hI1 (fun e' he' => hes e' (List.mem_cons_of_mem _ he'))
      (fun e' he' => hch e' (List.mem_cons_of_mem _ he')) hcur
    refine ⟨st', ?_⟩
    simp only [relaxEdges]
    rw [show relaxEdge grow start cur st e = .ok st1 from h1]
    exact h'


/-! ## The main loop of the search -/


/-- The rows of a fresh cost table. -/
theorem costTable_fold_get (start : Option node) (l : List (Option node)) :
    ∀ (init : List (Option node × nodeInfo)) (v : Option node),
    mapGet (l.foldl (fun t n => if n ≠ start then mapSet t n ⟨infinity, ⟨0, 0, 0⟩⟩ else t) init) v
      = if v ∈ l ∧ v ≠ start then some ⟨infinity, ⟨0, 0, 0⟩⟩ else mapGet init v := by
  induction l with
  | nil => intro init v; simp
  | cons a r ih =>
    intro init v
    simp only [List.foldl_cons]
    rw [ih]
    by_cases h1 : v ∈ r ∧ v ≠ start
    · have : v ∈ a :: r ∧ v ≠ start := ⟨List.mem_cons_of_mem _ h1.1, h1.2⟩
      simp [h1, this]
    · rw [if_neg h1]
      by_cases h2 : a ≠ start
      · rw [if_pos h2]
        by_cases h3 : v = a
        · subst h3
          rw [mapGet_mapSet_self]
          simp [h2]
        · rw [mapGet_mapSet_ne _ _ _ _ h3]
          have : ¬ (v ∈ a :: r ∧ v ≠ start) := by
            rintro ⟨h4, h5⟩
            rcases List.mem_cons.mp h4 with h4 | h4
            · exact h3 h4
            · exact h1 ⟨h4, h5⟩
          rw [if_neg this]
      · rw [if_neg h2]
        have h2' : a = start := not_not.mp h2
        have : ¬ (v ∈ a :: r ∧ v ≠ start) := by
          rintro ⟨h4, h5⟩
          rcases List.mem_cons.mp h4 with h4 | h4
          · exact h5 (h4.trans h2')
          · exact h1 ⟨h4, h5⟩
        rw [if_neg this]

theorem mapSet_keys_nodup {κ ν : Type} [DecidableEq κ] (m : List (κ × ν)) (k : κ) (v : ν)
    (h : (m.map Prod.fst).Nodup) : ((mapSet m k v).map Prod.fst).Nodup := by
  by_cases hk : k ∈ m.map Prod.fst
  · rw [mapSet_keys_of_mem m k v hk]; exact h
  · rw [mapSet_keys_of_not_mem m k v hk]
    exact List.Nodup.append h (List.nodup_singleton k) (by
      intro x hx hx'
      simp only [List.mem_singleton] at hx'
      exact hk (hx' ▸ hx))

theorem costTable_fold_nodup (start : Option node) (l : List (Option node)) :
    ∀ (init : List (Option node × nodeInfo)), (init.map Prod.fst).Nodup →
    ((l.foldl (fun t n => if n ≠ start then mapSet t n ⟨infinity, ⟨0, 0, 0⟩⟩ else t) init).map
      Prod.fst).Nodup := by
  induction l with
  | nil => intro init h; simpa using h
  | cons a r ih =>
    intro init h
    simp only [List.foldl_cons]
    apply ih
    split
    · exact mapSet_keys_nodup _ _ _ h
    · exact h

theorem newCostTable_get (g : graph) (start v : Option node) :
    mapGet (newCostTable g start) v =
      if v = start then some ⟨0, nilSlice⟩
      else if v ∈ g.Nodes then some ⟨infinity, nilSlice⟩ else none := by
  unfold newCostTable
  rw [costTable_fold_get]
  by_cases h : v = start
  · subst h
    simp [mapSet, mapGet, nilSlice]
  · by_cases h2 : v ∈ g.Nodes
    · simp [h, h2, nilSlice]
    · simp [h, h2, mapSet, mapGet, Ne.symm h]

theorem tableKeys_nodup (g : graph) (start : Option node) : (tableKeys g start).Nodup := by
  unfold tableKeys newCostTable
  apply costTable_fold_nodup
  simp [mapSet]

theorem mem_tableKeys (g : graph) (start v : Option node) :
    v ∈ tableKeys g start ↔ v = start ∨ v ∈ g.Nodes := by
  unfold tableKeys
  rw [← mapGet_isSome_iff, newCostTable_get]
  by_cases h : v = start
  · simp [h]
  · by_cases h2 : v ∈ g.Nodes
    · simp [h, h2]
    · simp [h, h2]

theorem length_le_tableKeys (g : graph) (start : Option node) (hg : g.Nodes.Nodup) :
    g.Nodes.length ≤ (tableKeys g start).length :=
  (List.subperm_of_subset hg (fun v hv => (mem_tableKeys g start v).mpr (Or.inr hv))).length_le

/-- The invariant holds when the search starts. -/
theorem searchInv_init (g : graph) (start : Option node) :
    SearchInv g start (tableKeys g start) ⟨newCostTable g start, [], []⟩ := by
  have hrow : ∀ v ni, mapGet (newCostTable g start) v = some ni →
      (v = start ∧ ni = ⟨0, nilSlice⟩) ∨ (v ≠ start ∧ ni = ⟨infinity, nilSlice⟩) := by
    intro v ni h
    rw [newCostTable_get] at h
    by_cases h1 : v = start
    · simp only [h1, if_true] at h
      injection h with h
      exact Or.inl ⟨h1, h.symm⟩
    · simp only [h1, if_false] at h
      split at h
      · injection h with h
        exact Or.inr ⟨h1, h.symm⟩
      · simp at h
  refine ⟨rfl, ⟨0, ?_⟩, ?_, List.nodup_nil, by simp⟩
  · refine ⟨⟨⟨0, nilSlice⟩, by rw [newCostTable_get]; simp, rfl⟩, ?_, ?_, ?_, ?_, ?_, ?_, ?_, ?_, ?_⟩
    · intro v ni h
      rcases hrow v ni h with ⟨_, h1⟩ | ⟨_, h1⟩ <;> subst h1 <;> simp [infinity]
    · intro v ni h hfin
      rcases hrow v ni h with ⟨h0, h1⟩ | ⟨_, h1⟩
      · subst h1
        exact ⟨0, rfl, h0.symm⟩
      · subst h1; simp at hfin
    · intro e hR; exact absurd hR.2 (by simp)
    · intro e hR; exact absurd hR.2 (by simp)
    · intro u hu; simp at hu
    · intro x _ ni h
      rcases hrow x ni h with ⟨_, h1⟩ | ⟨_, h1⟩ <;> subst h1 <;> simp [infinity]
    · intro u hu; simp at hu
    · intro x _ ni h hfin
      rcases hrow x ni h with ⟨_, h1⟩ | ⟨_, h1⟩
      · subst h1; simp
      · subst h1; simp at hfin
    · intro x _ ni h hfin
      rcases hrow x ni h with ⟨_, h1⟩ | ⟨_, h1⟩
      · subst h1; simp
      · subst h1; simp at hfin
  · refine ⟨?_, ?_, ?_, ?_, ?_⟩
    · intro ni h
      rcases hrow start ni h with ⟨_, h1⟩ | ⟨_, h1⟩ <;> subst h1 <;> rfl
    · intro v ni h _
      rcases hrow v ni h with ⟨_, h1⟩ | ⟨_, h1⟩ <;> subst h1 <;> rfl
    · intro v ni h hv hfin
      rcases hrow v ni h with ⟨h0, _⟩ | ⟨_, h1⟩
      · exact absurd h0 hv
      · subst h1; simp at hfin
    · intro v ni h
      rcases hrow v ni h with ⟨_, h1⟩ | ⟨_, h1⟩ <;> subst h1 <;> exact Or.inl rfl
    · intro v ni h i hi
      rcases hrow v ni h with ⟨_, h1⟩ | ⟨_, h1⟩ <;> subst h1 <;> simp [nilSlice] at hi

/-- The invariant of the inner loop holds when a node has just been chosen. -/
theorem relaxInv_of_searchInv (g : graph) (start : Option node) (K : List (Option node))
    (s : searchState) (pick : Nat) (cur : Option node) (hK : K.Nodup)
    (hI : SearchInv g start K s)
    (hcur : getClosestNonVisitedNode s.costTable s.visited pick = .ok cur) :
    cur ∉ s.visited ∧ cur ∈ K ∧ ∃ m, RelaxInv g start K (s.visited ++ [cur])
      (relaxedOf g s.visited) m cur (s.costTable, s.heap) := by
  obtain ⟨hnv, ni, hrow, hmin⟩ := getClosest_spec _ _ _ _ hcur
  have hnd : (s.costTable.map Prod.fst).Nodup := by rw [hI.keys]; exact hK
  have hget : mapGet s.costTable cur = some ni := mapGet_of_mem _ hnd _ _ hrow
  have hcK : cur ∈ K := by
    rw [← hI.keys]; exact (mapGet_isSome_iff _ _).mp ⟨ni, hget⟩
  obtain ⟨m, hC⟩ := hI.cost
  have hP := hI.path
  have hmc : m ≤ ni.Cost := hC.unvis_ge cur hnv ni hget
  refine ⟨hnv, hcK, ni.Cost, hI.keys, ?_, ?_, by simp, ni, hget, rfl⟩
  · refine ⟨hC.start_row, hC.range, hC.sound, hC.relaxed, ?_, ?_, ?_, ?_, ?_, ?_⟩
    · intro e hR
      exact List.mem_append_left _ (hC.relaxed_parent e hR)
    · intro u hu nu hnu
      rcases List.mem_append.mp hu with hu | hu
      · exact le_trans (hC.vis_le u hu nu hnu) hmc
      · simp only [List.mem_singleton] at hu
        subst hu
        rw [hget] at hnu
        injection hnu with hnu
        subst hnu
        exact le_refl _
    · intro x hx nx hnx
      have hx' : x ∉ s.visited := fun h => hx (List.mem_append_left _ h)
      exact hmin x nx (mem_of_mapGet _ _ _ hnx) hx'
    · intro u hu nu hnu hfin
      rw [List.length_append, List.length_singleton]
      push_cast
      rcases List.mem_append.mp hu with hu | hu
      · have := hC.bound_vis u hu nu hnu hfin
        omega
      · simp only [List.mem_singleton] at hu
        subst hu
        have := hC.bound_unvis u hnv nu hnu hfin
        omega
    · intro x hx nx hnx hfin
      have hx' : x ∉ s.visited := fun h => hx (List.mem_append_left _ h)
      rw [List.length_append, List.length_singleton]
      push_cast
      have := hC.bound_unvis x hx' nx hnx hfin
      omega
    · intro x hx nx hnx hfin
      have hx' : x ∉ s.visited := fun h => hx (List.mem_append_left _ h)
      have := hC.frontier x hx' nx hnx hfin
      omega
  · refine ⟨hP.start_nil, hP.inf_nil, hP.len, hP.wf, ?_⟩
    intro v nv hv i hi
    obtain ⟨n, nn, e1, e2, e3, e4⟩ := hP.entries v nv hv i hi
    exact ⟨n, nn, e1, List.mem_append_left _ e2, e3, e4⟩

/-- One iteration of the main loop keeps the invariant. -/
theorem visitNext_inv (grow : Nat → Nat) (g : graph) (start : Option node)
    (K : List (Option node)) (pick : Nat) (s s' : searchState) (hK : K.Nodup)
    (hg : GraphOk g) (hI : SearchInv g start K s)
    (h : visitNext grow g start pick s = .ok s') :
    SearchInv g start K s' ∧ ∃ cur, cur ∉ s.visited ∧ s'.visited = s.visited ++ [cur] := by
  unfold visitNext at h
  split at h
  · simp at h
  · rename_i cur hcur
    split at h
    · simp at h
    · rename_i st hst
      injection h with h
      subst h
      obtain ⟨hnv, hcK, m, hR⟩ := relaxInv_of_searchInv g start K s pick cur hK hI hcur
      have hes : ∀ e ∈ getNodeEdges g cur, e ∈ g.Edges ∧ e.Parent = cur ∧ e.Cost = 1 := by
        intro e he
        unfold getNodeEdges at he
        rw [List.mem_filter] at he
        exact ⟨he.1, by simpa using he.2, hg.unit e he.1⟩
      have hR' := relaxEdges_inv grow g start K (s.visited ++ [cur]) m cur (getNodeEdges g cur)
        _ _ st hR hes hst
      have heq : (fun e' => relaxedOf g s.visited e' ∨ e' ∈ getNodeEdges g cur)
          = relaxedOf g (s.visited ++ [cur]) := by
        funext e'
        apply propext
        unfold relaxedOf getNodeEdges
        simp only [List.mem_filter, List.mem_append, List.mem_singleton, decide_eq_true_eq]
        tauto
      rw [heq] at hR'
      refine ⟨⟨hR'.keys, ⟨m, hR'.cost⟩, hR'.path, ?_, ?_⟩, cur, hnv, rfl⟩
      · exact List.Nodup.append hI.vis_nodup (List.nodup_singleton cur) (by
          intro x hx hx'
          simp only [List.mem_singleton] at hx'
          exact hnv (hx' ▸ hx))
      · intro v hv
        rcases List.mem_append.mp hv with hv | hv
        · exact hI.vis_sub v hv
        · simp only [List.mem_singleton] at hv
          exact hv ▸ hcK

/-- One iteration of the main loop does not fail while fewer nodes are visited than the
graph has, provided no key of the cost table is nil. -/
theorem visitNext_ok (grow : Nat → Nat) (g : graph) (start : Option node)
    (pick : Nat) (s : searchState) (hg : GraphOk g)
    (hI : SearchInv g start (tableKeys g start) s)
    (hlt : s.visited.length < g.Nodes.length) (hnil : none ∉ tableKeys g start) :
    ∃ s', visitNext grow g start pick s = .ok s' := by
  have hK := tableKeys_nodup g start
  -- some key is not visited
  have hex : ∃ k ∈ tableKeys g start, k ∉ s.visited := by
    by_contra hcon
    push_neg at hcon
    have := (List.subperm_of_subset hK hcon).length_le
    have := length_le_tableKeys g start hg.nodup
    omega
  obtain ⟨k, hk, hkv⟩ := hex
  obtain ⟨nk, hnk⟩ : ∃ v, mapGet s.costTable k = some v := by
    rw [mapGet_isSome_iff, hI.keys]; exact hk
  obtain ⟨cur, hcur⟩ := getClosest_ok s.costTable s.visited pick (k, nk) (mem_of_mapGet _ _ _ hnk) hkv
  obtain ⟨hnv, hcK, m, hR⟩ := relaxInv_of_searchInv g start _ s pick cur hK hI hcur
  have hes : ∀ e ∈ getNodeEdges g cur, e ∈ g.Edges ∧ e.Parent = cur ∧ e.Cost = 1 := by
    intro e he
    unfold getNodeEdges at he
    rw [List.mem_filter] at he
    exact ⟨he.1, by simpa using he.2, hg.unit e he.1⟩
  obtain ⟨st, hst⟩ := relaxEdges_ok grow g start _ (s.visited ++ [cur]) m cur (getNodeEdges g cur)
    _ _ hR hes (fun e he => (mem_tableKeys g start _).mpr (Or.inr (hg.ends e (hes e he).1).2))
    (fun hh => hnil (hh ▸ hcK))
  refine ⟨⟨st.1, st.2, s.visited ++ [cur]⟩, ?_⟩
  unfold visitNext
  rw [hcur]
  simp only
  rw [hst]

/-- The main loop ends without failure, with the invariant, having visited as many nodes
as the graph has. -/
theorem searchLoop_ok (grow : Nat → Nat) (g : graph) (start : Option node)
    (picks : Nat → Nat) (hg : GraphOk g) (hnil : none ∉ tableKeys g start) :
    ∀ (fuel : Nat) (s : searchState), SearchInv g start (tableKeys g start) s →
    s.visited.length + fuel = g.Nodes.length →
    ∃ s', searchLoop grow g start picks fuel s = .ok s' ∧
      SearchInv g start (tableKeys g start) s' ∧ s'.visited.length = g.Nodes.length := by
  intro fuel
  induction fuel with
  | zero =>
    intro s hI hlen
    refine ⟨s, ?_, hI, by omega⟩
    simp only [searchLoop]
    rw [if_neg (by simp; omega)]
  | succ fuel ih =>
    intro s hI hlen
    simp only [searchLoop]
    rw [if_pos (by omega)]
    obtain ⟨s1, h1⟩ := visitNext_ok grow g start (picks s.visited.length) s hg hI (by omega) hnil
    rw [h1]
    simp only
    obtain ⟨hI1, cur, _, hv⟩ := visitNext_inv grow g start _ _ s s1 (tableKeys_nodup g start) hg hI h1
    apply ih s1 hI1
    rw [hv, List.length_append, List.length_singleton]
    omega

/-- Whenever the main loop ends without failure, the invariant holds in its final state. -/
theorem searchLoop_inv (grow : Nat → Nat) (g : graph) (start : Option node)
    (picks : Nat → Nat) (hg : GraphOk g) :
    ∀ (fuel : Nat) (s s' : searchState), SearchInv g start (tableKeys g start) s →
    searchLoop grow g start picks fuel s = .ok s' →
    SearchInv g start (tableKeys g start) s' ∧ s'.visited.length = g.Nodes.length := by
  intro fuel
  induction fuel with
  | zero =>
    intro s s' hI h
    simp only [searchLoop] at h
    split at h
    · simp at h
    · rename_i hc
      injection h with h
      subst h
      exact ⟨hI, not_not.mp hc⟩
  | succ fuel ih =>
    intro s s' hI h
    simp only [searchLoop] at h
    split at h
    · split at h
      · simp at h
      · rename_i s1 h1
        obtain ⟨hI1, _⟩ := visitNext_inv grow g start _ _ s s1 (tableKeys_nodup g start) hg hI h1
        exact ih s1 s' hI1 h
    · rename_i hc
      injection h with h
      subst h
      exact ⟨hI, not_not.mp hc⟩


/-! ## The search as a whole -/


/-- The last loop of `dijkstra` succeeds only if no key is nil and, the table not being
empty, the end node is not nil. -/
theorem selectPath_ok_imp (endNode : Option node) (t : List (Option node × nodeInfo)) :
    ∀ (acc sl : slice), selectPath endNode t acc = .ok sl →
    (∀ k ∈ t.map Prod.fst, k ≠ none) ∧ (t ≠ [] → endNode ≠ none) := by
  induction t with
  | nil => intro acc sl _; simp
  | cons a r ih =>
    intro acc sl h
    obtain ⟨k, info⟩ := a
    cases k with
    | none => simp [selectPath] at h
    | some n =>
      cases endNode with
      | none => simp [selectPath] at h
      | some e =>
        simp only [selectPath] at h
        obtain ⟨h1, _⟩ := ih _ _ h
        refine ⟨?_, by simp⟩
        intro k hk
        simp only [List.map_cons, List.mem_cons] at hk
        rcases hk with hk | hk
        · simp [hk]
        · exact h1 k hk

/-- The last loop of `dijkstra` returns the path of the row of the end node, or what it
started with when there is no such row. -/
theorem selectPath_spec (e : node) (t : List (Option node × nodeInfo)) :
    ∀ (acc : slice), (t.map Prod.fst).Nodup → (∀ k ∈ t.map Prod.fst, k ≠ none) →
    (∀ n, some n ∈ t.map Prod.fst → n.Name = e.Name → n = e) →
    selectPath (some e) t acc =
      .ok (match mapGet t (some e) with | some ni => ni.path | none => acc) := by
  induction t with
  | nil => intro acc _ _ _; simp [selectPath, mapGet]
  | cons a r ih =>
    intro acc hnd hnn hun
    obtain ⟨k, info⟩ := a
    simp only [List.map_cons, List.nodup_cons] at hnd
    cases k with
    | none => exact absurd rfl (hnn none (by simp))
    | some n =>
      simp only [selectPath]
      rw [ih _ hnd.2 (fun k hk => hnn k (by simp [hk]))
        (fun n' hn' => hun n' (by simp [hn']))]
      by_cases hname : n.Name = e.Name
      · have hne : n = e := hun n (by simp) hname
        subst hne
        have : mapGet r (some n) = none := by
          cases hg : mapGet r (some n) with
          | none => rfl
          | some v => exact absurd ((mapGet_isSome_iff r (some n)).mp ⟨v, hg⟩) hnd.1
        simp [mapGet, this]
      · have hne : n ≠ e := fun hh => hname (by rw [hh])
        simp [mapGet, hname, hne]

/-- The last loop of `dijkstra` does not fail when no key is nil and the end node is
not nil. -/
theorem selectPath_ok (e : node) (t : List (Option node × nodeInfo)) :
    ∀ (acc : slice), (∀ k ∈ t.map Prod.fst, k ≠ none) →
    ∃ sl, selectPath (some e) t acc = .ok sl := by
  induction t with
  | nil => intro acc _; exact ⟨acc, rfl⟩
  | cons a r ih =>
    intro acc hnn
    obtain ⟨k, info⟩ := a
    cases k with
    | none => exact absurd rfl (hnn none (by simp))
    | some n =>
      simp only [selectPath]
      exact ih _ (fun k hk => hnn k (by simp [hk]))

/-- What a finished search returned: the final state of the main loop satisfies the
invariant, every node of the graph was visited, no key of the table is nil, the end node
is not nil, and the result is the content of the path of the end node's row (empty
when it has no row). -/
theorem dijkstra_spec (grow : Nat → Nat) (g : graph) (picks : Nat → Nat)
    (start endNode : Option node) (sp : List (List String)) (hg : GraphOk g)
    (hun : ∀ a b, some a ∈ tableKeys g start → endNode = some b → a.Name = b.Name → a = b)
    (h : dijkstra grow g picks start endNode = .ok sp) :
    ∃ s, searchLoop grow g start picks g.Nodes.length ⟨newCostTable g start, [], []⟩ = .ok s ∧
      SearchInv g start (tableKeys g start) s ∧ s.visited.length = g.Nodes.length ∧
      none ∉ tableKeys g start ∧ endNode ≠ none ∧
      ((∃ ni, mapGet s.costTable endNode = some ni ∧ sp = readSlice s.heap ni.path) ∨
       (mapGet s.costTable endNode = none ∧ sp = [])) := by
  unfold dijkstra at h
  split at h
  · simp at h
  · rename_i s hs
    split at h
    · simp at h
    · rename_i sl hsl
      injection h with h
      subst h
      obtain ⟨hI, hlen⟩ := searchLoop_inv grow g start picks hg _ _ s (searchInv_init g start) hs
      obtain ⟨hnn, hne⟩ := selectPath_ok_imp endNode s.costTable _ _ hsl
      have hkeys := hI.keys
      have hstart : start ∈ tableKeys g start := (mem_tableKeys g start start).mpr (Or.inl rfl)
      have hne' : endNode ≠ none := by
        apply hne
        intro hh
        rw [hh] at hkeys
        rw [← hkeys] at hstart
        simp at hstart
      refine ⟨s, hs, hI, hlen, ?_, hne', ?_⟩
      · intro hh
        rw [← hkeys] at hh
        exact hnn none hh rfl
      · cases hend : endNode with
        | none => exact absurd hend hne'
        | some e =>
          rw [hend] at hsl
          rw [selectPath_spec e s.costTable _ (by rw [hkeys]; exact tableKeys_nodup g start) hnn
            (fun n hn hname => hun n e (by rw [← hkeys]; exact hn) hend hname)] at hsl
          injection hsl with hsl
          cases hrow : mapGet s.costTable (some e) with
          | none =>
            rw [hrow] at hsl
            right
            refine ⟨rfl, ?_⟩
            rw [← hsl]
            simp [readSlice]
          | some ni =>
            rw [hrow] at hsl
            left
            exact ⟨ni, rfl, by rw [← hsl]⟩

/-- The search returns when no key of the cost table is nil and the end node is not nil. -/
theorem dijkstra_ok (grow : Nat → Nat) (g : graph) (picks : Nat → Nat)
    (start : Option node) (e : node) (hg : GraphOk g) (hnil : none ∉ tableKeys g start) :
    ∃ sp, dijkstra grow g picks start (some e) = .ok sp := by
  obtain ⟨s, hs, hI, _⟩ := searchLoop_ok grow g start picks hg hnil g.Nodes.length
    ⟨newCostTable g start, [], []⟩ (searchInv_init g start) (by simp)
  obtain ⟨sl, hsl⟩ := selectPath_ok e s.costTable ⟨0, 0, 0⟩ (by
    intro k hk hh
    rw [hI.keys] at hk
    exact hnil (hh ▸ hk))
  refine ⟨readSlice s.heap sl, ?_⟩
  unfold dijkstra
  rw [hs]
  simp only
  rw [hsl]


/-! ## Graph construction -/


theorem buildMap_fold_get (users : List user) :
    ∀ (m0 : List (String × node)) (k : String),
    mapGet (users.foldl (fun m u => mapSet m u.Email ⟨u.Email, u.Created⟩) m0) k =
      match lastUser users k with
      | some u => some ⟨u.Email, u.Created⟩
      | none => mapGet m0 k := by
  induction users with
  | nil => intro m0 k; simp [lastUser]
  | cons u us ih =>
    intro m0 k
    simp only [List.foldl_cons]
    rw [ih]
    unfold lastUser
    simp only [List.reverse_cons, List.find?_append]
    cases hf : us.reverse.find? (fun u => decide (u.Email = k)) with
    | some v => simp
    | none =>
      by_cases hk : u.Email = k
      · simp [List.find?, hk, mapGet_mapSet_self]
      · simp [List.find?, hk]
        rw [mapGet_mapSet_ne _ _ _ _ (Ne.symm hk)]

/-- The email map holds, for each email, the node made from the last user record with
that email. -/
theorem buildMap_get (users : List user) (k : String) :
    mapGet (buildMap users) k = (lastUser users k).map (fun u => ⟨u.Email, u.Created⟩) := by
  unfold buildMap
  rw [buildMap_fold_get]
  cases lastUser users k <;> simp [mapGet]

theorem lastUser_some (users : List user) (k : String) (u : user) (h : lastUser users k = some u) :
    u ∈ users ∧ u.Email = k := by
  unfold lastUser at h
  have h1 := List.mem_of_find?_eq_some h
  have h2 := List.find?_some h
  exact ⟨by simpa using h1, by simpa using h2⟩

theorem lastUser_of_registered (users : List user) (k : String) (h : registered users k) :
    ∃ u, lastUser users k = some u := by
  obtain ⟨u, hu, hk⟩ := h
  unfold lastUser
  cases hf : users.reverse.find? (fun u => decide (u.Email = k)) with
  | some v => exact ⟨v, rfl⟩
  | none =>
    rw [List.find?_eq_none] at hf
    have := hf u (by simpa using hu)
    simp [hk] at this

theorem buildMap_name (users : List user) (k : String) (n : node)
    (h : mapGet (buildMap users) k = some n) : n.Name = k := by
  rw [buildMap_get] at h
  cases hl : lastUser users k with
  | none => rw [hl] at h; simp at h
  | some u =>
    rw [hl] at h
    simp only [Option.map_some'] at h
    injection h with h
    rw [← h]
    exact (lastUser_some users k u hl).2

theorem buildMap_registered (users : List user) (k : String) (h : registered users k) :
    ∃ n, mapGet (buildMap users) k = some n := by
  obtain ⟨u, hu⟩ := lastUser_of_registered users k h
  rw [buildMap_get, hu]
  exact ⟨_, rfl⟩

theorem buildMap_some_registered (users : List user) (k : String) (n : node)
    (h : mapGet (buildMap users) k = some n) : registered users k := by
  rw [buildMap_get] at h
  cases hl : lastUser users k with
  | none => rw [hl] at h; simp at h
  | some u => exact ⟨u, (lastUser_some users k u hl).1, (lastUser_some users k u hl).2⟩

theorem mapSet_length_le {κ ν : Type} [DecidableEq κ] (m : List (κ × ν)) (k : κ) (v : ν) :
    (mapSet m k v).length ≤ m.length + 1 := by
  induction m with
  | nil => simp [mapSet]
  | cons a r ih =>
    obtain ⟨k', v'⟩ := a
    simp only [mapSet]
    split
    · simp
    · simp only [List.length_cons]; omega

theorem buildMap_fold_length (users : List user) :
    ∀ (m0 : List (String × node)),
    (users.foldl (fun m u => mapSet m u.Email ⟨u.Email, u.Created⟩) m0).length
      ≤ m0.length + users.length := by
  induction users with
  | nil => intro m0; simp
  | cons u us ih =>
    intro m0
    simp only [List.foldl_cons, List.length_cons]
    have h1 := ih (mapSet m0 u.Email ⟨u.Email, u.Created⟩)
    have h2 := mapSet_length_le m0 u.Email (⟨u.Email, u.Created⟩ : node)
    omega

theorem buildMap_length (users : List user) : (buildMap users).length ≤ users.length := by
  have := buildMap_fold_length users []
  simpa [buildMap] using this

theorem addNode_nodes (g : graph) (n x : Option node) :
    x ∈ (addNode g n).Nodes ↔ x ∈ g.Nodes ∨ x = n := by
  unfold addNode
  split
  · rename_i h
    constructor
    · intro hx; exact Or.inl hx
    · rintro (hx | hx)
      · exact hx
      · exact hx ▸ h
  · simp

theorem addNode_edges (g : graph) (n : Option node) : (addNode g n).Edges = g.Edges := by
  unfold addNode; split <;> rfl

theorem addNode_nodup (g : graph) (n : Option node) (h : g.Nodes.Nodup) :
    (addNode g n).Nodes.Nodup := by
  unfold addNode
  split
  · exact h
  · rename_i hn
    exact List.Nodup.append h (List.nodup_singleton n) (by
      intro x hx hx'
      simp only [List.mem_singleton] at hx'
      exact hn (hx' ▸ hx))

theorem addEdge_edges (g : graph) (p c : Option node) (k : Int) :
    (addEdge g p c k).Edges = g.Edges ++ [⟨p, c, k⟩] := by
  unfold addEdge
  rw [addNode_edges, addNode_edges]

theorem addEdge_nodes (g : graph) (p c : Option node) (k : Int) (x : Option node) :
    x ∈ (addEdge g p c k).Nodes ↔ x ∈ g.Nodes ∨ x = p ∨ x = c := by
  unfold addEdge
  rw [addNode_nodes, addNode_nodes]
  simp [or_assoc]

theorem addEdge_built (users : List user) (m : List (String × node)) (g : graph)
    (u : user) (s : subscriber) (hu : u ∈ users) (hs : s ∈ u.Subscribers)
    (h : Built users m g) :
    Built users m (addEdge g (mapGet m u.Email) (mapGet m s.Email) 1) := by
  refine ⟨?_, ?_, ?_, ?_⟩
  · unfold addEdge
    exact addNode_nodup _ _ (addNode_nodup _ _ h.nodup)
  · intro e he
    rw [addEdge_edges, List.mem_append, List.mem_singleton] at he
    rw [addEdge_nodes, addEdge_nodes]
    rcases he with he | he
    · exact ⟨Or.inl (h.ends e he).1, Or.inl (h.ends e he).2⟩
    · subst he
      exact ⟨Or.inr (Or.inl rfl), Or.inr (Or.inr rfl)⟩
  · intro n hn
    rw [addEdge_nodes] at hn
    rw [addEdge_edges]
    rcases hn with hn | hn | hn
    · obtain ⟨e, he, h1⟩ := h.nodes_from n hn
      exact ⟨e, List.mem_append_left _ he, h1⟩
    · exact ⟨_, List.mem_append_right _ (List.mem_singleton_self _), Or.inl hn.symm⟩
    · exact ⟨_, List.mem_append_right _ (List.mem_singleton_self _), Or.inr hn.symm⟩
  · intro e he
    rw [addEdge_edges, List.mem_append, List.mem_singleton] at he
    rcases he with he | he
    · exact h.edges_from e he
    · subst he
      exact ⟨rfl, u, hu, s, hs, rfl, rfl⟩

theorem addUserEdges_built (users : List user) (m : List (String × node)) (u : user)
    (hu : u ∈ users) (subs : List subscriber) :
    ∀ (g : graph), (∀ s ∈ subs, s ∈ u.Subscribers) → Built users m g →
    Built users m (subs.foldl (fun g s => addEdge g (mapGet m u.Email) (mapGet m s.Email) 1) g) := by
  induction subs with
  | nil => intro g _ h; exact h
  | cons s r ih =>
    intro g hs h
    simp only [List.foldl_cons]
    exact ih _ (fun s' hs' => hs s' (List.mem_cons_of_mem _ hs'))
      (addEdge_built users m g u s hu (hs s (List.mem_cons_self _ _)) h)

theorem addGraph_fold_built (users : List user) (m : List (String × node)) (us : List user) :
    ∀ (g : graph), (∀ u ∈ us, u ∈ users) → Built users m g →
    Built users m (us.foldl (addUserEdges m) g) := by
  induction us with
  | nil => intro g _ h; exact h
  | cons u r ih =>
    intro g hu h
    simp only [List.foldl_cons]
    apply ih _ (fun u' hu' => hu u' (List.mem_cons_of_mem _ hu'))
    exact addUserEdges_built users m u (hu u (List.mem_cons_self _ _)) u.Subscribers g
      (fun s hs => hs) h

/-- The graph that `addGraph` builds from the empty graph. -/
theorem addGraph_built (users : List user) :
    Built users (buildMap users) (addGraph ⟨[], []⟩ users).1 := by
  unfold addGraph
  exact addGraph_fold_built users _ users _ (fun u hu => hu)
    ⟨List.nodup_nil, by simp, by simp, by simp⟩

theorem addGraph_map (users : List user) : (addGraph ⟨[], []⟩ users).2 = buildMap users := rfl

theorem addGraph_graphOk (users : List user) : GraphOk (addGraph ⟨[], []⟩ users).1 :=
  let h := addGraph_built users
  ⟨fun e he => (h.edges_from e he).1, h.ends, h.nodup⟩

/-- Every non-nil node of the built graph is the node the email map holds for its name. -/
theorem addGraph_node_registered (users : List user) (n : node)
    (h : some n ∈ (addGraph ⟨[], []⟩ users).1.Nodes) :
    mapGet (buildMap users) n.Name = some n := by
  obtain ⟨e, he, hn⟩ := (addGraph_built users).nodes_from _ h
  obtain ⟨_, u, _, s, _, hp, hc⟩ := (addGraph_built users).edges_from e he
  rcases hn with hn | hn
  · rw [hp] at hn
    rw [buildMap_name users _ n hn]; exact hn
  · rw [hc] at hn
    rw [buildMap_name users _ n hn]; exact hn

/-- With every subscriber registered the built graph has no nil node. -/
theorem addGraph_no_nil (users : List user) (hw : subscribersRegistered users) :
    none ∉ (addGraph ⟨[], []⟩ users).1.Nodes := by
  intro h
  obtain ⟨e, he, hn⟩ := (addGraph_built users).nodes_from _ h
  obtain ⟨_, u, hu, s, hs, hp, hc⟩ := (addGraph_built users).edges_from e he
  rcases hn with hn | hn
  · rw [hp] at hn
    obtain ⟨n, hn'⟩ := buildMap_registered users u.Email ⟨u, hu, rfl⟩
    rw [hn'] at hn; simp at hn
  · rw [hc] at hn
    obtain ⟨v, hv, hve⟩ := hw u hu s hs
    obtain ⟨n, hn'⟩ := buildMap_registered users s.Email ⟨v, hv, hve⟩
    rw [hn'] at hn; simp at hn

/-- The built graph has at most as many nodes as there are user records. -/
theorem addGraph_nodes_length (users : List user) (hw : subscribersRegistered users) :
    (addGraph ⟨[], []⟩ users).1.Nodes.length ≤ users.length := by
  have hsub : (addGraph ⟨[], []⟩ users).1.Nodes ⊆ (buildMap users).map (fun kv => some kv.2) := by
    intro x hx
    cases x with
    | none => exact absurd hx (addGraph_no_nil users hw)
    | some n =>
      have := addGraph_node_registered users n hx
      exact List.mem_map.mpr ⟨(n.Name, n), mem_of_mapGet _ _ _ this, rfl⟩
  have := (List.subperm_of_subset (addGraph_built users).nodup hsub).length_le
  rw [List.length_map] at this
  exact le_trans this (buildMap_length users)


theorem buildMap_congr (f : user → user) (hE : ∀ u, (f u).Email = u.Email)
    (hC : ∀ u, (f u).Created = u.Created) (users : List user) :
    buildMap (users.map f) = buildMap users := by
  unfold buildMap
  rw [List.foldl_map]
  simp only [hE, hC]

/-- The graph and the email map do not depend on the timestamps inside the subscriber
references. -/
theorem addGraph_subscriber_created (c : subscriber → String) (users : List user) (g : graph) :
    addGraph g (users.map (fun u =>
        { u with Subscribers := u.Subscribers.map (fun s => ⟨s.Email, c s⟩) })) =
      addGraph g users := by
  unfold addGraph
  simp only
  rw [buildMap_congr (fun u => { u with Subscribers := u.Subscribers.map (fun s => ⟨s.Email, c s⟩) })
    (fun _ => rfl) (fun _ => rfl), List.foldl_map]
  congr 1
  congr 1
  funext g u
  unfold addUserEdges
  simp only
  rw [List.foldl_map]


theorem addEdges_fold_inv (calls : List (Option node × Option node × Int)) :
    ∀ (g : graph), g.Nodes.Nodup →
    (∀ n, n ∈ g.Nodes ↔ ∃ e ∈ g.Edges, e.Parent = n ∨ e.Child = n) →
    (calls.foldl (fun g c => addEdge g c.1 c.2.1 c.2.2) g).Nodes.Nodup ∧
    (∀ n, n ∈ (calls.foldl (fun g c => addEdge g c.1 c.2.1 c.2.2) g).Nodes ↔
      ∃ e ∈ (calls.foldl (fun g c => addEdge g c.1 c.2.1 c.2.2) g).Edges,
        e.Parent = n ∨ e.Child = n) := by
  induction calls with
  | nil => intro g h1 h2; exact ⟨h1, h2⟩
  | cons c r ih =>
    intro g h1 h2
    simp only [List.foldl_cons]
    apply ih
    · unfold addEdge
      exact addNode_nodup _ _ (addNode_nodup _ _ h1)
    · intro n
      rw [addEdge_nodes, addEdge_edges, h2]
      constructor
      · rintro (⟨e, he, h⟩ | h | h)
        · exact ⟨e, List.mem_append_left _ he, h⟩
        · exact ⟨_, List.mem_append_right _ (List.mem_singleton_self _), Or.inl h.symm⟩
        · exact ⟨_, List.mem_append_right _ (List.mem_singleton_self _), Or.inr h.symm⟩
      · rintro ⟨e, he, h⟩
        rcases List.mem_append.mp he with he | he
        · exact Or.inl ⟨e, he, h⟩
        · rw [List.mem_singleton] at he
          subst he
          rcases h with h | h
          · exact Or.inr (Or.inl h.symm)
          · exact Or.inr (Or.inr h.symm)

theorem addNode_of_mem (g : graph) (n : Option node) (h : n ∈ g.Nodes) : addNode g n = g := by
  unfold addNode
  rw [if_pos h]

theorem buildMap_keys_nodup (users : List user) : ((buildMap users).map Prod.fst).Nodup := by
  unfold buildMap
  have key : ∀ (us : List user) (m0 : List (String × node)), (m0.map Prod.fst).Nodup →
      ((us.foldl (fun m u => mapSet m u.Email ⟨u.Email, u.Created⟩) m0).map Prod.fst).Nodup := by
    intro us
    induction us with
    | nil => intro m0 h; exact h
    | cons u r ih =>
      intro m0 h
      simp only [List.foldl_cons]
      exact ih _ (mapSet_keys_nodup _ _ _ h)
  exact key users [] (by simp)

/-! ## The query driver -/


theorem toPath_spec (l : List (List String)) :
    ∀ (acc p : List singlePath), toPath l acc = .ok p → p = acc ++ l.map entryOf := by
  induction l with
  | nil => intro acc p h; simp [toPath] at h; simp [h]
  | cons j r ih =>
    intro acc p h
    simp only [toPath] at h
    split at h
    · rename_i a b ha hb
      have := ih _ _ h
      rw [this]
      have : entryOf j = ⟨a, b⟩ := by
        unfold entryOf
        simp only [List.get?_eq_getElem?] at ha hb
        simp [List.getD_eq_getElem?_getD, ha, hb]
      simp [this]
    · simp at h

theorem toPath_ok (l : List (List String)) :
    ∀ (acc : List singlePath), (∀ j ∈ l, ∃ n, j = nodeEntry n) →
    ∃ p, toPath l acc = .ok p := by
  induction l with
  | nil => intro acc _; exact ⟨acc, rfl⟩
  | cons j r ih =>
    intro acc h
    obtain ⟨n, hn⟩ := h j (List.mem_cons_self _ _)
    subst hn
    simp only [toPath, nodeEntry, List.get?]
    exact ih _ (fun j hj => h j (List.mem_cons_of_mem _ hj))

theorem entryOf_nodeEntry (n : node) : entryOf (nodeEntry n) = ⟨n.Name, n.Created⟩ := rfl

/-- What the loop of `formResult` returns, row by row. -/
theorem formResultFrom_spec (grow : Nat → Nat) (g : graph) (m : List (String × node))
    (picks : Nat → Nat → Nat) (ws : List way) :
    ∀ (i : Nat) (id : Int) (rs : List result),
    formResultFrom grow g m picks ws i id = .ok rs →
    rs.length = ws.length ∧ ∀ j w, ws.get? j = some w →
      ∃ sp p, dijkstra grow g (picks (i + j)) (mapGet m w.To) (mapGet m w.From) = .ok sp ∧
        toPath (reverseSlice sp) [] = .ok p ∧
        rs.get? j = some ⟨id + j + 1, w.From, w.To, p⟩ := by
  induction ws with
  | nil =>
    intro i id rs h
    simp only [formResultFrom] at h
    injection h with h
    subst h
    simp
  | cons w ws ih =>
    intro i id rs h
    simp only [formResultFrom] at h
    split at h
    · simp at h
    · rename_i sp hsp
      split at h
      · simp at h
      · rename_i p hp
        split at h
        · simp at h
        · rename_i rs' hrs'
          injection h with h
          subst h
          obtain ⟨hl, hrows⟩ := ih _ _ _ hrs'
          refine ⟨by simp [hl], ?_⟩
          intro j w' hj
          cases j with
          | zero =>
            simp only [List.get?] at hj
            injection hj with hj
            subst hj
            exact ⟨sp, p, hsp, hp, by simp⟩
          | succ j =>
            simp only [List.get?] at hj
            obtain ⟨sp', p', h1, h2, h3⟩ := hrows j w' hj
            refine ⟨sp', p', ?_, h2, ?_⟩
            · rw [show i + (j + 1) = i + 1 + j by omega]; exact h1
            · simp only [List.get?]
              rw [h3]
              congr 2
              push_cast
              ring

/-- The loop of `formResult` returns when every search does and every returned path
converts. -/
theorem formResultFrom_ok (grow : Nat → Nat) (g : graph) (m : List (String × node))
    (picks : Nat → Nat → Nat) (ws : List way) :
    ∀ (i : Nat) (id : Int),
    (∀ j w, ws.get? j = some w →
      ∃ sp p, dijkstra grow g (picks (i + j)) (mapGet m w.To) (mapGet m w.From) = .ok sp ∧
        toPath (reverseSlice sp) [] = .ok p) →
    ∃ rs, formResultFrom grow g m picks ws i id = .ok rs := by
  induction ws with
  | nil => intro i id _; exact ⟨[], rfl⟩
  | cons w ws ih =>
    intro i id h
    obtain ⟨sp, p, h1, h2⟩ := h 0 w rfl
    obtain ⟨rs, hrs⟩ := ih (i + 1) (id + 1) (by
      intro j w' hj
      obtain ⟨sp', p', h1', h2'⟩ := h (j + 1) w' (by simpa using hj)
      exact ⟨sp', p', by rw [show i + 1 + j = i + (j + 1) by omega]; exact h1', h2'⟩)
    refine ⟨⟨id + 1, w.From, w.To, p⟩ :: rs, ?_⟩
    simp only [formResultFrom]
    simp only [Nat.add_zero] at h1
    rw [h1]
    simp only
    rw [h2]
    simp only
    rw [hrs]

/-- The content of a recorded path, as a list of nodes. -/
theorem pathInv_nodes (start : Option node) (V : List (Option node))
    (t : List (Option node × nodeInfo)) (heap : List (List (List String)))
    (hP : PathInv start V t heap) (v : Option node) (ni : nodeInfo)
    (hv : mapGet t v = some ni) :
    ∃ ns : List node, readSlice heap ni.path = ns.map nodeEntry ∧ ns.length = ni.path.len ∧
      ∀ i n, ns.get? i = some n → some n ∈ V ∧ ∃ nn, mapGet t (some n) = some nn ∧
        nn.Cost = (i : Int) + 1 := by
  have hlen : ni.path.len ≤ (heap.getD ni.path.arr []).length := by
    rcases hP.wf v ni hv with h | ⟨_, h2, h3⟩
    · rw [h]; simp [nilSlice]
    · omega
  have key : ∀ k, k ≤ ni.path.len →
      ∃ ns : List node, (heap.getD ni.path.arr []).take k = ns.map nodeEntry ∧ ns.length = k ∧
        ∀ i n, ns.get? i = some n → some n ∈ V ∧ ∃ nn, mapGet t (some n) = some nn ∧
          nn.Cost = (i : Int) + 1 := by
    intro k
    induction k with
    | zero => intro _; exact ⟨[], by simp, rfl, by simp⟩
    | succ k ih =>
      intro hk
      obtain ⟨ns, h1, h2, h3⟩ := ih (by omega)
      obtain ⟨n, nn, e1, e2, e3, e4⟩ := hP.entries v ni hv k (by omega)
      refine ⟨ns ++ [n], ?_, by simp [h2], ?_⟩
      · rw [List.take_succ, h1]
        simp only [List.get?_eq_getElem?] at e1
        rw [e1]
        simp [nodeEntry]
      · intro i n' hi
        by_cases hik : i < ns.length
        · rw [List.get?_eq_getElem?, List.getElem?_append_left hik] at hi
          exact h3 i n' (by rw [List.get?_eq_getElem?]; exact hi)
        · rw [List.get?_eq_getElem?, List.getElem?_append_right (by omega)] at hi
          have hi0 : i - ns.length = 0 := by
            by_contra hne
            rw [List.getElem?_eq_none (by simp; omega)] at hi
            simp at hi
          rw [hi0] at hi
          simp at hi
          subst hi
          have : i = k := by omega
          subst this
          exact ⟨e2, nn, e3, e4⟩
  obtain ⟨ns, h1, h2, h3⟩ := key ni.path.len (le_refl _)
  exact ⟨ns, h1, h2, h3⟩


/-! ## The program as a whole -/


/-- Every non-nil key of the cost table of a query is the node the email map holds for
its name. -/
theorem key_registered (users : List user) (k : String) (a : node)
    (h : some a ∈ tableKeys (addGraph ⟨[], []⟩ users).1 (mapGet (buildMap users) k)) :
    mapGet (buildMap users) a.Name = some a := by
  rw [mem_tableKeys] at h
  rcases h with h | h
  · rw [buildMap_name users k a h.symm]; exact h.symm
  · exact addGraph_node_registered users a h

/-- With every subscriber registered and the start registered, no key of the cost table
is nil. -/
theorem tableKeys_no_nil (users : List user) (k : String) (hw : subscribersRegistered users)
    (hk : registered users k) :
    none ∉ tableKeys (addGraph ⟨[], []⟩ users).1 (mapGet (buildMap users) k) := by
  intro h
  rw [mem_tableKeys] at h
  rcases h with h | h
  · obtain ⟨n, hn⟩ := buildMap_registered users k hk
    rw [hn] at h; simp at h
  · exact addGraph_no_nil users hw h

/-- What a record of the output says about the search that produced it: the final state
of the search satisfies the invariant, every node was visited, no key is nil, and the
path of the record lists, last to first, the nodes recorded for the row of `From`. -/
theorem run_row (grow : Nat → Nat) (users : List user) (ways : List way)
    (picks : Nat → Nat → Nat) (rs : List result)
    (h : run grow users ways picks = .ok rs) (i : Nat) (w : way) (hw : ways.get? i = some w) :
    ∃ (s : searchState) (ns : List node),
      searchLoop grow (addGraph ⟨[], []⟩ users).1 (mapGet (buildMap users) w.To) (picks i)
        (addGraph ⟨[], []⟩ users).1.Nodes.length
        ⟨newCostTable (addGraph ⟨[], []⟩ users).1 (mapGet (buildMap users) w.To), [], []⟩ = .ok s ∧
      SearchInv (addGraph ⟨[], []⟩ users).1 (mapGet (buildMap users) w.To)
        (tableKeys (addGraph ⟨[], []⟩ users).1 (mapGet (buildMap users) w.To)) s ∧
      s.visited.length = (addGraph ⟨[], []⟩ users).1.Nodes.length ∧
      none ∉ tableKeys (addGraph ⟨[], []⟩ users).1 (mapGet (buildMap users) w.To) ∧
      mapGet (buildMap users) w.From ≠ none ∧
      rs.get? i = some ⟨(i : Int) + 1, w.From, w.To,
        ns.reverse.map (fun n => ⟨n.Name, n.Created⟩)⟩ ∧
      ((∃ ni, mapGet s.costTable (mapGet (buildMap users) w.From) = some ni ∧
          ns.length = ni.path.len ∧ readSlice s.heap ni.path = ns.map nodeEntry ∧
          ∀ j n, ns.get? j = some n → some n ∈ s.visited ∧
            ∃ nn, mapGet s.costTable (some n) = some nn ∧ nn.Cost = (j : Int) + 1) ∨
       (mapGet s.costTable (mapGet (buildMap users) w.From) = none ∧ ns = [])) := by
  unfold run formResult at h
  rw [addGraph_map] at h
  obtain ⟨_, hrows⟩ := formResultFrom_spec grow _ _ picks ways 0 0 rs h
  obtain ⟨sp, p, hsp, hp, hr⟩ := hrows i w hw
  have hun : ∀ a b, some a ∈ tableKeys (addGraph ⟨[], []⟩ users).1 (mapGet (buildMap users) w.To) →
      mapGet (buildMap users) w.From = some b → a.Name = b.Name → a = b := by
    intro a b ha hb hab
    have h1 := key_registered users w.To a ha
    have h2 : mapGet (buildMap users) b.Name = some b := by
      rw [buildMap_name users _ b hb]; exact hb
    rw [hab, h2] at h1
    injection h1 with h1
    exact h1.symm
  obtain ⟨s, hloop, hI, hlen, hnil, hend, hres⟩ :=
    dijkstra_spec grow _ _ _ _ sp (addGraph_graphOk users) hun hsp
  simp only [zero_add] at hloop
  have hp' := toPath_spec _ _ _ hp
  simp only [List.nil_append, reverseSlice_eq_reverse] at hp'
  simp only [zero_add] at hr
  rcases hres with ⟨ni, hni, hsp'⟩ | ⟨hnone, hsp'⟩
  · obtain ⟨ns, h1, h2, h3⟩ := pathInv_nodes _ _ _ _ hI.path _ ni hni
    refine ⟨s, ns, hloop, hI, hlen, hnil, hend, ?_, Or.inl ⟨ni, hni, h2, h1, h3⟩⟩
    rw [hr, hp', hsp', h1]
    simp only [← List.map_reverse, List.map_map]
    rfl
  · refine ⟨s, [], hloop, hI, hlen, hnil, hend, ?_, Or.inr ⟨hnone, rfl⟩⟩
    rw [hr, hp', hsp']
    rfl

/-- With every subscriber registered and both ends of every query registered, the
program returns its records. -/
theorem run_ok (grow : Nat → Nat) (users : List user) (ways : List way)
    (picks : Nat → Nat → Nat) (hw : subscribersRegistered users)
    (hq : ∀ w ∈ ways, registered users w.From ∧ registered users w.To) :
    ∃ rs, run grow users ways picks = .ok rs := by
  unfold run formResult
  rw [addGraph_map]
  apply formResultFrom_ok
  intro j w hj
  have hwm : w ∈ ways := List.get?_mem hj
  obtain ⟨hf, ht⟩ := hq w hwm
  obtain ⟨e, he⟩ := buildMap_registered users w.From hf
  have hnil := tableKeys_no_nil users w.To hw ht
  rw [he]
  obtain ⟨sp, hsp⟩ := dijkstra_ok grow (addGraph ⟨[], []⟩ users).1 (picks (0 + j))
    (mapGet (buildMap users) w.To) e (addGraph_graphOk users) hnil
  have hun : ∀ a b, some a ∈ tableKeys (addGraph ⟨[], []⟩ users).1 (mapGet (buildMap users) w.To) →
      some e = some b → a.Name = b.Name → a = b := by
    intro a b ha hb hab
    injection hb with hb
    subst hb
    have h1 := key_registered users w.To a ha
    have h2 : mapGet (buildMap users) e.Name = some e := by
      rw [buildMap_name users _ e he]; exact he
    rw [hab, h2] at h1
    injection h1 with h1
    exact h1.symm
  obtain ⟨s, _, hI, _, _, _, hres⟩ :=
    dijkstra_spec grow _ _ _ _ sp (addGraph_graphOk users) hun hsp
  have hent : ∀ j ∈ reverseSlice sp, ∃ n, j = nodeEntry n := by
    intro j hj
    rw [reverseSlice_eq_reverse] at hj
    rw [List.mem_reverse] at hj
    rcases hres with ⟨ni, hni, hsp'⟩ | ⟨_, hsp'⟩
    · obtain ⟨ns, h1, _, _⟩ := pathInv_nodes _ _ _ _ hI.path _ ni hni
      rw [hsp', h1, List.mem_map] at hj
      obtain ⟨n, _, hn⟩ := hj
      exact ⟨n, hn.symm⟩
    · rw [hsp'] at hj; simp at hj
  obtain ⟨p, hp⟩ := toPath_ok (reverseSlice sp) [] hent
  exact ⟨sp, p, hsp, hp⟩

/-- A run returns one record for every query of the table. -/
theorem run_length (grow : Nat → Nat) (users : List user) (ways : List way)
    (picks : Nat → Nat → Nat) (rs : List result) (h : run grow users ways picks = .ok rs) :
    rs.length = ways.length := by
  unfold run formResult at h
  exact (formResultFrom_spec grow _ _ picks ways 0 0 rs h).1




/-! ## Failures -/

theorem relaxEdge_error (grow : Nat → Nat) (start cur : Option node)
    (st : List (Option node × nodeInfo) × List (List (List String))) (e : edge) (a : Abort)
    (h : relaxEdge grow start cur st e = .error a) : a = .nilPointer := by
  unfold relaxEdge at h
  split at h
  · injection h with h; exact h.symm
  · split at h
    · injection h with h; exact h.symm
    · split at h
      · split at h
        · split at h
          · injection h with h; exact h.symm
          · simp at h
        · simp at h
      · simp at h

theorem relaxEdges_error (grow : Nat → Nat) (start cur : Option node) (es : List edge) :
    ∀ (st : List (Option node × nodeInfo) × List (List (List String))) (a : Abort),
    relaxEdges grow start cur es st = .error a → a = .nilPointer := by
  induction es with
  | nil => intro st a h; simp [relaxEdges] at h
  | cons e es ih =>
    intro st a h
    simp only [relaxEdges] at h
    split at h
    · rename_i a' h1
      injection h with h
      subst h
      exact relaxEdge_error grow start cur st e _ h1
    · exact ih _ a h

/-- An iteration of the main loop fails only on a nil dereference. -/
theorem visitNext_error (grow : Nat → Nat) (g : graph) (start : Option node)
    (pick : Nat) (s : searchState) (a : Abort) (hg : GraphOk g)
    (hI : SearchInv g start (tableKeys g start) s)
    (hlt : s.visited.length < g.Nodes.length)
    (h : visitNext grow g start pick s = .error a) : a = .nilPointer := by
  have hK := tableKeys_nodup g start
  have hex : ∃ k ∈ tableKeys g start, k ∉ s.visited := by
    by_contra hcon
    push_neg at hcon
    have := (List.subperm_of_subset hK hcon).length_le
    have := length_le_tableKeys g start hg.nodup
    omega
  obtain ⟨k, hk, hkv⟩ := hex
  obtain ⟨nk, hnk⟩ : ∃ v, mapGet s.costTable k = some v := by
    rw [mapGet_isSome_iff, hI.keys]; exact hk
  obtain ⟨cur, hcur⟩ := getClosest_ok s.costTable s.visited pick (k, nk) (mem_of_mapGet _ _ _ hnk) hkv
  unfold visitNext at h
  rw [hcur] at h
  simp only at h
  split at h
  · rename_i a' h1
    injection h with h
    subst h
    exact relaxEdges_error grow start cur _ _ _ h1
  · simp at h

/-- The main loop fails only on a nil dereference. -/
theorem searchLoop_error (grow : Nat → Nat) (g : graph) (start : Option node)
    (picks : Nat → Nat) (hg : GraphOk g) :
    ∀ (fuel : Nat) (s : searchState) (a : Abort), SearchInv g start (tableKeys g start) s →
    s.visited.length + fuel = g.Nodes.length →
    searchLoop grow g start picks fuel s = .error a → a = .nilPointer := by
  intro fuel
  induction fuel with
  | zero =>
    intro s a hI hlen h
    simp only [searchLoop] at h
    rw [if_neg (by simp; omega)] at h
    simp at h
  | succ fuel ih =>
    intro s a hI hlen h
    simp only [searchLoop] at h
    rw [if_pos (by omega)] at h
    split at h
    · rename_i a' h1
      injection h with h
      subst h
      exact visitNext_error grow g start _ s _ hg hI (by omega) h1
    · rename_i s1 h1
      obtain ⟨hI1, cur, _, hv⟩ := visitNext_inv grow g start _ _ s s1 (tableKeys_nodup g start) hg hI h1
      apply ih s1 a hI1 _ h
      rw [hv, List.length_append, List.length_singleton]
      omega

theorem selectPath_error (endNode : Option node) (t : List (Option node × nodeInfo)) :
    ∀ (acc : slice) (a : Abort), selectPath endNode t acc = .error a → a = .nilPointer := by
  induction t with
  | nil => intro acc a h; simp [selectPath] at h
  | cons x r ih =>
    intro acc a h
    obtain ⟨k, info⟩ := x
    cases k with
    | none => simp only [selectPath] at h; injection h with h; exact h.symm
    | some n =>
      cases endNode with
      | none => simp only [selectPath] at h; injection h with h; exact h.symm
      | some e =>
        simp only [selectPath] at h
        exact ih _ a h

/-- A search fails only on a nil dereference. -/
theorem dijkstra_error (grow : Nat → Nat) (g : graph) (picks : Nat → Nat)
    (start endNode : Option node) (a : Abort) (hg : GraphOk g)
    (h : dijkstra grow g picks start endNode = .error a) : a = .nilPointer := by
  unfold dijkstra at h
  split at h
  · rename_i a' h1
    injection h with h
    subst h
    exact searchLoop_error grow g start picks hg _ _ _ (searchInv_init g start) (by simp) h1
  · split at h
    · rename_i a' h1
      injection h with h
      subst h
      exact selectPath_error _ _ _ _ h1
    · simp at h

/-- Every pair of a user and one of its subscribers is an edge of the built graph. -/
theorem addEdge_edges_mono (g : graph) (p c : Option node) (k : Int) (e : edge)
    (h : e ∈ g.Edges) : e ∈ (addEdge g p c k).Edges := by
  rw [addEdge_edges]; exact List.mem_append_left _ h

theorem addUserEdges_mono (m : List (String × node)) (u : user) (subs : List subscriber) :
    ∀ (g : graph) (e : edge), e ∈ g.Edges →
    e ∈ (subs.foldl (fun g s => addEdge g (mapGet m u.Email) (mapGet m s.Email) 1) g).Edges := by
  induction subs with
  | nil => intro g e h; exact h
  | cons s r ih =>
    intro g e h
    simp only [List.foldl_cons]
    exact ih _ e (addEdge_edges_mono g _ _ _ e h)

theorem addUserEdges_complete (m : List (String × node)) (u : user) (subs : List subscriber) :
    ∀ (g : graph) (s : subscriber), s ∈ subs →
    ⟨mapGet m u.Email, mapGet m s.Email, 1⟩ ∈
      (subs.foldl (fun g s => addEdge g (mapGet m u.Email) (mapGet m s.Email) 1) g).Edges := by
  induction subs with
  | nil => intro g s h; simp at h
  | cons s0 r ih =>
    intro g s h
    simp only [List.foldl_cons]
    rcases List.mem_cons.mp h with h | h
    · subst h
      apply addUserEdges_mono
      rw [addEdge_edges]
      exact List.mem_append_right _ (List.mem_singleton_self _)
    · exact ih _ s h

theorem addGraph_fold_mono (m : List (String × node)) (us : List user) :
    ∀ (g : graph) (e : edge), e ∈ g.Edges → e ∈ (us.foldl (addUserEdges m) g).Edges := by
  induction us with
  | nil => intro g e h; exact h
  | cons u r ih =>
    intro g e h
    simp only [List.foldl_cons]
    exact ih _ e (addUserEdges_mono m u u.Subscribers g e h)

theorem addGraph_fold_complete (m : List (String × node)) (us : List user) :
    ∀ (g : graph) (u : user) (s : subscriber), u ∈ us → s ∈ u.Subscribers →
    ⟨mapGet m u.Email, mapGet m s.Email, 1⟩ ∈ (us.foldl (addUserEdges m) g).Edges := by
  induction us with
  | nil => intro g u s h; simp at h
  | cons u0 r ih =>
    intro g u s hu hs
    simp only [List.foldl_cons]
    rcases List.mem_cons.mp hu with h | h
    · subst h
      apply addGraph_fold_mono
      exact addUserEdges_complete m u u.Subscribers g s hs
    · exact ih _ u s h hs

theorem addGraph_edge_of_subscriber (users : List user) (u : user) (s : subscriber)
    (hu : u ∈ users) (hs : s ∈ u.Subscribers) :
    ⟨mapGet (buildMap users) u.Email, mapGet (buildMap users) s.Email, 1⟩ ∈
      (addGraph ⟨[], []⟩ users).1.Edges := by
  unfold addGraph
  exact addGraph_fold_complete _ users _ u s hu hs

/-- A subscriber that is not a user puts the nil node into the graph. -/
theorem addGraph_nil_of_dangling (users : List user) (h : ¬ subscribersRegistered users) :
    none ∈ (addGraph ⟨[], []⟩ users).1.Nodes := by
  unfold subscribersRegistered at h
  push_neg at h
  obtain ⟨u, hu, s, hs, hno⟩ := h
  have hnone : mapGet (buildMap users) s.Email = none := by
    cases hg : mapGet (buildMap users) s.Email with
    | none => rfl
    | some n =>
      obtain ⟨v, hv, hve⟩ := buildMap_some_registered users s.Email n hg
      exact absurd hve (hno v hv)
  have he := addGraph_edge_of_subscriber users u s hu hs
  rw [hnone] at he
  exact ((addGraph_built users).ends _ he).2

/-- A search over the built graph fails with a nil dereference as soon as a subscriber is
not a user or one of the two emails is not registered. -/
theorem dijkstra_fails (grow : Nat → Nat) (users : List user) (picks : Nat → Nat)
    (a b : String)
    (h : ¬ subscribersRegistered users ∨ ¬ registered users a ∨ ¬ registered users b) :
    dijkstra grow (addGraph ⟨[], []⟩ users).1 picks (mapGet (buildMap users) a)
      (mapGet (buildMap users) b) = .error .nilPointer := by
  cases hd : dijkstra grow (addGraph ⟨[], []⟩ users).1 picks (mapGet (buildMap users) a)
      (mapGet (buildMap users) b) with
  | error x => rw [dijkstra_error grow _ picks _ _ x (addGraph_graphOk users) hd]
  | ok sp =>
    exfalso
    have hun : ∀ x y, some x ∈ tableKeys (addGraph ⟨[], []⟩ users).1 (mapGet (buildMap users) a) →
        mapGet (buildMap users) b = some y → x.Name = y.Name → x = y := by
      intro x y hx hy hxy
      have h1 := key_registered users a x hx
      have h2 : mapGet (buildMap users) y.Name = some y := by
        rw [buildMap_name users _ y hy]; exact hy
      rw [hxy, h2] at h1
      injection h1 with h1
      exact h1.symm
    obtain ⟨s, _, _, _, hnil, hend, _⟩ := dijkstra_spec grow _ _ _ _ sp (addGraph_graphOk users) hun hd
    rcases h with h | h | h
    · exact hnil ((mem_tableKeys _ _ _).mpr (Or.inr (addGraph_nil_of_dangling users h)))
    · apply hnil
      rw [mem_tableKeys]
      left
      cases hg : mapGet (buildMap users) a with
      | none => rfl
      | some n => exact absurd (buildMap_some_registered users a n hg) h
    · apply hend
      cases hg : mapGet (buildMap users) b with
      | none => rfl
      | some n => exact absurd (buildMap_some_registered users b n hg) h

/-- The loop of `formResult` fails with a nil dereference when one of the searches does. -/
theorem formResultFrom_fails (grow : Nat → Nat) (g : graph) (m : List (String × node))
    (picks : Nat → Nat → Nat) (ws : List way) :
    ∀ (i : Nat) (id : Int),
    (∀ j w, ws.get? j = some w → ∀ sp,
      dijkstra grow g (picks (i + j)) (mapGet m w.To) (mapGet m w.From) = .ok sp →
      ∃ p, toPath (reverseSlice sp) [] = .ok p) →
    (∀ j w a, ws.get? j = some w →
      dijkstra grow g (picks (i + j)) (mapGet m w.To) (mapGet m w.From) = .error a →
      a = .nilPointer) →
    (∃ j w, ws.get? j = some w ∧
      dijkstra grow g (picks (i + j)) (mapGet m w.To) (mapGet m w.From) = .error .nilPointer) →
    formResultFrom grow g m picks ws i id = .error .nilPointer := by
  induction ws with
  | nil => intro i id _ _ h; obtain ⟨j, w, hj, _⟩ := h; simp at hj
  | cons w ws ih =>
    intro i id hconv herr hfail
    simp only [formResultFrom]
    cases hd : dijkstra grow g (picks i) (mapGet m w.To) (mapGet m w.From) with
    | error a =>
      have := herr 0 w a rfl (by simpa using hd)
      rw [this]
    | ok sp =>
      simp only
      obtain ⟨p, hp⟩ := hconv 0 w rfl sp (by simpa using hd)
      rw [hp]
      simp only
      have hrec : formResultFrom grow g m picks ws (i + 1) (id + 1) = .error .nilPointer := by
        apply ih
        · intro j w' hj sp' hsp'
          exact hconv (j + 1) w' (by simpa using hj) sp'
            (by rw [show i + (j + 1) = i + 1 + j by omega]; exact hsp')
        · intro j w' a hj ha
          exact herr (j + 1) w' a (by simpa using hj)
            (by rw [show i + (j + 1) = i + 1 + j by omega]; exact ha)
        · obtain ⟨j, w', hj, hjd⟩ := hfail
          cases j with
          | zero =>
            simp only [List.get?] at hj
            injection hj with hj
            subst hj
            simp only [Nat.add_zero] at hjd
            rw [hd] at hjd
            simp at hjd
          | succ j =>
            exact ⟨j, w', by simpa using hj,
              by rw [show i + 1 + j = i + (j + 1) by omega]; exact hjd⟩
      rw [hrec]

/-- The program fails with a nil dereference as soon as one query has a failing search. -/
theorem run_fails (grow : Nat → Nat) (users : List user) (ways : List way)
    (picks : Nat → Nat → Nat) (w : way) (hw : w ∈ ways)
    (h : ¬ subscribersRegistered users ∨ ¬ registered users w.To ∨ ¬ registered users w.From) :
    run grow users ways picks = .error .nilPointer := by
  unfold run formResult
  rw [addGraph_map]
  apply formResultFrom_fails
  · intro j w' hj sp hsp
    have hun : ∀ x y, some x ∈ tableKeys (addGraph ⟨[], []⟩ users).1 (mapGet (buildMap users) w'.To) →
        mapGet (buildMap users) w'.From = some y → x.Name = y.Name → x = y := by
      intro x y hx hy hxy
      have h1 := key_registered users w'.To x hx
      have h2 : mapGet (buildMap users) y.Name = some y := by
        rw [buildMap_name users _ y hy]; exact hy
      rw [hxy, h2] at h1
      injection h1 with h1
      exact h1.symm
    obtain ⟨s, _, hI, _, _, _, hres⟩ :=
      dijkstra_spec grow _ _ _ _ sp (addGraph_graphOk users) hun hsp
    apply toPath_ok
    intro x hx
    rw [reverseSlice_eq_reverse] at hx
    rw [List.mem_reverse] at hx
    rcases hres with ⟨ni, hni, hsp'⟩ | ⟨_, hsp'⟩
    · obtain ⟨ns, h1, _, _⟩ := pathInv_nodes _ _ _ _ hI.path _ ni hni
      rw [hsp', h1, List.mem_map] at hx
      obtain ⟨n, _, hn⟩ := hx
      exact ⟨n, hn.symm⟩
    · rw [hsp'] at hx; simp at hx
  · intro j w' a _ ha
    exact dijkstra_error grow _ _ _ _ a (addGraph_graphOk users) ha
  · obtain ⟨j, hj⟩ := mem_get? ways w hw
    exact ⟨j, w, hj, dijkstra_fails grow users _ w.To w.From h⟩


/-- The loop of `readCsv`, started with a table that is not nil, does not end with the nil
table nor with the failure "no user ways". -/
theorem readCsvLoop_some (reads : List (Except String (List String))) :
    ∀ (rows : List way), readCsvLoop reads (some rows) ≠ .ok none ∧
      readCsvLoop reads (some rows) ≠ .error .noUserWays := by
  induction reads with
  | nil => intro rows; simp [readCsvLoop]
  | cons r rest ih =>
    intro rows
    cases r with
    | error e => simp [readCsvLoop]
    | ok line =>
      simp only [readCsvLoop]
      split
      · exact ih _
      · simp



/-! ## Walks -/

theorem isWalk_iff_chain (g : graph) (l : List String) :
    isWalk g l ↔ List.Chain' (hasEdge g) l := by
  induction l with
  | nil => simp [isWalk]
  | cons x r ih =>
    cases r with
    | nil => simp [isWalk]
    | cons y r' =>
      rw [List.chain'_cons, ← ih]
      simp [isWalk]

theorem Reach_cons (g : graph) (a m : Option node) (h : Adj g a m) :
    ∀ (n : Nat) (b : Option node), Reach g m n b → Reach g a (n + 1) b := by
  intro n
  induction n with
  | zero =>
    intro b hb
    simp only [Reach] at hb
    subst hb
    exact ⟨a, rfl, h⟩
  | succ n ih =>
    intro b hb
    obtain ⟨x, hx, hxb⟩ := hb
    exact ⟨x, ih x hx, hxb⟩

/-- A walk between nodes, read as a list of emails. -/
theorem Reach_to_walk (g : graph) (hc : ∀ e ∈ g.Edges, e.Child ≠ none) (a : node) :
    ∀ (n : Nat) (v : Option node), Reach g (some a) n v →
    ∃ b l, v = some b ∧ walkFromTo g a.Name b.Name l ∧ l.length = n + 1 := by
  intro n
  induction n with
  | zero =>
    intro v hv
    simp only [Reach] at hv
    subst hv
    exact ⟨a, [a.Name], rfl, ⟨by simp [isWalk], rfl, rfl⟩, rfl⟩
  | succ n ih =>
    intro v hv
    obtain ⟨x, hx, e, he, hp, hch⟩ := hv
    obtain ⟨b, l, hb, ⟨hw, hh, hl⟩, hlen⟩ := ih x hx
    subst hb
    cases hv' : v with
    | none => rw [hv'] at hch; exact absurd hch (hc e he)
    | some c =>
      rw [hv'] at hch
      refine ⟨c, l ++ [c.Name], rfl, ⟨?_, ?_, ?_⟩, by simp [hlen]⟩
      · rw [isWalk_iff_chain] at hw ⊢
        apply List.Chain'.append hw (List.chain'_singleton _)
        intro x hx y hy
        simp only [List.head?, Option.mem_def] at hy
        injection hy with hy
        rw [hl] at hx
        simp only [Option.mem_def] at hx
        injection hx with hx
        subst hx; subst hy
        exact ⟨e, he, by rw [hp]; rfl, by rw [hch]; rfl⟩
      · cases l with
        | nil => simp at hlen
        | cons y r => simpa using hh
      · simp

/-- A list of emails that is a walk, read as a walk between the nodes of the email map. -/
theorem walk_to_Reach (g : graph) (m : List (String × node))
    (hp : ∀ e ∈ g.Edges, ∀ p, e.Parent = some p → mapGet m p.Name = some p)
    (hc : ∀ e ∈ g.Edges, ∀ c, e.Child = some c → mapGet m c.Name = some c) (y : String) :
    ∀ (l : List String) (x : String), isWalk g l → l.head? = some x → l.getLast? = some y →
    Reach g (mapGet m x) (l.length - 1) (mapGet m y) := by
  intro l
  induction l with
  | nil => intro x _ hh _; simp at hh
  | cons a r ih =>
    intro x hw hh hl
    simp only [List.head?] at hh
    injection hh with hh
    subst hh
    cases r with
    | nil =>
      simp only [List.getLast?_singleton] at hl
      injection hl with hl
      subst hl
      simp [Reach]
    | cons b r' =>
      rw [isWalk_iff_chain, List.chain'_cons, ← isWalk_iff_chain] at hw
      obtain ⟨⟨e, he, h1, h2⟩, hw'⟩ := hw
      have hl' : (b :: r').getLast? = some y := by
        rw [List.getLast?_cons_cons] at hl; exact hl
      have := ih b hw' rfl hl'
      cases hpe : e.Parent with
      | none => rw [hpe] at h1; simp at h1
      | some p =>
        cases hce : e.Child with
        | none => rw [hce] at h2; simp at h2
        | some c =>
          rw [hpe] at h1
          rw [hce] at h2
          simp only [Option.map_some', Option.some.injEq] at h1 h2
          have hmp := hp e he p hpe
          have hmc := hc e he c hce
          rw [h1] at hmp
          rw [h2] at hmc
          have hadj : Adj g (mapGet m a) (mapGet m b) := ⟨e, he, by rw [hmp, hpe], by rw [hmc, hce]⟩
          simp only [List.length_cons, Nat.add_sub_cancel] at this ⊢
          exact Reach_cons g _ _ hadj _ _ this

/-- A start node outside `g.Nodes` has no edge, so it reaches only itself. -/
theorem Reach_isolated (g : graph) (hg : GraphOk g) (start : Option node)
    (hs : start ∉ g.Nodes) : ∀ (n : Nat) (v : Option node), Reach g start n v → n = 0 := by
  intro n
  induction n with
  | zero => intro _ _; rfl
  | succ n ih =>
    intro v hv
    obtain ⟨x, hx, e, he, hp, _⟩ := hv
    have hn := ih x hx
    subst hn
    simp only [Reach] at hx
    subst hx
    exact absurd (hp ▸ (hg.ends e he).1) hs

/-- When the search is over and the start node is among the nodes of the graph, every
key of the cost table has been visited. -/
theorem all_visited (g : graph) (start : Option node) (s : searchState)
    (hI : SearchInv g start (tableKeys g start) s) (hlen : s.visited.length = g.Nodes.length)
    (hs : start ∈ g.Nodes) : ∀ k ∈ tableKeys g start, k ∈ s.visited := by
  have hKsub : tableKeys g start ⊆ g.Nodes := by
    intro k hk
    rcases (mem_tableKeys g start k).mp hk with h | h
    · exact h ▸ hs
    · exact h
  have hKlen : (tableKeys g start).length ≤ g.Nodes.length :=
    (List.subperm_of_subset (tableKeys_nodup g start) hKsub).length_le
  have hsp : s.visited.Subperm (tableKeys g start) :=
    List.subperm_of_subset hI.vis_nodup hI.vis_sub
  have hperm : s.visited.Perm (tableKeys g start) :=
    hsp.perm_of_length_le (by omega)
  intro k hk
  exact hperm.symm.subset hk

/-- When the search is over, the cost of every node reached by a walk of `n` edges from
the start node is finite and at most `n`. -/
theorem cost_le_walk (g : graph) (start : Option node) (s : searchState) (hg : GraphOk g)
    (hI : SearchInv g start (tableKeys g start) s) (hlen : s.visited.length = g.Nodes.length)
    (hs : start ∈ g.Nodes) (hsize : (g.Nodes.length : Int) < infinity) :
    ∀ (n : Nat) (v : Option node), Reach g start n v →
    ∃ nv, mapGet s.costTable v = some nv ∧ nv.Cost ≤ n ∧ nv.Cost < infinity := by
  obtain ⟨m, hC⟩ := hI.cost
  have hall := all_visited g start s hI hlen hs
  intro n
  induction n with
  | zero =>
    intro v hv
    simp only [Reach] at hv
    subst hv
    obtain ⟨ns, hns, h0⟩ := hC.start_row
    exact ⟨ns, hns, by rw [h0]; simp, by rw [h0]; simp [infinity]⟩
  | succ n ih =>
    intro v hv
    obtain ⟨x, hx, e, he, hp, hch⟩ := hv
    obtain ⟨nx, hnx, hc1, hc2⟩ := ih x hx
    have hxK : x ∈ tableKeys g start := by
      rw [← hI.keys]; exact (mapGet_isSome_iff _ _).mp ⟨nx, hnx⟩
    have hxV := hall x hxK
    have hvK : v ∈ tableKeys g start :=
      (mem_tableKeys g start v).mpr (Or.inr (hch ▸ (hg.ends e he).2))
    obtain ⟨nv, hnv⟩ : ∃ nv, mapGet s.costTable v = some nv := by
      rw [mapGet_isSome_iff, hI.keys]; exact hvK
    have hrel := hC.relaxed e ⟨he, hp ▸ hxV⟩ nx nv (hp ▸ hnx) (hch ▸ hnv) hc2
    have hb := hC.bound_vis x hxV nx hnx hc2
    refine ⟨nv, hnv, ?_, ?_⟩
    · push_cast; omega
    · rw [hlen] at hb; omega



theorem built_child_ne_none (users : List user) (hw : subscribersRegistered users) :
    ∀ e ∈ (addGraph ⟨[], []⟩ users).1.Edges, e.Child ≠ none := by
  intro e he hn
  exact addGraph_no_nil users hw (hn ▸ ((addGraph_built users).ends e he).2)

theorem built_parent_registered (users : List user) :
    ∀ e ∈ (addGraph ⟨[], []⟩ users).1.Edges, ∀ p, e.Parent = some p →
      mapGet (buildMap users) p.Name = some p := by
  intro e he p hp
  exact addGraph_node_registered users p (hp ▸ ((addGraph_built users).ends e he).1)

theorem built_child_registered (users : List user) :
    ∀ e ∈ (addGraph ⟨[], []⟩ users).1.Edges, ∀ c, e.Child = some c →
      mapGet (buildMap users) c.Name = some c := by
  intro e he c hc
  exact addGraph_node_registered users c (hc ▸ ((addGraph_built users).ends e he).2)

/-- A row of finite cost in the table of a search from the node of `x` witnesses a walk
of that many edges from `x` to the email of its node. -/
theorem finite_cost_walk (users : List user) (hw : subscribersRegistered users)
    (x y : String) (s : searchState)
    (hI : SearchInv (addGraph ⟨[], []⟩ users).1 (mapGet (buildMap users) x)
      (tableKeys (addGraph ⟨[], []⟩ users).1 (mapGet (buildMap users) x)) s)
    (hx : registered users x) (hy : registered users y) (ni : nodeInfo)
    (hni : mapGet s.costTable (mapGet (buildMap users) y) = some ni)
    (hfin : ni.Cost < infinity) :
    ∃ l, walkFromTo (addGraph ⟨[], []⟩ users).1 x y l ∧ (l.length : Int) = ni.Cost + 1 := by
  obtain ⟨m, hC⟩ := hI.cost
  obtain ⟨n, hn, hreach⟩ := hC.sound _ ni hni hfin
  obtain ⟨a, ha⟩ := buildMap_registered users x hx
  obtain ⟨b, hb⟩ := buildMap_registered users y hy
  rw [ha, hb] at hreach
  obtain ⟨b', l, hb', hwalk, hlen⟩ := Reach_to_walk _ (built_child_ne_none users hw) a n _ hreach
  injection hb' with hb'
  subst hb'
  rw [buildMap_name users x a ha, buildMap_name users y b hb] at hwalk
  exact ⟨l, hwalk, by rw [hlen, ← hn]; push_cast; ring⟩

/-- When the search from the node of `x` is over, the row of the node of `y` has a finite
cost that is at most the number of edges of any walk from `x` to `y` with at least one
edge. -/
theorem walk_cost_bound (users : List user) (hw : subscribersRegistered users)
    (hsize : (users.length : Int) < infinity) (x y : String) (s : searchState)
    (hI : SearchInv (addGraph ⟨[], []⟩ users).1 (mapGet (buildMap users) x)
      (tableKeys (addGraph ⟨[], []⟩ users).1 (mapGet (buildMap users) x)) s)
    (hlen : s.visited.length = (addGraph ⟨[], []⟩ users).1.Nodes.length)
    (l : List String) (hl : walkFromTo (addGraph ⟨[], []⟩ users).1 x y l) (hxy : x ≠ y) :
    ∃ ni, mapGet s.costTable (mapGet (buildMap users) y) = some ni ∧
      ni.Cost ≤ ((l.length - 1 : Nat) : Int) ∧ ni.Cost < infinity := by
  obtain ⟨hwalk, hhead, hlast⟩ := hl
  have hreach := walk_to_Reach _ (buildMap users) (built_parent_registered users)
    (built_child_registered users) y l x hwalk hhead hlast
  have hpos : l.length - 1 ≠ 0 := by
    intro h0
    cases l with
    | nil => simp at hhead
    | cons a r =>
      cases r with
      | nil =>
        simp only [List.head?, List.getLast?_singleton] at hhead hlast
        rw [hhead] at hlast
        injection hlast with hlast
        exact hxy hlast
      | cons b r' => simp at h0
  have hstart : mapGet (buildMap users) x ∈ (addGraph ⟨[], []⟩ users).1.Nodes := by
    by_contra hcon
    exact hpos (Reach_isolated _ (addGraph_graphOk users) _ hcon _ _ hreach)
  have hsz : (((addGraph ⟨[], []⟩ users).1.Nodes.length : Nat) : Int) < infinity := by
    have := addGraph_nodes_length users hw
    omega
  exact cost_le_walk _ _ s (addGraph_graphOk users) hI hlen hstart hsz _ _ hreach




/-! ## Shared backing arrays -/

theorem readSlice_length (heap : List (List (List String))) (s : slice) (hs : sliceOk heap s) :
    (readSlice heap s).length = s.len := by
  unfold readSlice
  rcases hs with hs | ⟨_, h2, h3⟩
  · rw [hs]; simp [nilSlice]
  · rw [List.length_take]; omega

/-- The appended slice reads the old content followed by the new element. -/
theorem readSlice_appendPath (grow : Nat → Nat) (heap : List (List (List String))) (s : slice)
    (x : List String) (hs : sliceOk heap s) :
    readSlice (appendPath grow heap s x).1 (appendPath grow heap s x).2 = readSlice heap s ++ [x] := by
  obtain ⟨_, ok2, ok3⟩ := appendPath_ok grow heap s x hs
  have hl := appendPath_len grow heap s x
  apply List.ext_get?
  intro i
  have hlen0 := readSlice_length heap s hs
  simp only [List.get?_eq_getElem?]
  unfold readSlice at hlen0 ⊢
  rw [List.getElem?_take]
  by_cases hi : i < s.len
  · rw [if_pos (by omega), List.getElem?_append_left (by omega), List.getElem?_take, if_pos hi]
    have := appendPath_old grow heap s x hs i hi
    simpa [List.get?_eq_getElem?] using this
  · by_cases hi2 : i = s.len
    · subst hi2
      rw [if_pos (by omega), List.getElem?_append_right (by omega)]
      have := appendPath_new grow heap s x hs
      simp only [List.get?_eq_getElem?] at this
      rw [this, hlen0]
      simp
    · rw [if_neg (by omega), List.getElem?_append_right (by omega)]
      rw [List.getElem?_eq_none (by simp; omega)]

/-- Reading a slice depends only on the cells below its length. -/
theorem readSlice_congr (heap heap' : List (List (List String))) (s : slice)
    (h : ∀ i, i < s.len → (heap'.getD s.arr []).get? i = (heap.getD s.arr []).get? i) :
    readSlice heap' s = readSlice heap s := by
  unfold readSlice
  apply List.ext_get?
  intro i
  simp only [List.get?_eq_getElem?, List.getElem?_take]
  by_cases hi : i < s.len
  · rw [if_pos hi, if_pos hi]
    simpa [List.get?_eq_getElem?] using h i hi
  · rw [if_neg hi, if_neg hi]

/-- The shape of the slice after an append, and where it lives: in a fresh array, or in
place, which happens only at length 3 or from length 5 on. -/
theorem appendPath_shape (grow : Nat → Nat) (hgrow : grow 0 = 1 ∧ grow 1 = 2 ∧ grow 2 = 4)
    (heap : List (List (List String))) (s : slice) (x : List String)
    (hs : shapeOk s) (hok : sliceOk heap s) :
    shapeOk (appendPath grow heap s x).2 ∧
    ((appendPath grow heap s x).2.arr = heap.length ∨
      (s.len < s.cap ∧ (appendPath grow heap s x).2.arr = s.arr ∧ (s.len = 3 ∨ 5 ≤ s.len))) := by
  obtain ⟨g0, g1, g2⟩ := hgrow
  have hcap : s.len ≤ s.cap := by
    rcases hok with h | ⟨_, _, h⟩
    · rw [h]; simp [nilSlice]
    · exact h
  unfold appendPath
  split
  · rename_i hlt
    simp only
    unfold shapeOk at hs ⊢
    simp only
    refine ⟨?_, Or.inr ⟨hlt, trivial, ?_⟩⟩
    · omega
    · omega
  · rename_i hlt
    simp only
    refine ⟨?_, Or.inl trivial⟩
    unfold shapeOk at hs ⊢
    simp only
    rcases hs with ⟨h1, h2⟩ | ⟨h1, h2⟩ | ⟨h1, h2⟩ | ⟨h1, h2⟩ | h1
    · rw [h1, h2, g0]; simp
    · rw [h1, h2, g1]; simp
    · rw [h1, h2, g2]; simp
    · omega
    · omega



/-- What is known when the relaxation of an edge of the current node improves the child. -/
theorem relax_update_facts (g : graph) (start : Option node)
    (K V : List (Option node)) (R : edge → Prop) (m : Int) (cur : Option node)
    (t : List (Option node × nodeInfo)) (heap : List (List (List String))) (e : edge)
    (hI : RelaxInv g start K V R m cur (t, heap)) (hc : e.Cost = 1)
    (ni ci : nodeInfo) (hni : mapGet t cur = some ni) (hci : mapGet t e.Child = some ci)
    (hlt : positiveCheck (wrap64 (ni.Cost + e.Cost)) < ci.Cost) :
    ni.Cost = m ∧ positiveCheck (wrap64 (ni.Cost + e.Cost)) = m + 1 ∧ m < infinity ∧
      e.Child ∉ V ∧ e.Child ≠ start ∧ ci.path = nilSlice := by
  obtain ⟨ni0, hni0, hm⟩ := hI.cur_cost
  simp only at hni0
  rw [hni] at hni0
  injection hni0 with hni0
  subst hni0
  have hC := hI.cost
  have hP := hI.path
  simp only at hC hP
  have hrange := hC.range cur ni hni
  rw [hm] at hrange
  have hd : positiveCheck (wrap64 (ni.Cost + e.Cost)) = if m = infinity then infinity else m + 1 := by
    rw [hc, hm]; exact relaxCost m hrange.1 hrange.2
  have hcr := hC.range e.Child ci hci
  rw [hd] at hlt ⊢
  have hmfin : m ≠ infinity := by
    intro hmi
    simp only [hmi, if_true] at hlt
    omega
  simp only [hmfin, if_false] at hlt ⊢
  have hwV : e.Child ∉ V := by
    intro hw
    have := hC.vis_le e.Child hw ci hci
    omega
  refine ⟨hm, trivial, lt_of_le_of_ne hrange.2 hmfin, hwV, ?_, ?_⟩
  · intro hh
    obtain ⟨ns, hns, hns0⟩ := hC.start_row
    rw [← hh, hci] at hns
    injection hns with hns
    subst hns
    omega
  · apply hP.inf_nil e.Child ci hci
    by_contra hne
    have := hC.frontier e.Child hwV ci hci (lt_of_le_of_ne hcr.2 hne)
    omega

/-- Relaxing an edge of the current node keeps the invariant on shared arrays. -/
theorem relaxEdge_aliasInv (grow : Nat → Nat) (hgrow : grow 0 = 1 ∧ grow 1 = 2 ∧ grow 2 = 4)
    (g : graph) (start : Option node)
    (K V : List (Option node)) (R : edge → Prop) (m : Int) (cur : Option node)
    (t t' : List (Option node × nodeInfo)) (heap heap' : List (List (List String))) (e : edge)
    (hI : RelaxInv g start K V R m cur (t, heap)) (hA : AliasInv g start t heap)
    (he : e ∈ g.Edges) (hp : e.Parent = cur) (hc : e.Cost = 1)
    (h : relaxEdge grow start cur (t, heap) e = .ok (t', heap')) :
    AliasInv g start t' heap' := by
  obtain ⟨ni, ci, hni, hci, hcase⟩ := relaxEdge_cases grow start cur t t' heap heap' e h
  have hC := hI.cost
  have hP := hI.path
  simp only at hC hP
  rcases hcase with ⟨_, h2, h3⟩ | ⟨h1, hcs, h2, h3⟩ | ⟨h1, hcs, n, hn, h2, h3⟩
  · subst h2; subst h3; exact hA
  · -- the current node is the start node
    obtain ⟨hm, hd, hmlt, hwV, hws, hcinil⟩ :=
      relax_update_facts g start K V R m cur t heap e hI hc ni ci hni hci h1
    rw [hd, hcinil] at h2
    subst h3
    have hget : ∀ v, v ≠ e.Child → mapGet t' v = mapGet t v := by
      intro v hv; rw [h2]; exact mapGet_mapSet_ne _ _ _ _ hv
    have hgetw : mapGet t' e.Child = some ⟨m + 1, nilSlice⟩ := by
      rw [h2]; exact mapGet_mapSet_self _ _ _
    have hrow : ∀ v nv, mapGet t' v = some nv →
        (v ≠ e.Child ∧ mapGet t v = some nv) ∨ (v = e.Child ∧ nv = ⟨m + 1, nilSlice⟩) := by
      intro v nv hv
      by_cases hvw : v = e.Child
      · subst hvw
        rw [hgetw] at hv
        injection hv with hv
        exact Or.inr ⟨rfl, hv.symm⟩
      · rw [hget v hvw] at hv
        exact Or.inl ⟨hvw, hv⟩
    refine ⟨?_, ?_, ?_, ?_⟩
    · intro v nv hv
      rcases hrow v nv hv with ⟨_, h1⟩ | ⟨_, h1⟩
      · exact hA.shape v nv h1
      · subst h1; exact Or.inl ⟨rfl, rfl⟩
    · intro x y nx ny hx hy harr hlen h35
      rcases hrow x nx hx with ⟨_, hx1⟩ | ⟨_, hx1⟩
      · rcases hrow y ny hy with ⟨_, hy1⟩ | ⟨_, hy1⟩
        · exact hA.uniq x y nx ny hx1 hy1 harr hlen h35
        · subst hy1
          simp only [nilSlice] at hlen
          omega
      · subst hx1
        simp only [nilSlice] at h35
        omega
    · intro x y nx ny hx hy harr h1y hlt h6
      rcases hrow x nx hx with ⟨_, hx1⟩ | ⟨_, hx1⟩
      · rcases hrow y ny hy with ⟨_, hy1⟩ | ⟨_, hy1⟩
        · exact hA.own x y nx ny hx1 hy1 harr h1y hlt h6
        · subst hy1
          simp only [nilSlice] at h1y
          omega
      · subst hx1
        simp only [nilSlice] at hlt
        omega
    · intro v nv hv hvs hfin h6
      rcases hrow v nv hv with ⟨_, hv1⟩ | ⟨hvw, hv1⟩
      · exact hA.valid v nv hv1 hvs hfin h6
      · subst hv1
        refine ⟨[], by simp [readSlice, nilSlice], ?_⟩
        simp only [List.map_nil, List.nil_append, List.chain'_cons, List.chain'_singleton, and_true]
        exact ⟨e, he, by rw [hp, hcs], hvw.symm⟩
  · -- the general case
    obtain ⟨hm, hd, hmlt, hwV, hws, hcinil⟩ :=
      relax_update_facts g start K V R m cur t heap e hI hc ni ci hni hci h1
    rw [hd] at h2
    have hsok : sliceOk heap ni.path := hP.wf cur ni hni
    have hlen : (ni.path.len : Int) + 1 = m := by
      rw [← hm]; exact hP.len cur ni hni hcs (by rw [hm]; exact hmlt)
    have hx0 : [n.Name, n.Created] = nodeEntry n := rfl
    rw [hx0] at h2 h3
    obtain ⟨hshape', hwhere⟩ := appendPath_shape grow hgrow heap ni.path (nodeEntry n)
      (hA.shape cur ni hni) hsok
    have hplen := appendPath_len grow heap ni.path (nodeEntry n)
    obtain ⟨ok1, ok2, ok3⟩ := appendPath_ok grow heap ni.path (nodeEntry n) hsok
    have hget : ∀ v, v ≠ e.Child → mapGet t' v = mapGet t v := by
      intro v hv; rw [h2]; exact mapGet_mapSet_ne _ _ _ _ hv
    have hgetw : mapGet t' e.Child =
        some ⟨m + 1, (appendPath grow heap ni.path (nodeEntry n)).2⟩ := by
      rw [h2]; exact mapGet_mapSet_self _ _ _
    have hrow : ∀ v nv, mapGet t' v = some nv →
        (v ≠ e.Child ∧ mapGet t v = some nv) ∨
        (v = e.Child ∧ nv = ⟨m + 1, (appendPath grow heap ni.path (nodeEntry n)).2⟩) := by
      intro v nv hv
      by_cases hvw : v = e.Child
      · subst hvw
        rw [hgetw] at hv
        injection hv with hv
        exact Or.inr ⟨rfl, hv.symm⟩
      · rw [hget v hvw] at hv
        exact Or.inl ⟨hvw, hv⟩
    -- an old row with a non-empty path lives in an old array
    have hold : ∀ v nv, mapGet t v = some nv → 1 ≤ nv.path.len →
        nv.path.arr < heap.length := by
      intro v nv hv h1v
      rcases hP.wf v nv hv with hw | ⟨hw, _, _⟩
      · rw [hw] at h1v; simp [nilSlice] at h1v
      · exact hw
    -- an old row of finite cost has length at most that of the new path
    have hshort : ∀ v nv, mapGet t v = some nv → 1 ≤ nv.path.len →
        nv.path.len ≤ ni.path.len + 1 := by
      intro v nv hv h1v
      have hvs : v ≠ start := by
        intro hh
        have := hP.start_nil nv (hh ▸ hv)
        rw [this] at h1v; simp [nilSlice] at h1v
      have hvfin : nv.Cost < infinity := by
        apply lt_of_le_of_ne (hC.range v nv hv).2
        intro hh
        have := hP.inf_nil v nv hv hh
        rw [this] at h1v; simp [nilSlice] at h1v
      have hvl := hP.len v nv hv hvs hvfin
      by_cases hvV : v ∈ V
      · have := hC.vis_le v hvV nv hv
        omega
      · have := hC.frontier v hvV nv hv hvfin
        omega
    -- a cell of an old array that changes holds the node of the current node
    have hframe : ∀ a, a < heap.length → ∀ i,
        (heap'.getD a []).get? i = (heap.getD a []).get? i ∨
        (a = ni.path.arr ∧ i = ni.path.len ∧ ni.path.len < ni.path.cap ∧
          (heap'.getD a []).get? i = some (nodeEntry n)) := by
      intro a ha i
      rw [h3]
      exact (appendPath_frame grow heap ni.path (nodeEntry n) a ha).2 i
    have hcur1 : ni.path.len < ni.path.cap → 1 ≤ ni.path.len ∧ (ni.path.len = 3 ∨ 5 ≤ ni.path.len) := by
      intro hip
      have := hA.shape cur ni hni
      unfold shapeOk at this
      omega
    subst h3
    refine ⟨?_, ?_, ?_, ?_⟩
    · intro v nv hv
      rcases hrow v nv hv with ⟨_, h1⟩ | ⟨_, h1⟩
      · exact hA.shape v nv h1
      · subst h1; exact hshape'
    · intro x y nx ny hx hy harr hlen' h35
      rcases hrow x nx hx with ⟨_, hx1⟩ | ⟨hxw, hx1⟩
      · rcases hrow y ny hy with ⟨_, hy1⟩ | ⟨hyw, hy1⟩
        · exact hA.uniq x y nx ny hx1 hy1 harr hlen' h35
        · subst hy1
          simp only at harr hlen'
          exfalso
          have hxa := hold x nx hx1 (by omega)
          rcases hwhere with hw | ⟨hip, _, _⟩
          · omega
          · have := hcur1 hip
            omega
      · rcases hrow y ny hy with ⟨_, hy1⟩ | ⟨hyw, hy1⟩
        · subst hx1
          simp only at harr hlen' h35
          exfalso
          have hya := hold y ny hy1 (by omega)
          rcases hwhere with hw | ⟨hip, _, _⟩
          · omega
          · have := hcur1 hip
            omega
        · rw [hxw, hyw]
    · intro x y nx ny hx hy harr h1y hlt h6
      rcases hrow x nx hx with ⟨_, hx1⟩ | ⟨hxw, hx1⟩
      · rcases hrow y ny hy with ⟨_, hy1⟩ | ⟨hyw, hy1⟩
        · -- two old rows
          obtain ⟨n', hn', hcell⟩ := hA.own x y nx ny hx1 hy1 harr h1y hlt h6
          have hxa := hold x nx hx1 (by omega)
          rcases hframe nx.path.arr hxa ny.path.len with hf | ⟨hf1, hf2, hf3, hf4⟩
          · exact ⟨n', hn', by rw [hf]; exact hcell⟩
          · have hyc : y = cur := by
              apply hA.uniq y cur ny ni hy1 hni (by rw [← harr, hf1]) hf2
              have := hcur1 hf3
              omega
            rw [hn] at hyc
            exact ⟨n, hyc, hf4⟩
        · -- the new row below an old one: excluded by the costs
          subst hy1
          simp only at harr h1y hlt
          have := hshort x nx hx1 (by omega)
          omega
      · rcases hrow y ny hy with ⟨_, hy1⟩ | ⟨hyw, hy1⟩
        · -- an old row below the new one
          subst hx1
          simp only at harr hlt h6 ⊢
          have hya := hold y ny hy1 h1y
          rcases hwhere with hw | ⟨hip, hwarr, hw35⟩
          · omega
          · by_cases hyl : ny.path.len = ni.path.len
            · have hyc : y = cur := by
                apply hA.uniq y cur ny ni hy1 hni (by rw [← harr, hwarr]) hyl
                omega
              rw [hn] at hyc
              refine ⟨n, hyc, ?_⟩
              rw [hyl]
              exact appendPath_new grow heap ni.path (nodeEntry n) hsok
            · have hyl' : ny.path.len < ni.path.len := by omega
              obtain ⟨n', hn', hcell⟩ := hA.own cur y ni ny hni hy1 (by rw [← harr, hwarr])
                h1y hyl' (by omega)
              refine ⟨n', hn', ?_⟩
              rw [appendPath_old grow heap ni.path (nodeEntry n) hsok _ hyl']
              exact hcell
        · subst hx1; subst hy1
          omega
    · intro v nv hv hvs hfin h6
      rcases hrow v nv hv with ⟨_, hv1⟩ | ⟨hvw, hv1⟩
      · -- an old row reads what it read before
        obtain ⟨ns, hread, hchain⟩ := hA.valid v nv hv1 hvs hfin h6
        refine ⟨ns, ?_, hchain⟩
        rw [← hread]
        apply readSlice_congr
        intro i hi
        have hva := hold v nv hv1 (by omega)
        rcases hframe nv.path.arr hva i with hf | ⟨hf1, hf2, hf3, hf4⟩
        · exact hf
        · obtain ⟨n', hn', hcell⟩ := hA.own v cur nv ni hv1 hni hf1 (hcur1 hf3).1
            (by omega) h6
          rw [hn] at hn'
          injection hn' with hn'
          subst hn'
          rw [hf4, hf2]
          exact hcell.symm
      · -- the new row: the path of the current node and the current node
        subst hv1
        simp only at h6 ⊢
        rw [hplen] at h6
        obtain ⟨ns, hread, hchain⟩ := hA.valid cur ni hni hcs (by rw [hm]; exact hmlt) (by omega)
        refine ⟨ns ++ [n], ?_, ?_⟩
        · rw [readSlice_appendPath grow heap ni.path (nodeEntry n) hsok, hread]
          simp
        · have : start :: (List.map some (ns ++ [n]) ++ [v])
              = (start :: (List.map some ns ++ [cur])) ++ [v] := by
            rw [hn]; simp
          rw [this]
          apply List.Chain'.append hchain (List.chain'_singleton _)
          intro a ha b hb
          simp only [List.head?, Option.mem_def] at hb
          injection hb with hb
          have hlast : (start :: (List.map some ns ++ [cur])).getLast? = some cur := by
            rw [← List.cons_append, List.getLast?_append]
            simp
          rw [hlast] at ha
          simp only [Option.mem_def] at ha
          injection ha with ha
          subst ha; subst hb
          exact ⟨e, he, hp, hvw.symm⟩



theorem relaxEdges_aliasInv (grow : Nat → Nat) (hgrow : grow 0 = 1 ∧ grow 1 = 2 ∧ grow 2 = 4)
    (g : graph) (start : Option node) (K V : List (Option node)) (m : Int)
    (cur : Option node) (es : List edge) :
    ∀ (R : edge → Prop) (st st' : List (Option node × nodeInfo) × List (List (List String))),
    RelaxInv g start K V R m cur st → AliasInv g start st.1 st.2 →
    (∀ e ∈ es, e ∈ g.Edges ∧ e.Parent = cur ∧ e.Cost = 1) →
    relaxEdges grow start cur es st = .ok st' → AliasInv g start st'.1 st'.2 := by
  induction es with
  | nil =>
    intro R st st' _ hA _ h
    simp only [relaxEdges] at h
    injection h with h
    subst h
    exact hA
  | cons e es ih =>
    intro R st st' hI hA hes h
    simp only [relaxEdges] at h
    split at h
    · simp at h
    · rename_i st1 h1
      obtain ⟨he, hp, hc⟩ := hes e (List.mem_cons_self _ _)
      have hI1 := relaxEdge_inv grow g start K V R m cur st st1 e hI he hp hc h1
      have hA1 : AliasInv g start st1.1 st1.2 :=
        relaxEdge_aliasInv grow hgrow g start K V R m cur st.1 st1.1 st.2 st1.2 e hI hA he hp hc h1
      exact ih _ st1 st' hI1 hA1 (fun e' he' => hes e' (List.mem_cons_of_mem _ he')) h

theorem visitNext_aliasInv (grow : Nat → Nat) (hgrow : grow 0 = 1 ∧ grow 1 = 2 ∧ grow 2 = 4)
    (g : graph) (start : Option node) (K : List (Option node)) (pick : Nat)
    (s s' : searchState) (hK : K.Nodup) (hg : GraphOk g) (hI : SearchInv g start K s)
    (hA : AliasInv g start s.costTable s.heap)
    (h : visitNext grow g start pick s = .ok s') : AliasInv g start s'.costTable s'.heap := by
  unfold visitNext at h
  split at h
  · simp at h
  · rename_i cur hcur
    split at h
    · simp at h
    · rename_i st hst
      injection h with h
      subst h
      obtain ⟨_, _, m, hR⟩ := relaxInv_of_searchInv g start K s pick cur hK hI hcur
      have hes : ∀ e ∈ getNodeEdges g cur, e ∈ g.Edges ∧ e.Parent = cur ∧ e.Cost = 1 := by
        intro e he
        unfold getNodeEdges at he
        rw [List.mem_filter] at he
        exact ⟨he.1, by simpa using he.2, hg.unit e he.1⟩
      exact relaxEdges_aliasInv grow hgrow g start K _ m cur _ _ _ st hR hA hes hst

theorem searchLoop_aliasInv (grow : Nat → Nat) (hgrow : grow 0 = 1 ∧ grow 1 = 2 ∧ grow 2 = 4)
    (g : graph) (start : Option node) (picks : Nat → Nat) (hg : GraphOk g) :
    ∀ (fuel : Nat) (s s' : searchState), SearchInv g start (tableKeys g start) s →
    AliasInv g start s.costTable s.heap →
    searchLoop grow g start picks fuel s = .ok s' → AliasInv g start s'.costTable s'.heap := by
  intro fuel
  induction fuel with
  | zero =>
    intro s s' _ hA h
    simp only [searchLoop] at h
    split at h
    · simp at h
    · injection h with h
      subst h
      exact hA
  | succ fuel ih =>
    intro s s' hI hA h
    simp only [searchLoop] at h
    split at h
    · split at h
      · simp at h
      · rename_i s1 h1
        obtain ⟨hI1, _⟩ := visitNext_inv grow g start _ _ s s1 (tableKeys_nodup g start) hg hI h1
        have hA1 := visitNext_aliasInv grow hgrow g start _ _ s s1 (tableKeys_nodup g start) hg hI hA h1
        exact ih s1 s' hI1 hA1 h
    · injection h with h
      subst h
      exact hA

theorem aliasInv_init (g : graph) (start : Option node) :
    AliasInv g start (newCostTable g start) [] := by
  have hrow : ∀ v ni, mapGet (newCostTable g start) v = some ni →
      ni.path = nilSlice ∧ (v ≠ start → ni.Cost = infinity) := by
    intro v ni h
    rw [newCostTable_get] at h
    by_cases h1 : v = start
    · simp only [h1, if_true] at h
      injection h with h
      subst h
      exact ⟨rfl, fun hh => absurd h1 hh⟩
    · simp only [h1, if_false] at h
      split at h
      · injection h with h
        subst h
        exact ⟨rfl, fun _ => rfl⟩
      · simp at h
  refine ⟨?_, ?_, ?_, ?_⟩
  · intro v ni h
    rw [(hrow v ni h).1]
    exact Or.inl ⟨rfl, rfl⟩
  · intro x y nx ny hx _ _ _ h35
    rw [(hrow x nx hx).1] at h35
    simp [nilSlice] at h35
  · intro x y nx ny _ hy _ h1 _ _
    rw [(hrow y ny hy).1] at h1
    simp [nilSlice] at h1
  · intro v ni h hv hfin _
    rw [(hrow v ni h).2 hv] at hfin
    simp at hfin

/-- A walk between nodes is a walk between their names. -/
theorem chain_to_walk (g : graph) (l : List node)
    (h : List.Chain' (Adj g) (l.map some)) : isWalk g (l.map (fun n => n.Name)) := by
  rw [isWalk_iff_chain, List.chain'_map]
  rw [List.chain'_map] at h
  apply List.Chain'.imp _ h
  rintro a b ⟨e, he, hp, hc⟩
  exact ⟨e, he, by rw [hp]; rfl, by rw [hc]; rfl⟩


/-- A path of seven entries that is not a walk: over `usersFork` the query `(8a, s)` gets
a path that names `7b`, which has no edge to `8a`; the element `7a` was overwritten in the
backing array that the paths of `8a` and `8b` share. -/
theorem long_path_overwritten :
    run goGrow usersFork [⟨"8a", "s"⟩] firstPick = .ok resultsFork ∧
      ¬ isWalk (addGraph ⟨[], []⟩ usersFork).1 ["s", "1", "2", "3", "4", "5", "6", "7b", "8a"] ∧
      ¬ hasEdge (addGraph ⟨[], []⟩ usersFork).1 "7b" "8a" :=
  ⟨by rfl, by decide, by decide⟩



/-! ## The iterations of the main loop -/

/-- While fewer nodes are visited than the graph has, the cost table has a row of a node
that is not visited. -/
theorem candidates_ne_nil (g : graph) (start : Option node) (s : searchState) (hg : GraphOk g)
    (hI : SearchInv g start (tableKeys g start) s)
    (hlt : s.visited.length < g.Nodes.length) :
    s.costTable.filter (fun e => decide (e.1 ∉ s.visited)) ≠ [] := by
  have hK := tableKeys_nodup g start
  have hex : ∃ k ∈ tableKeys g start, k ∉ s.visited := by
    by_contra hcon
    push_neg at hcon
    have := (List.subperm_of_subset hK hcon).length_le
    have := length_le_tableKeys g start hg.nodup
    omega
  obtain ⟨k, hk, hkv⟩ := hex
  obtain ⟨nk, hnk⟩ : ∃ v, mapGet s.costTable k = some v := by
    rw [mapGet_isSome_iff, hI.keys]; exact hk
  intro hnil
  have : (k, nk) ∈ s.costTable.filter (fun e => decide (e.1 ∉ s.visited)) := by
    rw [List.mem_filter]
    exact ⟨mem_of_mapGet _ _ _ hnk, by simpa using hkv⟩
  rw [hnil] at this
  simp at this

/-- From a state with the invariant, `k` iterations run without failure as long as the
graph has that many unvisited nodes, and they visit `k` nodes. -/
theorem searchTrace_ok (grow : Nat → Nat) (g : graph) (start : Option node)
    (picks : Nat → Nat) (hg : GraphOk g) (hnil : none ∉ tableKeys g start) :
    ∀ (k : Nat) (s : searchState), SearchInv g start (tableKeys g start) s →
    s.visited.length + k ≤ g.Nodes.length →
    ∃ s', searchTrace grow g start picks k s = .ok s' ∧
      SearchInv g start (tableKeys g start) s' ∧ s'.visited.length = s.visited.length + k := by
  intro k
  induction k with
  | zero => intro s hI _; exact ⟨s, rfl, hI, rfl⟩
  | succ k ih =>
    intro s hI hlen
    obtain ⟨s1, h1⟩ := visitNext_ok grow g start (picks s.visited.length) s hg hI (by omega) hnil
    obtain ⟨hI1, cur, _, hv⟩ := visitNext_inv grow g start _ _ s s1 (tableKeys_nodup g start) hg hI h1
    have hl1 : s1.visited.length = s.visited.length + 1 := by
      rw [hv, List.length_append, List.length_singleton]
    obtain ⟨s', h', hI', hl'⟩ := ih s1 hI1 (by omega)
    refine ⟨s', ?_, hI', by omega⟩
    simp only [searchTrace]
    rw [h1]
    exact h'

/-- One more iteration is the iteration on the state reached so far. -/
theorem searchTrace_succ (grow : Nat → Nat) (g : graph) (start : Option node)
    (picks : Nat → Nat) :
    ∀ (k : Nat) (s s' : searchState), searchTrace grow g start picks k s = .ok s' →
    searchTrace grow g start picks (k + 1) s =
      visitNext grow g start (picks s'.visited.length) s' := by
  intro k
  induction k with
  | zero =>
    intro s s' h
    simp only [searchTrace] at h
    injection h with h
    subst h
    simp only [searchTrace]
    cases visitNext grow g start (picks s.visited.length) s <;> rfl
  | succ k ih =>
    intro s s' h
    rw [searchTrace] at h
    rw [searchTrace]
    cases h1 : visitNext grow g start (picks s.visited.length) s with
    | error a => rw [h1] at h; simp at h
    | ok s1 =>
      rw [h1] at h
      simp only at h ⊢
      exact ih s1 s' h

/-- With exactly as much fuel as nodes are left to visit, the loop does what that many
iterations do. -/
theorem searchLoop_eq_trace (grow : Nat → Nat) (g : graph) (start : Option node)
    (picks : Nat → Nat) (hg : GraphOk g) :
    ∀ (fuel : Nat) (s : searchState), SearchInv g start (tableKeys g start) s →
    s.visited.length + fuel = g.Nodes.length →
    searchLoop grow g start picks fuel s = searchTrace grow g start picks fuel s := by
  intro fuel
  induction fuel with
  | zero =>
    intro s _ hlen
    simp only [searchLoop, searchTrace]
    rw [if_neg (by simp; omega)]
  | succ fuel ih =>
    intro s hI hlen
    simp only [searchLoop, searchTrace]
    rw [if_pos (by omega)]
    cases h1 : visitNext grow g start (picks s.visited.length) s with
    | error a => rfl
    | ok s1 =>
      simp only
      obtain ⟨hI1, cur, _, hv⟩ := visitNext_inv grow g start _ _ s s1 (tableKeys_nodup g start) hg hI h1
      apply ih s1 hI1
      rw [hv, List.length_append, List.length_singleton]
      omega

/-- With less fuel than nodes are left to visit, the loop is cut while its condition
still holds. -/
theorem searchLoop_cut (grow : Nat → Nat) (g : graph) (start : Option node)
    (picks : Nat → Nat) (hg : GraphOk g) (hnil : none ∉ tableKeys g start) :
    ∀ (fuel : Nat) (s : searchState), SearchInv g start (tableKeys g start) s →
    s.visited.length + fuel < g.Nodes.length →
    searchLoop grow g start picks fuel s = .error .outOfFuel := by
  intro fuel
  induction fuel with
  | zero =>
    intro s _ hlen
    simp only [searchLoop]
    rw [if_pos (by omega)]
  | succ fuel ih =>
    intro s hI hlen
    simp only [searchLoop]
    rw [if_pos (by omega)]
    obtain ⟨s1, h1⟩ := visitNext_ok grow g start (picks s.visited.length) s hg hI (by omega) hnil
    obtain ⟨hI1, cur, _, hv⟩ := visitNext_inv grow g start _ _ s s1 (tableKeys_nodup g start) hg hI h1
    rw [h1]
    simp only
    apply ih s1 hI1
    rw [hv, List.length_append, List.length_singleton]
    omega


/-! ## The costs at the end of the search -/

/-- When the main loop has visited every node, the cost of a row is the least number of
edges of a walk from `start` to its node, and `infinity` when there is no such walk. -/
theorem final_costs (g : graph) (start : Option node) (s : searchState) (hg : GraphOk g)
    (hI : SearchInv g start (tableKeys g start) s) (hlen : s.visited.length = g.Nodes.length)
    (hsize : (g.Nodes.length : Int) < infinity) :
    ∀ v nv, mapGet s.costTable v = some nv →
      (nv.Cost = infinity ∧ ∀ k, ¬ Reach g start k v) ∨
      (∃ n : Nat, nv.Cost = (n : Int) ∧ nv.Cost < infinity ∧ Reach g start n v ∧
        ∀ k, Reach g start k v → n ≤ k) := by
  intro v nv hv
  obtain ⟨m, hC⟩ := hI.cost
  have hle : ∀ k, Reach g start k v → nv.Cost ≤ (k : Int) ∧ nv.Cost < infinity := by
    intro k hk
    by_cases hs : start ∈ g.Nodes
    · obtain ⟨nv', h1, h2, h3⟩ := cost_le_walk g start s hg hI hlen hs hsize k v hk
      rw [hv] at h1
      injection h1 with h1
      subst h1
      exact ⟨h2, h3⟩
    · have hk0 := Reach_isolated g hg start hs k v hk
      subst hk0
      have hsv : start = v := hk
      subst hsv
      obtain ⟨ni, h1, h2⟩ := hC.start_row
      rw [hv] at h1
      injection h1 with h1
      subst h1
      rw [h2]
      exact ⟨le_refl _, by decide⟩
  by_cases hfin : nv.Cost < infinity
  · right
    obtain ⟨n, hn, hr⟩ := hC.sound v nv hv hfin
    refine ⟨n, hn.symm, hfin, hr, ?_⟩
    intro k hk
    have := (hle k hk).1
    omega
  · left
    have := (hC.range v nv hv).2
    refine ⟨by omega, ?_⟩
    intro k hk
    exact hfin (hle k hk).2

/-! ## Independence of the choice among rows of equal cost -/

/-- Two searches from the same node that have visited every node give every node the same
cost and a path of the same length. -/
theorem final_rows_agree (g : graph) (start : Option node) (s1 s2 : searchState)
    (hg : GraphOk g) (hsize : (g.Nodes.length : Int) < infinity)
    (hI1 : SearchInv g start (tableKeys g start) s1) (hl1 : s1.visited.length = g.Nodes.length)
    (hI2 : SearchInv g start (tableKeys g start) s2) (hl2 : s2.visited.length = g.Nodes.length)
    (v : Option node) (n1 n2 : nodeInfo) (h1 : mapGet s1.costTable v = some n1)
    (h2 : mapGet s2.costTable v = some n2) :
    n1.Cost = n2.Cost ∧ n1.path.len = n2.path.len := by
  have hc : n1.Cost = n2.Cost := by
    rcases final_costs g start s1 hg hI1 hl1 hsize v n1 h1 with ⟨hi1, hn1⟩ | ⟨k1, hc1, _, hr1, hm1⟩
    · rcases final_costs g start s2 hg hI2 hl2 hsize v n2 h2 with ⟨hi2, _⟩ | ⟨k2, _, _, hr2, _⟩
      · rw [hi1, hi2]
      · exact absurd hr2 (hn1 k2)
    · rcases final_costs g start s2 hg hI2 hl2 hsize v n2 h2 with ⟨_, hn2⟩ | ⟨k2, hc2, _, hr2, hm2⟩
      · exact absurd hr1 (hn2 k1)
      · have := hm1 k2 hr2
        have := hm2 k1 hr1
        rw [hc1, hc2]
        omega
  refine ⟨hc, ?_⟩
  by_cases hvs : v = start
  · subst hvs
    rw [hI1.path.start_nil n1 h1, hI2.path.start_nil n2 h2]
  · by_cases hfin : n1.Cost < infinity
    · have a1 := hI1.path.len v n1 h1 hvs hfin
      have a2 := hI2.path.len v n2 h2 hvs (by rw [← hc]; exact hfin)
      omega
    · obtain ⟨m1, hC1⟩ := hI1.cost
      have hle := (hC1.range v n1 h1).2
      have hinf : n1.Cost = infinity := by omega
      rw [hI1.path.inf_nil v n1 h1 hinf, hI2.path.inf_nil v n2 h2 (by rw [← hc]; exact hinf)]

/-! ## The claims -/


/-- C4. Whenever `formResult` returns (every search completes), it returns as many
records as the query table has rows, and the record at index `i` has `ID = i + 1`. -/
theorem formResult_length_ids (grow : Nat → Nat) (g : graph) (userWay : List way)
    (mapNodePointers : List (String × node)) (picks : Nat → Nat → Nat) (rs : List result)
    (h : formResult grow g userWay mapNodePointers picks = .ok rs) :
    rs.length = userWay.length ∧ ∀ i r, rs.get? i = some r → r.ID = (i : Int) + 1 := by
  unfold formResult at h
  obtain ⟨hl, hrows⟩ := formResultFrom_spec grow g mapNodePointers picks userWay 0 0 rs h
  refine ⟨hl, ?_⟩
  intro i r hr
  obtain ⟨w, hw⟩ := get?_of_length_eq rs userWay hl i r hr
  obtain ⟨sp, p, _, _, h3⟩ := hrows i w hw
  rw [hr] at h3
  injection h3 with h3
  rw [h3]
  simp

/-- C5. Whenever `formResult` returns, the record at index `i` carries the "from" and the
"to" of row `i` of the query table, unchanged and not swapped. -/
theorem formResult_echo (grow : Nat → Nat) (g : graph) (userWay : List way)
    (mapNodePointers : List (String × node)) (picks : Nat → Nat → Nat) (rs : List result)
    (h : formResult grow g userWay mapNodePointers picks = .ok rs) :
    ∀ i w r, userWay.get? i = some w → rs.get? i = some r → r.From = w.From ∧ r.To = w.To := by
  unfold formResult at h
  obtain ⟨_, hrows⟩ := formResultFrom_spec grow g mapNodePointers picks userWay 0 0 rs h
  intro i w r hw hr
  obtain ⟨sp, p, _, _, h3⟩ := hrows i w hw
  rw [hr] at h3
  injection h3 with h3
  rw [h3]
  exact ⟨rfl, rfl⟩

/-- C6. With every subscriber registered and every query of the table between registered
emails, the program returns its records, one for every query of the table, and the record
of every query whose "from" and "to" are the same email has an empty path. -/
theorem same_endpoint_empty_path (grow : Nat → Nat) (users : List user) (ways : List way)
    (picks : Nat → Nat → Nat) (hw : subscribersRegistered users)
    (hq : ∀ w ∈ ways, registered users w.From ∧ registered users w.To) :
    ∃ rs, run grow users ways picks = .ok rs ∧ rs.length = ways.length ∧
      ∀ i w r, ways.get? i = some w → rs.get? i = some r → w.From = w.To → r.Path = [] := by
  obtain ⟨rs, hrs⟩ := run_ok grow users ways picks hw hq
  refine ⟨rs, hrs, run_length grow users ways picks rs hrs, ?_⟩
  intro i w r hwi hr hft
  obtain ⟨s, ns, _, hI, _, _, _, hrow, hres⟩ := run_row grow users ways picks rs hrs i w hwi
  rw [hr] at hrow
  injection hrow with hrow
  rcases hres with ⟨ni, hni, hlen, _, _⟩ | ⟨_, hns⟩
  · rw [hft] at hni
    have := hI.path.start_nil ni hni
    rw [this] at hlen
    simp only [nilSlice] at hlen
    have hns : ns = [] := List.length_eq_zero.mp hlen
    rw [hrow, hns]; rfl
  · rw [hrow, hns]; rfl



theorem formResult_length_ids_witness :
    formResult goGrow (addGraph ⟨[], []⟩ usersChain).1 queriesChain
        (addGraph ⟨[], []⟩ usersChain).2 firstPick = .ok resultsChain ∧
      (resultsChain.length = queriesChain.length ∧
        ∀ i r, resultsChain.get? i = some r → r.ID = (i : Int) + 1) :=
  ⟨by rfl, formResult_length_ids goGrow (addGraph ⟨[], []⟩ usersChain).1 queriesChain
    (addGraph ⟨[], []⟩ usersChain).2 firstPick resultsChain (by rfl)⟩

theorem formResult_echo_witness :
    formResult goGrow (addGraph ⟨[], []⟩ usersChain).1 queriesChain
        (addGraph ⟨[], []⟩ usersChain).2 firstPick = .ok resultsChain ∧
      ∀ i w r, queriesChain.get? i = some w → resultsChain.get? i = some r →
        r.From = w.From ∧ r.To = w.To :=
  ⟨by rfl, formResult_echo goGrow (addGraph ⟨[], []⟩ usersChain).1 queriesChain
    (addGraph ⟨[], []⟩ usersChain).2 firstPick resultsChain (by rfl)⟩

theorem same_endpoint_empty_path_witness :
    subscribersRegistered usersCycle ∧
      (∀ w ∈ [(⟨"a", "a"⟩ : way), ⟨"d", "d"⟩], registered usersCycle w.From ∧ registered usersCycle w.To) ∧
      ∃ rs, run goGrow usersCycle [⟨"a", "a"⟩, ⟨"d", "d"⟩] firstPick = .ok rs ∧
        rs.length = [(⟨"a", "a"⟩ : way), ⟨"d", "d"⟩].length ∧
        ∀ i w r, [(⟨"a", "a"⟩ : way), ⟨"d", "d"⟩].get? i = some w → rs.get? i = some r →
          w.From = w.To → r.Path = [] :=
  ⟨by decide, by decide,
    same_endpoint_empty_path goGrow usersCycle [⟨"a", "a"⟩, ⟨"d", "d"⟩] firstPick (by decide) (by decide)⟩

/-- C3. With every subscriber registered and every query of the table between registered
emails, the program returns its records, and in every record no entry of the path has
the email of "from" or of "to", and no email occurs twice in the path. -/
theorem path_lists_intermediates (grow : Nat → Nat) (users : List user) (ways : List way)
    (picks : Nat → Nat → Nat) (hw : subscribersRegistered users)
    (hq : ∀ w ∈ ways, registered users w.From ∧ registered users w.To) :
    ∃ rs, run grow users ways picks = .ok rs ∧
      ∀ i w r, ways.get? i = some w → rs.get? i = some r →
        (∀ x ∈ r.Path, x.Email ≠ w.From ∧ x.Email ≠ w.To) ∧ (emails r.Path).Nodup := by
  obtain ⟨rs, hrs⟩ := run_ok grow users ways picks hw hq
  refine ⟨rs, hrs, ?_⟩
  intro i w r hwi hr
  obtain ⟨s, ns, _, hI, _, _, hend, hrow, hres⟩ := run_row grow users ways picks rs hrs i w hwi
  rw [hr] at hrow
  injection hrow with hrow
  rcases hres with ⟨ni, hni, hlen, _, hent⟩ | ⟨_, hns⟩
  · obtain ⟨m, hC⟩ := hI.cost
    have hP := hI.path
    -- every listed node is a key of the table, hence registered under its own name
    have hreg : ∀ j n, ns.get? j = some n → mapGet (buildMap users) n.Name = some n := by
      intro j n hj
      exact key_registered users w.To n (hI.vis_sub _ (hent j n hj).1)
    have hjlt : ∀ j n, ns.get? j = some n → j < ni.path.len := by
      intro j n hj
      by_contra hcon
      rw [List.get?_eq_none.mpr (by omega)] at hj
      simp at hj
    have hpath : r.Path = ns.reverse.map (fun n => ⟨n.Name, n.Created⟩) := by rw [hrow]
    refine ⟨?_, ?_⟩
    · intro x hx
      rw [hpath, List.mem_map] at hx
      obtain ⟨n, hn, hxn⟩ := hx
      rw [List.mem_reverse] at hn
      obtain ⟨j, hj⟩ := mem_get? ns n hn
      obtain ⟨_, nn, hnn, hcost⟩ := hent j n hj
      have hjl := hjlt j n hj
      subst hxn
      simp only
      constructor
      · -- the node of "from" has cost `len + 1`, the listed node has cost `j + 1`
        intro hname
        have hfrom : mapGet (buildMap users) w.From = some n := by
          rw [← hname]; exact hreg j n hj
        rw [hfrom, hnn] at hni
        injection hni with hni
        subst hni
        by_cases hinf : nn.Cost = infinity
        · have := hP.inf_nil _ nn hnn hinf
          rw [this] at hjl
          simp [nilSlice] at hjl
        · by_cases hst : some n = mapGet (buildMap users) w.To
          · have := hP.start_nil nn (hst ▸ hnn)
            rw [this] at hjl
            simp [nilSlice] at hjl
          · have := hP.len _ nn hnn hst (lt_of_le_of_ne (hC.range _ nn hnn).2 hinf)
            omega
      · -- the node of "to" has cost `0`
        intro hname
        have hto : mapGet (buildMap users) w.To = some n := by
          rw [← hname]; exact hreg j n hj
        obtain ⟨n0, hn0, hc0⟩ := hC.start_row
        rw [hto, hnn] at hn0
        injection hn0 with hn0
        subst hn0
        omega
    · have hnd : (ns.map (fun n => n.Name)).Nodup := by
        rw [List.nodup_iff_getElem?_ne_getElem?]
        intro a b hab hb
        rw [List.length_map] at hb
        have ha : a < ns.length := by omega
        simp only [List.getElem?_map, List.getElem?_eq_getElem ha, List.getElem?_eq_getElem hb,
          Option.map_some']
        intro heq
        injection heq with heq
        have hga : ns.get? a = some ns[a] := by
          rw [List.get?_eq_getElem?, List.getElem?_eq_getElem ha]
        have hgb : ns.get? b = some ns[b] := by
          rw [List.get?_eq_getElem?, List.getElem?_eq_getElem hb]
        have h1 := hreg a _ hga
        have h2 := hreg b _ hgb
        rw [heq, h2] at h1
        injection h1 with h1
        obtain ⟨_, na, hna, hca⟩ := hent a _ hga
        obtain ⟨_, nb, hnb, hcb⟩ := hent b _ hgb
        rw [← h1, hnb] at hna
        injection hna with hna
        subst hna
        omega
      unfold emails
      rw [hpath, List.map_map, List.map_reverse]
      exact List.nodup_reverse.mpr hnd
  · rw [hrow, hns]
    simp [emails]

theorem path_lists_intermediates_witness :
    subscribersRegistered usersChain ∧
      (∀ w ∈ queriesChain, registered usersChain w.From ∧ registered usersChain w.To) ∧
      ∃ rs, run goGrow usersChain queriesChain firstPick = .ok rs ∧
        ∀ i w r, queriesChain.get? i = some w → rs.get? i = some r →
          (∀ x ∈ r.Path, x.Email ≠ w.From ∧ x.Email ≠ w.To) ∧ (emails r.Path).Nodup :=
  ⟨by decide, by decide,
    path_lists_intermediates goGrow usersChain queriesChain firstPick (by decide) (by decide)⟩



/-- C8 (the code fails the claim). When a query of the table names an email that is not
the email of any user, as "from" or as "to", the program does not produce a record for
it: the whole run fails with a nil dereference, also for the other queries. -/
theorem unknown_endpoint_aborts (grow : Nat → Nat) (users : List user) (ways : List way)
    (picks : Nat → Nat → Nat) (w : way) (hw : w ∈ ways)
    (h : ¬ registered users w.From ∨ ¬ registered users w.To) :
    run grow users ways picks = .error .nilPointer :=
  run_fails grow users ways picks w hw (Or.inr (Or.symm h))

theorem unknown_endpoint_aborts_witness :
    (¬ registered usersPair "a" ∨ ¬ registered usersPair "ghost") ∧
      run goGrow usersPair [⟨"a", "ghost"⟩, ⟨"a", "b"⟩] firstPick = .error .nilPointer :=
  ⟨by decide, unknown_endpoint_aborts goGrow usersPair [⟨"a", "ghost"⟩, ⟨"a", "b"⟩] firstPick
    ⟨"a", "ghost"⟩ (by decide) (by decide)⟩

/-- C9 (the code fails the claim). Over the graph built by `addGraph`, `dijkstra` fails
with a nil dereference whenever a subscriber of the user list is not a user, and
whenever one of the two handles comes from an email that is not registered. -/
theorem dijkstra_nil_dereference (grow : Nat → Nat) (users : List user) (picks : Nat → Nat)
    (a b : String)
    (h : ¬ subscribersRegistered users ∨ ¬ registered users a ∨ ¬ registered users b) :
    dijkstra grow (addGraph ⟨[], []⟩ users).1 picks (mapGet (addGraph ⟨[], []⟩ users).2 a)
      (mapGet (addGraph ⟨[], []⟩ users).2 b) = .error .nilPointer :=
  dijkstra_fails grow users picks a b h

theorem dijkstra_nil_dereference_witness :
    (¬ subscribersRegistered usersDangling ∨ ¬ registered usersDangling "a" ∨
        ¬ registered usersDangling "b") ∧
      dijkstra goGrow (addGraph ⟨[], []⟩ usersDangling).1 (firstPick 0)
        (mapGet (addGraph ⟨[], []⟩ usersDangling).2 "a")
        (mapGet (addGraph ⟨[], []⟩ usersDangling).2 "b") = .error .nilPointer :=
  ⟨by decide, dijkstra_nil_dereference goGrow usersDangling (firstPick 0) "a" "b" (by decide)⟩

/-- C10. Whenever the program returns, every entry of every returned path has as
`Created` the `Created_at` of the user record that counts for its email (the last record
with that email); and the output is the same when the timestamps carried by the
subscriber references are replaced by anything else. -/
theorem path_created_is_user_created (grow : Nat → Nat) (users : List user) (ways : List way)
    (picks : Nat → Nat → Nat) (rs : List result)
    (h : run grow users ways picks = .ok rs) :
    (∀ r ∈ rs, ∀ x ∈ r.Path, ∃ u, lastUser users x.Email = some u ∧ x.Created = u.Created) ∧
    ∀ c : subscriber → String,
      run grow (users.map (fun u =>
        { u with Subscribers := u.Subscribers.map (fun s => ⟨s.Email, c s⟩) })) ways picks
        = .ok rs := by
  constructor
  · intro r hr x hx
    obtain ⟨i, hi⟩ := mem_get? rs r hr
    have hlen : rs.length = ways.length := by
      unfold run formResult at h
      exact (formResultFrom_spec grow _ _ picks ways 0 0 rs h).1
    obtain ⟨w, hwi⟩ := get?_of_length_eq rs ways hlen i r hi
    obtain ⟨s, ns, _, hI, _, _, _, hrow, hres⟩ := run_row grow users ways picks rs h i w hwi
    rw [hi] at hrow
    injection hrow with hrow
    rcases hres with ⟨ni, hni, _, _, hent⟩ | ⟨_, hns⟩
    · rw [hrow] at hx
      simp only [List.mem_map, List.mem_reverse] at hx
      obtain ⟨n, hn, hxn⟩ := hx
      obtain ⟨j, hj⟩ := mem_get? ns n hn
      have hreg := key_registered users w.To n (hI.vis_sub _ (hent j n hj).1)
      rw [buildMap_get] at hreg
      cases hl : lastUser users n.Name with
      | none => rw [hl] at hreg; simp at hreg
      | some u =>
        rw [hl] at hreg
        simp only [Option.map_some'] at hreg
        injection hreg with hreg
        subst hxn
        refine ⟨u, hl, ?_⟩
        rw [← hreg]
    · rw [hrow, hns] at hx
      simp at hx
  · intro c
    unfold run
    rw [addGraph_subscriber_created]
    exact h

theorem path_created_is_user_created_witness :
    run goGrow usersChain queriesChain firstPick = .ok resultsChain ∧
      ((∀ r ∈ resultsChain, ∀ x ∈ r.Path,
          ∃ u, lastUser usersChain x.Email = some u ∧ x.Created = u.Created) ∧
        ∀ c : subscriber → String,
          run goGrow (usersChain.map (fun u =>
            { u with Subscribers := u.Subscribers.map (fun s => ⟨s.Email, c s⟩) }))
            queriesChain firstPick = .ok resultsChain) :=
  ⟨by rfl, path_created_is_user_created goGrow usersChain queriesChain firstPick resultsChain
    (by rfl)⟩



/-- C7 (the claim fails). Over `a → b → c` the query `(c, a)` has both emails registered
and `a` is not reachable from `c`, yet the record has the path `[b]`. -/
theorem unreachable_target_counterexample :
    subscribersRegistered usersChain ∧ registered usersChain "c" ∧ registered usersChain "a" ∧
      (¬ ∃ l, walkFromTo (addGraph ⟨[], []⟩ usersChain).1 "c" "a" l) ∧
      run goGrow usersChain [⟨"c", "a"⟩] firstPick = .ok [⟨1, "c", "a", [⟨"b", "2021"⟩]⟩] := by
  refine ⟨by decide, by decide, by decide, ?_, by rfl⟩
  rintro ⟨l, hw, hh, hl⟩
  cases l with
  | nil => simp at hh
  | cons x r =>
    simp only [List.head?] at hh
    injection hh with hh
    subst hh
    cases r with
    | nil => simp at hl
    | cons y r' =>
      obtain ⟨⟨e, he, h1, _⟩, _⟩ := hw
      have hnone : ∀ e ∈ (addGraph ⟨[], []⟩ usersChain).1.Edges,
          e.Parent.map (fun n => n.Name) ≠ some "c" := by decide
      exact hnone e he h1

/-- C7 (amended). With every subscriber registered and every query of the table between
registered emails, the program returns its records, one for every query of the table, and
the record of every query whose "from" is not reachable from its "to" along the edges of
the graph has an empty path. -/
theorem unreachable_source_empty_path (grow : Nat → Nat) (users : List user) (ways : List way)
    (picks : Nat → Nat → Nat) (hw : subscribersRegistered users)
    (hq : ∀ w ∈ ways, registered users w.From ∧ registered users w.To) :
    ∃ rs, run grow users ways picks = .ok rs ∧ rs.length = ways.length ∧
      ∀ i w r, ways.get? i = some w → rs.get? i = some r →
        (¬ ∃ l, walkFromTo (addGraph ⟨[], []⟩ users).1 w.To w.From l) → r.Path = [] := by
  obtain ⟨rs, hrs⟩ := run_ok grow users ways picks hw hq
  refine ⟨rs, hrs, run_length grow users ways picks rs hrs, ?_⟩
  intro i w r hwi hr hno
  obtain ⟨s, ns, _, hI, _, _, _, hrow, hres⟩ := run_row grow users ways picks rs hrs i w hwi
  rw [hr] at hrow
  injection hrow with hrow
  obtain ⟨hf, ht⟩ := hq w (List.get?_mem hwi)
  rcases hres with ⟨ni, hni, hlen, _, _⟩ | ⟨_, hns⟩
  · obtain ⟨m, hC⟩ := hI.cost
    by_cases hinf : ni.Cost = infinity
    · have := hI.path.inf_nil _ ni hni hinf
      rw [this] at hlen
      simp only [nilSlice] at hlen
      rw [hrow, List.length_eq_zero.mp hlen]; rfl
    · exfalso
      obtain ⟨l, hl, _⟩ := finite_cost_walk users hw w.To w.From s hI ht hf ni hni
        (lt_of_le_of_ne (hC.range _ ni hni).2 hinf)
      exact hno ⟨l, hl⟩
  · rw [hrow, hns]; rfl

theorem unreachable_source_empty_path_witness :
    subscribersRegistered usersChain ∧
      (∀ w ∈ queriesChain, registered usersChain w.From ∧ registered usersChain w.To) ∧
      ∃ rs, run goGrow usersChain queriesChain firstPick = .ok rs ∧
        rs.length = queriesChain.length ∧
        ∀ i w r, queriesChain.get? i = some w → rs.get? i = some r →
          (¬ ∃ l, walkFromTo (addGraph ⟨[], []⟩ usersChain).1 w.To w.From l) → r.Path = [] :=
  ⟨by decide, by decide,
    unreachable_source_empty_path goGrow usersChain queriesChain firstPick (by decide) (by decide)⟩

/-- C2 (the claim fails). Over the cycle `a → b → c → a` the query `(a, b)` has a walk of
one edge from `a` to `b`, yet the record has a path of one entry, `[c]`: the walk length
it stands for is two. -/
theorem min_walk_from_to_counterexample :
    subscribersRegistered usersCycle ∧ registered usersCycle "a" ∧ registered usersCycle "b" ∧
      walkFromTo (addGraph ⟨[], []⟩ usersCycle).1 "a" "b" ["a", "b"] ∧
      run goGrow usersCycle [⟨"a", "b"⟩] firstPick = .ok [⟨1, "a", "b", [⟨"c", "2022"⟩]⟩] :=
  ⟨by decide, by decide, by decide, by decide, by rfl⟩

/-- C2 (amended). With every subscriber registered, every query of the table between
registered emails and fewer than `MaxInt64` user records, the program returns its
records, one for every query of the table, and for every query with different "from" and
"to" whose "from" is reachable
from its "to": some walk from "to" to "from" has exactly `len(path) + 1` edges, and no
walk from "to" to "from" has fewer. -/
theorem path_length_is_min_walk_to_from (grow : Nat → Nat) (users : List user)
    (ways : List way) (picks : Nat → Nat → Nat) (hw : subscribersRegistered users)
    (hq : ∀ w ∈ ways, registered users w.From ∧ registered users w.To)
    (hsize : (users.length : Int) < infinity) :
    ∃ rs, run grow users ways picks = .ok rs ∧ rs.length = ways.length ∧
      ∀ i w r, ways.get? i = some w → rs.get? i = some r → w.From ≠ w.To →
        (∃ l, walkFromTo (addGraph ⟨[], []⟩ users).1 w.To w.From l) →
        (∃ l, walkFromTo (addGraph ⟨[], []⟩ users).1 w.To w.From l ∧
          l.length - 1 = r.Path.length + 1) ∧
        ∀ l, walkFromTo (addGraph ⟨[], []⟩ users).1 w.To w.From l →
          r.Path.length + 1 ≤ l.length - 1 := by
  obtain ⟨rs, hrs⟩ := run_ok grow users ways picks hw hq
  refine ⟨rs, hrs, run_length grow users ways picks rs hrs, ?_⟩
  intro i w r hwi hr hne ⟨l0, hl0⟩
  obtain ⟨s, ns, _, hI, hvis, _, _, hrow, hres⟩ := run_row grow users ways picks rs hrs i w hwi
  rw [hr] at hrow
  injection hrow with hrow
  obtain ⟨hf, ht⟩ := hq w (List.get?_mem hwi)
  have hplen : r.Path.length = ns.length := by rw [hrow]; simp
  obtain ⟨n0, hn0, _, hfin0⟩ :=
    walk_cost_bound users hw hsize w.To w.From s hI hvis l0 hl0 (Ne.symm hne)
  rcases hres with ⟨ni, hni, hlen, _, _⟩ | ⟨hnone, _⟩
  · rw [hn0] at hni
    injection hni with hni
    subst hni
    have hse : mapGet (buildMap users) w.From ≠ mapGet (buildMap users) w.To := by
      intro heq
      obtain ⟨a, ha⟩ := buildMap_registered users w.From hf
      have h1 := buildMap_name users _ a ha
      rw [heq] at ha
      have h2 := buildMap_name users _ a ha
      exact hne (h1.symm.trans h2)
    have hcl := hI.path.len _ n0 hn0 hse hfin0
    constructor
    · obtain ⟨l, hl, hll⟩ := finite_cost_walk users hw w.To w.From s hI ht hf n0 hn0 hfin0
      refine ⟨l, hl, ?_⟩
      rw [hplen, hlen]
      omega
    · intro l hl
      obtain ⟨n1, hn1, hc1, _⟩ :=
        walk_cost_bound users hw hsize w.To w.From s hI hvis l hl (Ne.symm hne)
      rw [hn0] at hn1
      injection hn1 with hn1
      subst hn1
      rw [hplen, hlen]
      omega
  · rw [hn0] at hnone
    simp at hnone

theorem path_length_is_min_walk_to_from_witness :
    subscribersRegistered usersCycle ∧
      (∀ w ∈ [(⟨"a", "b"⟩ : way)], registered usersCycle w.From ∧ registered usersCycle w.To) ∧
      (usersCycle.length : Int) < infinity ∧
      ∃ rs, run goGrow usersCycle [⟨"a", "b"⟩] firstPick = .ok rs ∧
        rs.length = [(⟨"a", "b"⟩ : way)].length ∧
        ∀ i w r, [(⟨"a", "b"⟩ : way)].get? i = some w → rs.get? i = some r → w.From ≠ w.To →
          (∃ l, walkFromTo (addGraph ⟨[], []⟩ usersCycle).1 w.To w.From l) →
          (∃ l, walkFromTo (addGraph ⟨[], []⟩ usersCycle).1 w.To w.From l ∧
            l.length - 1 = r.Path.length + 1) ∧
          ∀ l, walkFromTo (addGraph ⟨[], []⟩ usersCycle).1 w.To w.From l →
            r.Path.length + 1 ≤ l.length - 1 :=
  ⟨by decide, by decide, by decide,
    path_length_is_min_walk_to_from goGrow usersCycle [⟨"a", "b"⟩] firstPick (by decide)
      (by decide) (by decide)⟩

/-- C1 (the claim fails). Over `a → b → c` the query `(c, a)` gets the path `[b]`, and
`c, b, a` is not a walk of the graph: neither `c → b` nor `b → a` is an edge. -/
theorem walk_from_to_counterexample :
    run goGrow usersChain [⟨"c", "a"⟩] firstPick = .ok [⟨1, "c", "a", [⟨"b", "2021"⟩]⟩] ∧
      ¬ isWalk (addGraph ⟨[], []⟩ usersChain).1 ("c" :: emails [⟨"b", "2021"⟩] ++ ["a"]) :=
  ⟨by rfl, by decide⟩


/-- C1 (amended). For a runtime whose `append` gives the capacities 1, 2 and 4 to the
first three backing arrays of a growing slice (as the Go runtime does): whenever the
program returns, for every record whose path is not empty and has at most six entries,
the sequence `to, path[last].email, ..., path[0].email, from` is a directed walk of the
graph: every consecutive pair `(x, y)` of it is an edge with parent `x` and child `y`. -/
theorem short_path_is_walk_to_from (grow : Nat → Nat)
    (hgrow : grow 0 = 1 ∧ grow 1 = 2 ∧ grow 2 = 4) (users : List user) (ways : List way)
    (picks : Nat → Nat → Nat) (rs : List result)
    (h : run grow users ways picks = .ok rs) :
    ∀ i w r, ways.get? i = some w → rs.get? i = some r → r.Path ≠ [] → r.Path.length ≤ 6 →
      isWalk (addGraph ⟨[], []⟩ users).1 (w.To :: ((emails r.Path).reverse ++ [w.From])) := by
  intro i w r hwi hr hne h6
  obtain ⟨s, ns, hloop, hI, _, hnil, hend, hrow, hres⟩ :=
    run_row grow users ways picks rs h i w hwi
  rw [hr] at hrow
  injection hrow with hrow
  have hA := searchLoop_aliasInv grow hgrow _ _ (picks i) (addGraph_graphOk users) _ _ s
    (searchInv_init _ _) (aliasInv_init _ _) hloop
  have hpath : r.Path = ns.reverse.map (fun n => ⟨n.Name, n.Created⟩) := by rw [hrow]
  rcases hres with ⟨ni, hni, hlen, hread, _⟩ | ⟨_, hns⟩
  · obtain ⟨m, hC⟩ := hI.cost
    have hpos : 1 ≤ ni.path.len := by
      rw [← hlen]
      cases ns with
      | nil => rw [hpath] at hne; simp at hne
      | cons a r' => simp
    have hnotnil : ni.path ≠ nilSlice := by
      intro hh; rw [hh] at hpos; simp [nilSlice] at hpos
    have hvs : mapGet (buildMap users) w.From ≠ mapGet (buildMap users) w.To :=
      fun hh => hnotnil (hI.path.start_nil ni (hh ▸ hni))
    have hfin : ni.Cost < infinity :=
      lt_of_le_of_ne (hC.range _ ni hni).2 (fun hh => hnotnil (hI.path.inf_nil _ ni hni hh))
    have hl6 : ni.path.len ≤ 6 := by
      rw [← hlen]
      rw [hpath] at h6
      simpa using h6
    obtain ⟨ns', hread', hchain⟩ := hA.valid _ ni hni hvs hfin hl6
    rw [hread] at hread'
    have hinj : Function.Injective nodeEntry := by
      intro a b hab
      unfold nodeEntry at hab
      cases a; cases b
      simp only [List.cons.injEq, and_true] at hab
      simp [hab.1, hab.2]
    have hnn : ns = ns' := List.map_injective_iff.mpr hinj hread'
    subst hnn
    -- the two ends are nodes of the email map
    obtain ⟨a, ha⟩ : ∃ a, mapGet (buildMap users) w.To = some a := by
      cases hto : mapGet (buildMap users) w.To with
      | none =>
        exfalso
        apply hnil
        rw [mem_tableKeys]
        exact Or.inl hto.symm
      | some a => exact ⟨a, rfl⟩
    obtain ⟨b, hb⟩ : ∃ b, mapGet (buildMap users) w.From = some b := by
      cases hfrom : mapGet (buildMap users) w.From with
      | none => exact absurd hfrom hend
      | some b => exact ⟨b, rfl⟩
    rw [ha, hb] at hchain
    have hchain' : List.Chain' (Adj (addGraph ⟨[], []⟩ users).1)
        ((a :: (ns ++ [b])).map some) := by
      simpa using hchain
    have hwalk := chain_to_walk _ _ hchain'
    have hnames : (emails r.Path).reverse = ns.map (fun n => n.Name) := by
      unfold emails
      rw [hpath, List.map_map, List.map_reverse, List.reverse_reverse]
      rfl
    rw [hnames, ← buildMap_name users _ a ha, ← buildMap_name users _ b hb]
    simpa using hwalk
  · rw [hpath, hns] at hne
    simp at hne




theorem short_path_is_walk_to_from_witness :
    (goGrow 0 = 1 ∧ goGrow 1 = 2 ∧ goGrow 2 = 4) ∧
      run goGrow usersLine [⟨"7", "s"⟩] firstPick = .ok resultsLine ∧
      ∀ i w r, [(⟨"7", "s"⟩ : way)].get? i = some w → resultsLine.get? i = some r →
        r.Path ≠ [] → r.Path.length ≤ 6 →
        isWalk (addGraph ⟨[], []⟩ usersLine).1 (w.To :: ((emails r.Path).reverse ++ [w.From])) :=
  ⟨by decide, by rfl,
    short_path_is_walk_to_from goGrow (by decide) usersLine [⟨"7", "s"⟩] firstPick resultsLine
      (by rfl)⟩


/-- C19. After any sequence of `addEdge` calls on the empty graph, `g.Nodes` lists no
vertex twice and lists exactly the vertices that are parent or child of an edge of
`g.Edges`; `addNode` on a vertex that is listed leaves the graph as it is; and in the
graph that `addGraph` builds, a vertex of the email map that is neither parent nor child
of an edge is not in `g.Nodes`. -/
theorem nodes_are_edge_ends (calls : List (Option node × Option node × Int)) :
    (addEdges calls).Nodes.Nodup ∧
    (∀ n, n ∈ (addEdges calls).Nodes ↔
      ∃ e ∈ (addEdges calls).Edges, e.Parent = n ∨ e.Child = n) ∧
    (∀ n, n ∈ (addEdges calls).Nodes → addNode (addEdges calls) n = addEdges calls) ∧
    (∀ (users : List user) (k : String) (n : node),
      mapGet (addGraph ⟨[], []⟩ users).2 k = some n →
      (∀ e ∈ (addGraph ⟨[], []⟩ users).1.Edges, e.Parent ≠ some n ∧ e.Child ≠ some n) →
      some n ∉ (addGraph ⟨[], []⟩ users).1.Nodes) := by
  obtain ⟨h1, h2⟩ := addEdges_fold_inv calls ⟨[], []⟩ List.nodup_nil (by simp)
  refine ⟨h1, h2, fun n hn => addNode_of_mem _ n hn, ?_⟩
  intro users k n _ hno hmem
  obtain ⟨e, he, h⟩ := (addGraph_built users).nodes_from _ hmem
  rcases h with h | h
  · exact (hno e he).1 h
  · exact (hno e he).2 h

theorem nodes_are_edge_ends_witness :
    mapGet (addGraph ⟨[], []⟩ usersCycle).2 "d" = some ⟨"d", "2023"⟩ ∧
    (∀ e ∈ (addGraph ⟨[], []⟩ usersCycle).1.Edges,
      e.Parent ≠ some ⟨"d", "2023"⟩ ∧ e.Child ≠ some ⟨"d", "2023"⟩) ∧
    some (⟨"d", "2023"⟩ : node) ∉ (addGraph ⟨[], []⟩ usersCycle).1.Nodes :=
  ⟨by decide, by decide,
    (nodes_are_edge_ends []).2.2.2 usersCycle "d" ⟨"d", "2023"⟩ (by decide) (by decide)⟩

/-- C12. `addGraph` maps each email to one vertex: the email map has no key twice and
holds, for an email, the vertex made from the last user record with that email; for every
user record and each of its subscribers the graph has the edge from the vertex of the
record's email to the vertex of the subscriber's email, and it has no other edge; two
vertices of `g.Nodes` with the same name are the same vertex; and `g.Nodes` lists no
vertex twice. -/
theorem one_vertex_per_email (users : List user) :
    ((addGraph ⟨[], []⟩ users).2.map Prod.fst).Nodup ∧
    (∀ k, mapGet (addGraph ⟨[], []⟩ users).2 k =
      (lastUser users k).map (fun u => ⟨u.Email, u.Created⟩)) ∧
    (∀ u ∈ users, ∀ s ∈ u.Subscribers,
      (⟨mapGet (addGraph ⟨[], []⟩ users).2 u.Email, mapGet (addGraph ⟨[], []⟩ users).2 s.Email, 1⟩ : edge)
        ∈ (addGraph ⟨[], []⟩ users).1.Edges) ∧
    (∀ e ∈ (addGraph ⟨[], []⟩ users).1.Edges, ∃ u ∈ users, ∃ s ∈ u.Subscribers,
      e = ⟨mapGet (addGraph ⟨[], []⟩ users).2 u.Email, mapGet (addGraph ⟨[], []⟩ users).2 s.Email, 1⟩) ∧
    (∀ a b, some a ∈ (addGraph ⟨[], []⟩ users).1.Nodes →
      some b ∈ (addGraph ⟨[], []⟩ users).1.Nodes → a.Name = b.Name → a = b) ∧
    (addGraph ⟨[], []⟩ users).1.Nodes.Nodup := by
  rw [addGraph_map]
  refine ⟨buildMap_keys_nodup users, buildMap_get users, ?_, ?_, ?_,
    (addGraph_graphOk users).nodup⟩
  · intro u hu s hs
    exact addGraph_edge_of_subscriber users u s hu hs
  · intro e he
    obtain ⟨hc, u, hu, s, hs, hp, hch⟩ := (addGraph_built users).edges_from e he
    refine ⟨u, hu, s, hs, ?_⟩
    cases e
    simp only at hc hp hch
    rw [hc, hp, hch]
  · intro a b ha hb hab
    have h1 := addGraph_node_registered users a ha
    have h2 := addGraph_node_registered users b hb
    rw [hab, h2] at h1
    injection h1 with h1
    exact h1.symm

theorem one_vertex_per_email_witness :
    lastUser usersTwice "a" = some ⟨"A2", "a", "2021", [⟨"c", "1999"⟩]⟩ ∧
    (addGraph ⟨[], []⟩ usersTwice).1.Nodes =
      [some ⟨"a", "2021"⟩, some ⟨"b", "2022"⟩, some ⟨"c", "2023"⟩] ∧
    (((addGraph ⟨[], []⟩ usersTwice).2.map Prod.fst).Nodup ∧
    (∀ k, mapGet (addGraph ⟨[], []⟩ usersTwice).2 k =
      (lastUser usersTwice k).map (fun u => ⟨u.Email, u.Created⟩)) ∧
    (∀ u ∈ usersTwice, ∀ s ∈ u.Subscribers,
      (⟨mapGet (addGraph ⟨[], []⟩ usersTwice).2 u.Email,
        mapGet (addGraph ⟨[], []⟩ usersTwice).2 s.Email, 1⟩ : edge)
        ∈ (addGraph ⟨[], []⟩ usersTwice).1.Edges) ∧
    (∀ e ∈ (addGraph ⟨[], []⟩ usersTwice).1.Edges, ∃ u ∈ usersTwice, ∃ s ∈ u.Subscribers,
      e = ⟨mapGet (addGraph ⟨[], []⟩ usersTwice).2 u.Email,
        mapGet (addGraph ⟨[], []⟩ usersTwice).2 s.Email, 1⟩) ∧
    (∀ a b, some a ∈ (addGraph ⟨[], []⟩ usersTwice).1.Nodes →
      some b ∈ (addGraph ⟨[], []⟩ usersTwice).1.Nodes → a.Name = b.Name → a = b) ∧
    (addGraph ⟨[], []⟩ usersTwice).1.Nodes.Nodup) :=
  ⟨by decide, by decide, one_vertex_per_email usersTwice⟩

/-- C11 (the code fails the claim). A subscriber reference whose email is not the email of
any user does contribute to the graph: `addGraph` adds the edge from the vertex of the
user to the nil vertex, and the nil vertex, which is no vertex of the email map, to
`g.Nodes`. -/
theorem dangling_subscriber_adds_nil (users : List user) (u : user) (s : subscriber)
    (hu : u ∈ users) (hs : s ∈ u.Subscribers) (hd : ¬ registered users s.Email) :
    (⟨mapGet (addGraph ⟨[], []⟩ users).2 u.Email, none, 1⟩ : edge)
        ∈ (addGraph ⟨[], []⟩ users).1.Edges ∧
      none ∈ (addGraph ⟨[], []⟩ users).1.Nodes ∧
      mapGet (addGraph ⟨[], []⟩ users).2 s.Email = none := by
  rw [addGraph_map]
  have hnone : mapGet (buildMap users) s.Email = none := by
    cases hg : mapGet (buildMap users) s.Email with
    | none => rfl
    | some n => exact absurd (buildMap_some_registered users s.Email n hg) hd
  have he := addGraph_edge_of_subscriber users u s hu hs
  rw [hnone] at he
  exact ⟨he, ((addGraph_built users).ends _ he).2, hnone⟩

theorem dangling_subscriber_adds_nil_witness :
    (⟨"A", "a", "2020", [⟨"zz", "1999"⟩]⟩ : user) ∈ usersDangling ∧
    ¬ registered usersDangling "zz" ∧
    ((⟨mapGet (addGraph ⟨[], []⟩ usersDangling).2 "a", none, 1⟩ : edge)
        ∈ (addGraph ⟨[], []⟩ usersDangling).1.Edges ∧
      none ∈ (addGraph ⟨[], []⟩ usersDangling).1.Nodes ∧
      mapGet (addGraph ⟨[], []⟩ usersDangling).2 "zz" = none) :=
  ⟨by decide, by decide,
    dangling_subscriber_adds_nil usersDangling ⟨"A", "a", "2020", [⟨"zz", "1999"⟩]⟩
      ⟨"zz", "1999"⟩ (by decide) (by decide) (by decide)⟩

/-- C15 (the code fails the claim). When the query source yields zero rows, `readCsv`
returns the empty table and no error; it returns the failure "no user ways" for no input
at all; and `main` goes on to the query phase, which hands an empty list of records to
`createResult`. -/
theorem empty_query_source_accepted :
    readCsv (some []) = .ok [] ∧
    (∀ file, readCsv file ≠ .error .noUserWays) ∧
    (∀ (grow : Nat → Nat) (users : List user) (picks : Nat → Nat → Nat),
      mainRecords grow (some []) (some users) picks = .ok []) := by
  refine ⟨rfl, ?_, fun _ _ _ => rfl⟩
  intro file
  cases file with
  | none => simp [readCsv]
  | some reads =>
    have h := readCsvLoop_some reads []
    simp only [readCsv]
    split
    · rename_i f hf
      intro heq
      injection heq with heq
      rw [heq] at hf
      exact h.2 hf
    · rename_i hf
      exact absurd hf h.1
    · simp

/-- C14. With 64-bit wrapping arithmetic, relaxing an edge of cost 1 out of a vertex whose
cost is infinity never improves the neighbour: the sum wraps to the least integer, a
non-positive value, which `positiveCheck` maps to infinity; every value that the sum of
two non-negative 64-bit integers wraps to is negative, hence non-positive, and
`positiveCheck` maps it to infinity; `positiveCheck` leaves every sum that does not wrap
unchanged, as it does every value that is not negative; and the relaxation leaves the cost
table and the paths as they are. -/
theorem relax_from_infinity (grow : Nat → Nat) (start cur : Option node)
    (st : List (Option node × nodeInfo) × List (List (List String))) (e : edge)
    (ni ci : nodeInfo) (hni : mapGet st.1 cur = some ni) (hinf : ni.Cost = infinity)
    (hc : e.Cost = 1) (hci : mapGet st.1 e.Child = some ci) (hle : ci.Cost ≤ infinity) :
    wrap64 (ni.Cost + e.Cost) = -9223372036854775808 ∧
    wrap64 (ni.Cost + e.Cost) ≤ 0 ∧
    positiveCheck (wrap64 (ni.Cost + e.Cost)) = infinity ∧
    (∀ a b : Int, 0 ≤ a → a ≤ infinity → 0 ≤ b → b ≤ infinity → infinity < a + b →
      wrap64 (a + b) < 0 ∧ wrap64 (a + b) ≤ 0 ∧ positiveCheck (wrap64 (a + b)) = infinity) ∧
    (∀ a b : Int, 0 ≤ a → 0 ≤ b → a + b ≤ infinity →
      wrap64 (a + b) = a + b ∧ positiveCheck (wrap64 (a + b)) = a + b) ∧
    (∀ n, n < 0 → positiveCheck n = infinity) ∧
    (∀ n, 0 ≤ n → positiveCheck n = n) ∧
    relaxEdge grow start cur st e = .ok st := by
  have hw : wrap64 (infinity + 1) = -9223372036854775808 := by decide
  have hd : positiveCheck (wrap64 (infinity + 1)) = infinity := by decide
  rw [hinf, hc]
  refine ⟨hw, by rw [hw]; decide, hd, ?_, ?_, ?_, ?_, ?_⟩
  · intro a b ha ha' hb hb' hab
    have hneg : wrap64 (a + b) < 0 := by
      unfold wrap64 infinity at *
      omega
    refine ⟨hneg, le_of_lt hneg, ?_⟩
    unfold positiveCheck
    rw [if_pos hneg]
  · intro a b ha hb hab
    have heq : wrap64 (a + b) = a + b := by
      unfold wrap64 infinity at *
      omega
    refine ⟨heq, ?_⟩
    rw [heq]
    unfold positiveCheck
    rw [if_neg (by omega)]
  · intro n hn
    unfold positiveCheck
    rw [if_pos hn]
  · intro n hn
    unfold positiveCheck
    rw [if_neg (by omega)]
  · unfold relaxEdge
    simp only [hni, hci, hinf, hc]
    rw [hd, if_neg (by omega)]

theorem relax_from_infinity_witness :
    mapGet [(some (⟨"x", "2020"⟩ : node), (⟨infinity, ⟨0, 0, 0⟩⟩ : nodeInfo)),
        (some ⟨"y", "2021"⟩, ⟨infinity, ⟨0, 0, 0⟩⟩)] (some ⟨"x", "2020"⟩)
      = some ⟨infinity, ⟨0, 0, 0⟩⟩ ∧
    wrap64 (infinity + 1) ≤ 0 ∧
    positiveCheck (wrap64 (infinity + 1)) = infinity ∧
    relaxEdge goGrow none (some ⟨"x", "2020"⟩)
      ([(some ⟨"x", "2020"⟩, ⟨infinity, ⟨0, 0, 0⟩⟩), (some ⟨"y", "2021"⟩, ⟨infinity, ⟨0, 0, 0⟩⟩)], [])
      ⟨some ⟨"x", "2020"⟩, some ⟨"y", "2021"⟩, 1⟩
      = .ok ([(some ⟨"x", "2020"⟩, ⟨infinity, ⟨0, 0, 0⟩⟩),
              (some ⟨"y", "2021"⟩, ⟨infinity, ⟨0, 0, 0⟩⟩)], []) :=
  ⟨by decide,
    (relax_from_infinity goGrow none (some ⟨"x", "2020"⟩)
      ([(some ⟨"x", "2020"⟩, ⟨infinity, ⟨0, 0, 0⟩⟩), (some ⟨"y", "2021"⟩, ⟨infinity, ⟨0, 0, 0⟩⟩)], [])
      ⟨some ⟨"x", "2020"⟩, some ⟨"y", "2021"⟩, 1⟩ ⟨infinity, ⟨0, 0, 0⟩⟩ ⟨infinity, ⟨0, 0, 0⟩⟩
      (by decide) rfl rfl (by decide) (le_refl _)).2.1,
    (relax_from_infinity goGrow none (some ⟨"x", "2020"⟩)
      ([(some ⟨"x", "2020"⟩, ⟨infinity, ⟨0, 0, 0⟩⟩), (some ⟨"y", "2021"⟩, ⟨infinity, ⟨0, 0, 0⟩⟩)], [])
      ⟨some ⟨"x", "2020"⟩, some ⟨"y", "2021"⟩, 1⟩ ⟨infinity, ⟨0, 0, 0⟩⟩ ⟨infinity, ⟨0, 0, 0⟩⟩
      (by decide) rfl rfl (by decide) (le_refl _)).2.2.1,
    (relax_from_infinity goGrow none (some ⟨"x", "2020"⟩)
      ([(some ⟨"x", "2020"⟩, ⟨infinity, ⟨0, 0, 0⟩⟩), (some ⟨"y", "2021"⟩, ⟨infinity, ⟨0, 0, 0⟩⟩)], [])
      ⟨some ⟨"x", "2020"⟩, some ⟨"y", "2021"⟩, 1⟩ ⟨infinity, ⟨0, 0, 0⟩⟩ ⟨infinity, ⟨0, 0, 0⟩⟩
      (by decide) rfl rfl (by decide) (le_refl _)).2.2.2.2.2.2.2⟩

/-- C18. Over the graph built from a user list in which every subscriber is a user, for
the search from the node of a registered email: for every `k` up to `len(g.Nodes)` the
first `k` iterations of the main loop run without failure and leave `k` different nodes
visited; while `k < len(g.Nodes)` the loop condition holds, the candidate list of
`getClosestNonVisitedNode` is not empty and the next iteration visits one node that was
not visited before; the loop ends after `len(g.Nodes)` iterations and not earlier. -/
theorem main_loop_iterations (grow : Nat → Nat) (users : List user) (picks : Nat → Nat)
    (a : String) (hw : subscribersRegistered users) (ha : registered users a) :
    (∀ k, k ≤ (addGraph ⟨[], []⟩ users).1.Nodes.length →
      ∃ s, searchTrace grow (addGraph ⟨[], []⟩ users).1 (mapGet (addGraph ⟨[], []⟩ users).2 a)
          picks k (searchInit (addGraph ⟨[], []⟩ users).1 (mapGet (addGraph ⟨[], []⟩ users).2 a))
          = .ok s ∧
        s.visited.length = k ∧ s.visited.Nodup ∧
        (k < (addGraph ⟨[], []⟩ users).1.Nodes.length →
          s.visited.length ≠ (addGraph ⟨[], []⟩ users).1.Nodes.length ∧
          s.costTable.filter (fun e => decide (e.1 ∉ s.visited)) ≠ [] ∧
          ∃ cur s', cur ∉ s.visited ∧ s'.visited = s.visited ++ [cur] ∧
            searchTrace grow (addGraph ⟨[], []⟩ users).1 (mapGet (addGraph ⟨[], []⟩ users).2 a)
              picks (k + 1)
              (searchInit (addGraph ⟨[], []⟩ users).1 (mapGet (addGraph ⟨[], []⟩ users).2 a))
              = .ok s')) ∧
    (∃ s, searchLoop grow (addGraph ⟨[], []⟩ users).1 (mapGet (addGraph ⟨[], []⟩ users).2 a)
          picks (addGraph ⟨[], []⟩ users).1.Nodes.length
          (searchInit (addGraph ⟨[], []⟩ users).1 (mapGet (addGraph ⟨[], []⟩ users).2 a)) = .ok s ∧
        searchTrace grow (addGraph ⟨[], []⟩ users).1 (mapGet (addGraph ⟨[], []⟩ users).2 a)
          picks (addGraph ⟨[], []⟩ users).1.Nodes.length
          (searchInit (addGraph ⟨[], []⟩ users).1 (mapGet (addGraph ⟨[], []⟩ users).2 a)) = .ok s ∧
        s.visited.length = (addGraph ⟨[], []⟩ users).1.Nodes.length) ∧
    (∀ k, k < (addGraph ⟨[], []⟩ users).1.Nodes.length →
      searchLoop grow (addGraph ⟨[], []⟩ users).1 (mapGet (addGraph ⟨[], []⟩ users).2 a)
        picks k (searchInit (addGraph ⟨[], []⟩ users).1 (mapGet (addGraph ⟨[], []⟩ users).2 a))
        = .error .outOfFuel) := by
  rw [addGraph_map]
  simp only [searchInit]
  have hg := addGraph_graphOk users
  have hnil := tableKeys_no_nil users a hw ha
  have hinit := searchInv_init (addGraph ⟨[], []⟩ users).1 (mapGet (buildMap users) a)
  have hK := tableKeys_nodup (addGraph ⟨[], []⟩ users).1 (mapGet (buildMap users) a)
  refine ⟨?_, ?_, ?_⟩
  · intro k hk
    obtain ⟨s, hs, hI, hl⟩ := searchTrace_ok grow _ _ picks hg hnil k _ hinit
      (by simpa [searchInit] using hk)
    have hlk : s.visited.length = k := by simpa [searchInit] using hl
    refine ⟨s, hs, hlk, hI.vis_nodup, ?_⟩
    intro hlt
    refine ⟨by omega, candidates_ne_nil _ _ s hg hI (by omega), ?_⟩
    obtain ⟨s', h'⟩ := visitNext_ok grow _ _ (picks s.visited.length) s hg hI (by omega) hnil
    obtain ⟨_, cur, hcur, hv⟩ := visitNext_inv grow _ _ _ _ s s' hK hg hI h'
    refine ⟨cur, s', hcur, hv, ?_⟩
    rw [searchTrace_succ grow _ _ picks k _ s hs]
    exact h'
  · obtain ⟨s, hs, _, hl⟩ := searchLoop_ok grow _ _ picks hg hnil
      (addGraph ⟨[], []⟩ users).1.Nodes.length _ hinit (by simp)
    refine ⟨s, hs, ?_, hl⟩
    rw [← searchLoop_eq_trace grow _ _ picks hg _ _ hinit (by simp)]
    exact hs
  · intro k hk
    exact searchLoop_cut grow _ _ picks hg hnil k _ hinit (by simpa [searchInit] using hk)

theorem main_loop_iterations_witness :
    subscribersRegistered usersCycle ∧ registered usersCycle "d" ∧
    (∃ s, searchLoop goGrow (addGraph ⟨[], []⟩ usersCycle).1
          (mapGet (addGraph ⟨[], []⟩ usersCycle).2 "d") (firstPick 0)
          (addGraph ⟨[], []⟩ usersCycle).1.Nodes.length
          (searchInit (addGraph ⟨[], []⟩ usersCycle).1 (mapGet (addGraph ⟨[], []⟩ usersCycle).2 "d"))
          = .ok s ∧
        searchTrace goGrow (addGraph ⟨[], []⟩ usersCycle).1
          (mapGet (addGraph ⟨[], []⟩ usersCycle).2 "d") (firstPick 0)
          (addGraph ⟨[], []⟩ usersCycle).1.Nodes.length
          (searchInit (addGraph ⟨[], []⟩ usersCycle).1 (mapGet (addGraph ⟨[], []⟩ usersCycle).2 "d"))
          = .ok s ∧
        s.visited.length = (addGraph ⟨[], []⟩ usersCycle).1.Nodes.length) :=
  ⟨by decide, by decide,
    (main_loop_iterations goGrow usersCycle (firstPick 0) "d" (by decide) (by decide)).2.1⟩

/-- C17. Over the graph built from a user list in which every subscriber is a user and
that has fewer than `infinity` records, for two different registered emails `a` and `b`:
`dijkstra` from the node of `a` to the node of `b` returns; when its main loop has ended
the cost table has a row for every node of the graph, the cost of every row is the least
number of edges of a walk from the start node to the node of the row (a number below
`infinity`), and `infinity` when there is no such walk; and the
returned path has one entry less than the least number of edges of a walk from the start
node to the end node, and is empty when there is no such walk. -/
theorem costs_are_hop_counts (grow : Nat → Nat) (users : List user) (picks : Nat → Nat)
    (a b : String) (hw : subscribersRegistered users) (ha : registered users a)
    (hb : registered users b) (hab : a ≠ b) (hsize : (users.length : Int) < infinity) :
    ∃ s sp,
      searchLoop grow (addGraph ⟨[], []⟩ users).1 (mapGet (addGraph ⟨[], []⟩ users).2 a) picks
        (addGraph ⟨[], []⟩ users).1.Nodes.length
        (searchInit (addGraph ⟨[], []⟩ users).1 (mapGet (addGraph ⟨[], []⟩ users).2 a)) = .ok s ∧
      dijkstra grow (addGraph ⟨[], []⟩ users).1 picks (mapGet (addGraph ⟨[], []⟩ users).2 a)
        (mapGet (addGraph ⟨[], []⟩ users).2 b) = .ok sp ∧
      (∀ v, v ∈ (addGraph ⟨[], []⟩ users).1.Nodes → ∃ nv, mapGet s.costTable v = some nv) ∧
      (∀ v nv, mapGet s.costTable v = some nv →
        (nv.Cost = infinity ∧
          ∀ k, ¬ Reach (addGraph ⟨[], []⟩ users).1 (mapGet (addGraph ⟨[], []⟩ users).2 a) k v) ∨
        (∃ n : Nat, nv.Cost = (n : Int) ∧ nv.Cost < infinity ∧
          Reach (addGraph ⟨[], []⟩ users).1 (mapGet (addGraph ⟨[], []⟩ users).2 a) n v ∧
          ∀ k, Reach (addGraph ⟨[], []⟩ users).1 (mapGet (addGraph ⟨[], []⟩ users).2 a) k v →
            n ≤ k)) ∧
      (∀ n : Nat,
        Reach (addGraph ⟨[], []⟩ users).1 (mapGet (addGraph ⟨[], []⟩ users).2 a) n
          (mapGet (addGraph ⟨[], []⟩ users).2 b) →
        (∀ k, Reach (addGraph ⟨[], []⟩ users).1 (mapGet (addGraph ⟨[], []⟩ users).2 a) k
          (mapGet (addGraph ⟨[], []⟩ users).2 b) → n ≤ k) →
        sp.length = n - 1) ∧
      ((∀ k, ¬ Reach (addGraph ⟨[], []⟩ users).1 (mapGet (addGraph ⟨[], []⟩ users).2 a) k
          (mapGet (addGraph ⟨[], []⟩ users).2 b)) → sp = []) := by
  rw [addGraph_map]
  simp only [searchInit]
  have hg := addGraph_graphOk users
  have hnil := tableKeys_no_nil users a hw ha
  obtain ⟨na, hna⟩ := buildMap_registered users a ha
  obtain ⟨nb, hnb⟩ := buildMap_registered users b hb
  have hne : mapGet (buildMap users) b ≠ mapGet (buildMap users) a := by
    rw [hna, hnb]
    intro h
    injection h with h
    have h1 := buildMap_name users a na hna
    have h2 := buildMap_name users b nb hnb
    rw [h] at h2
    exact hab (h1.symm.trans h2)
  have hsz : (((addGraph ⟨[], []⟩ users).1.Nodes.length : Nat) : Int) < infinity := by
    have := addGraph_nodes_length users hw
    omega
  obtain ⟨sp, hsp⟩ := dijkstra_ok grow (addGraph ⟨[], []⟩ users).1 picks
    (mapGet (buildMap users) a) nb hg hnil
  rw [← hnb] at hsp
  have hun : ∀ x y, some x ∈ tableKeys (addGraph ⟨[], []⟩ users).1 (mapGet (buildMap users) a) →
      mapGet (buildMap users) b = some y → x.Name = y.Name → x = y := by
    intro x y hx hy hxy
    have h1 := key_registered users a x hx
    have h2 := buildMap_name users b y hy
    rw [hxy, h2, hy] at h1
    injection h1 with h1
    exact h1.symm
  obtain ⟨s, hs, hI, hlen, _, _, hres⟩ := dijkstra_spec grow _ picks _ _ sp hg hun hsp
  have hfc := final_costs _ _ s hg hI hlen hsz
  refine ⟨s, sp, hs, hsp, ?_, hfc, ?_, ?_⟩
  · intro v hv
    rw [mapGet_isSome_iff, hI.keys, mem_tableKeys]
    exact Or.inr hv
  · intro n hr hmin
    rcases hres with ⟨ni, hni, hsp'⟩ | ⟨hno, _⟩
    · rcases hfc _ ni hni with ⟨hinf, hnr⟩ | ⟨n', hc, hfin, hr', hmin'⟩
      · exact absurd hr (hnr n)
      · have h1 := hmin n' hr'
        have h2 := hmin' n hr
        have hnn : n' = n := by omega
        subst hnn
        have hl := hI.path.len _ ni hni hne hfin
        rw [hsp', readSlice_length _ _ (hI.path.wf _ ni hni)]
        omega
    · by_cases hsn : mapGet (buildMap users) a ∈ (addGraph ⟨[], []⟩ users).1.Nodes
      · obtain ⟨nv, h1, _⟩ := cost_le_walk _ _ s hg hI hlen hsn hsz n _ hr
        rw [hno] at h1
        simp at h1
      · have h0 := Reach_isolated _ hg _ hsn n _ hr
        subst h0
        exact absurd (Eq.symm hr) hne
  · intro hnr
    rcases hres with ⟨ni, hni, hsp'⟩ | ⟨_, hsp'⟩
    · rcases hfc _ ni hni with ⟨hinf, _⟩ | ⟨n', _, _, hr', _⟩
      · rw [hsp', hI.path.inf_nil _ ni hni hinf]
        rfl
      · exact absurd hr' (hnr n')
    · exact hsp'

theorem costs_are_hop_counts_witness :
    subscribersRegistered usersCycle ∧ registered usersCycle "a" ∧ registered usersCycle "c" ∧
    "a" ≠ "c" ∧ ((usersCycle.length : Nat) : Int) < infinity ∧
    ∃ s sp,
      searchLoop goGrow (addGraph ⟨[], []⟩ usersCycle).1
        (mapGet (addGraph ⟨[], []⟩ usersCycle).2 "a") (firstPick 0)
        (addGraph ⟨[], []⟩ usersCycle).1.Nodes.length
        (searchInit (addGraph ⟨[], []⟩ usersCycle).1
          (mapGet (addGraph ⟨[], []⟩ usersCycle).2 "a")) = .ok s ∧
      dijkstra goGrow (addGraph ⟨[], []⟩ usersCycle).1 (firstPick 0)
        (mapGet (addGraph ⟨[], []⟩ usersCycle).2 "a")
        (mapGet (addGraph ⟨[], []⟩ usersCycle).2 "c") = .ok sp ∧
      (∀ n : Nat,
        Reach (addGraph ⟨[], []⟩ usersCycle).1 (mapGet (addGraph ⟨[], []⟩ usersCycle).2 "a") n
          (mapGet (addGraph ⟨[], []⟩ usersCycle).2 "c") →
        (∀ k, Reach (addGraph ⟨[], []⟩ usersCycle).1
          (mapGet (addGraph ⟨[], []⟩ usersCycle).2 "a") k
          (mapGet (addGraph ⟨[], []⟩ usersCycle).2 "c") → n ≤ k) →
        sp.length = n - 1) := by
  obtain ⟨s, sp, h1, h2, _, _, h5, _⟩ := costs_are_hop_counts goGrow usersCycle (firstPick 0)
    "a" "c" (by decide) (by decide) (by decide) (by decide) (by decide)
  exact ⟨by decide, by decide, by decide, by decide, by decide, s, sp, h1, h2, h5⟩

/-- C13 (the claim fails). Over the diamond `s → a → t`, `s → b → t` the query `(t, s)`
gets the path `[a]` when the node of `a` comes first among the rows of cost 1, and the
path `[b]` when the node of `b` does. -/
theorem tie_choice_counterexample :
    run goGrow usersDiamond [⟨"t", "s"⟩] firstPick = .ok [⟨1, "t", "s", [⟨"a", "2021"⟩]⟩] ∧
    run goGrow usersDiamond [⟨"t", "s"⟩] secondPick = .ok [⟨1, "t", "s", [⟨"b", "2022"⟩]⟩] :=
  ⟨by rfl, by rfl⟩

/-- C13 (amended). With every subscriber registered, every query of the table between
registered emails and fewer than `MaxInt64` user records, the program returns its records
for every choice among the rows of equal cost, and for two such choices the two outputs
have the same number of records, and the records at the same index have the same id, the
same "from", the same "to" and paths of the same length. -/
theorem output_up_to_ties (grow : Nat → Nat) (users : List user) (ways : List way)
    (picks1 picks2 : Nat → Nat → Nat) (hw : subscribersRegistered users)
    (hq : ∀ w ∈ ways, registered users w.From ∧ registered users w.To)
    (hsize : (users.length : Int) < infinity) :
    ∃ rs1 rs2, run grow users ways picks1 = .ok rs1 ∧ run grow users ways picks2 = .ok rs2 ∧
      rs1.length = ways.length ∧ rs2.length = ways.length ∧
      ∀ i r1 r2, rs1.get? i = some r1 → rs2.get? i = some r2 →
        r1.ID = r2.ID ∧ r1.From = r2.From ∧ r1.To = r2.To ∧
        r1.Path.length = r2.Path.length := by
  obtain ⟨rs1, hrs1⟩ := run_ok grow users ways picks1 hw hq
  obtain ⟨rs2, hrs2⟩ := run_ok grow users ways picks2 hw hq
  have hlen : ∀ picks rs, run grow users ways picks = .ok rs → rs.length = ways.length := by
    intro picks rs h
    unfold run formResult at h
    exact (formResultFrom_spec grow _ _ picks ways 0 0 rs h).1
  have hL1 := hlen picks1 rs1 hrs1
  have hL2 := hlen picks2 rs2 hrs2
  refine ⟨rs1, rs2, hrs1, hrs2, hL1, hL2, ?_⟩
  intro i r1 r2 hr1 hr2
  have hi : i < ways.length := by
    rw [← hL1]
    exact (List.get?_eq_some.mp hr1).1
  obtain ⟨w, hwi⟩ : ∃ w, ways.get? i = some w := ⟨ways.get ⟨i, hi⟩, List.get?_eq_get hi⟩
  obtain ⟨s1, ns1, _, hI1, hv1, _, _, hrow1, hres1⟩ :=
    run_row grow users ways picks1 rs1 hrs1 i w hwi
  obtain ⟨s2, ns2, _, hI2, hv2, _, _, hrow2, hres2⟩ :=
    run_row grow users ways picks2 rs2 hrs2 i w hwi
  rw [hr1] at hrow1
  rw [hr2] at hrow2
  injection hrow1 with hrow1
  injection hrow2 with hrow2
  have hg := addGraph_graphOk users
  have hsz : (((addGraph ⟨[], []⟩ users).1.Nodes.length : Nat) : Int) < infinity := by
    have := addGraph_nodes_length users hw
    omega
  have hns : ns1.length = ns2.length := by
    rcases hres1 with ⟨n1, h1, hl1, _⟩ | ⟨h1, e1⟩
    · rcases hres2 with ⟨n2, h2, hl2, _⟩ | ⟨h2, _⟩
      · rw [hl1, hl2]
        exact (final_rows_agree _ _ s1 s2 hg hsz hI1 hv1 hI2 hv2 _ n1 n2 h1 h2).2
      · have hk : (mapGet s1.costTable (mapGet (buildMap users) w.From)).isSome := by
          rw [h1]; rfl
        rw [Option.isSome_iff_exists, mapGet_isSome_iff, hI1.keys, ← hI2.keys,
          ← mapGet_isSome_iff] at hk
        obtain ⟨x, hx⟩ := hk
        rw [h2] at hx
        simp at hx
    · rcases hres2 with ⟨n2, h2, _⟩ | ⟨_, e2⟩
      · have hk : (mapGet s2.costTable (mapGet (buildMap users) w.From)).isSome := by
          rw [h2]; rfl
        rw [Option.isSome_iff_exists, mapGet_isSome_iff, hI2.keys, ← hI1.keys,
          ← mapGet_isSome_iff] at hk
        obtain ⟨x, hx⟩ := hk
        rw [h1] at hx
        simp at hx
      · rw [e1, e2]
  rw [hrow1, hrow2]
  simp [hns]

theorem output_up_to_ties_witness :
    subscribersRegistered usersDiamond ∧
      (∀ w ∈ [(⟨"t", "s"⟩ : way)], registered usersDiamond w.From ∧
        registered usersDiamond w.To) ∧
      (usersDiamond.length : Int) < infinity ∧
      ∃ rs1 rs2, run goGrow usersDiamond [⟨"t", "s"⟩] firstPick = .ok rs1 ∧
        run goGrow usersDiamond [⟨"t", "s"⟩] secondPick = .ok rs2 ∧
        rs1.length = [(⟨"t", "s"⟩ : way)].length ∧ rs2.length = [(⟨"t", "s"⟩ : way)].length ∧
        ∀ i r1 r2, rs1.get? i = some r1 → rs2.get? i = some r2 →
          r1.ID = r2.ID ∧ r1.From = r2.From ∧ r1.To = r2.To ∧
          r1.Path.length = r2.Path.length :=
  ⟨by decide, by decide, by decide,
    output_up_to_ties goGrow usersDiamond [⟨"t", "s"⟩] firstPick secondPick (by decide)
      (by decide) (by decide)⟩

/-- C16 (the code fails the claim). Over `usersFork` every subscriber is a user and the
query `(8a, s)` is between registered emails; the program returns a path that is not
empty, and the chain to, path[last], ..., path[0], from, which is `s, 1, ..., 6, 7b, 8a`,
is not a directed walk of the graph: there is no edge from `7b` to `8a`. -/
theorem long_chain_not_a_walk :
    subscribersRegistered usersFork ∧ registered usersFork "8a" ∧ registered usersFork "s" ∧
    run goGrow usersFork [⟨"8a", "s"⟩] firstPick = .ok resultsFork ∧
    (∀ r ∈ resultsFork, r.Path ≠ [] ∧
      (r.To :: (r.Path.map (fun p => p.Email)).reverse ++ [r.From]
        = ["s", "1", "2", "3", "4", "5", "6", "7b", "8a"]) ∧
      ¬ isWalk (addGraph ⟨[], []⟩ usersFork).1
        (r.To :: (r.Path.map (fun p => p.Email)).reverse ++ [r.From])) ∧
    ¬ hasEdge (addGraph ⟨[], []⟩ usersFork).1 "7b" "8a" :=
  ⟨by decide, by decide, by decide, by rfl, by decide, by decide⟩

/-- C20 (the code fails the claim). In the search from `s` over `usersFork`, when `s`,
`1`, ..., `6` and `7a` are visited the row of `8a` has cost 8 and the path
`1, ..., 6, 7a`.  Relaxing the edge `7b → 8b` leaves the row of `8a` as it is (same cost,
same slice header) but the content of its path becomes `1, ..., 6, 7b`: the paths of `8a`
and `8b` share a backing array.  That relaxation is what the ninth iteration of the main
loop does, and `7b` has no edge to `8a`, whose only predecessor is `7a`. -/
theorem relax_overwrites_other_path :
    beforeFork.map (fun s => rowPath (s.costTable, s.heap) (some ⟨"8a", "2018"⟩)) =
      .ok (some (⟨8, ⟨3, 7, 8⟩⟩,
        [["1", "2011"], ["2", "2012"], ["3", "2013"], ["4", "2014"], ["5", "2015"],
         ["6", "2016"], ["7a", "2017"]])) ∧
    (beforeFork.bind (fun s => relaxEdge goGrow startFork (some ⟨"7b", "2017"⟩)
        (s.costTable, s.heap) ⟨some ⟨"7b", "2017"⟩, some ⟨"8b", "2018"⟩, 1⟩)).map
        (fun st => rowPath st (some ⟨"8a", "2018"⟩)) =
      .ok (some (⟨8, ⟨3, 7, 8⟩⟩,
        [["1", "2011"], ["2", "2012"], ["3", "2013"], ["4", "2014"], ["5", "2015"],
         ["6", "2016"], ["7b", "2017"]])) ∧
    beforeFork.bind (fun s => visitNext goGrow graphFork startFork (firstPick 0 8) s) =
      beforeFork.bind (fun s =>
        (relaxEdge goGrow startFork (some ⟨"7b", "2017"⟩) (s.costTable, s.heap)
          ⟨some ⟨"7b", "2017"⟩, some ⟨"8b", "2018"⟩, 1⟩).map
          (fun st => ⟨st.1, st.2, s.visited ++ [some ⟨"7b", "2017"⟩]⟩)) ∧
    (∀ e ∈ graphFork.Edges, e.Child = some ⟨"8a", "2018"⟩ → e.Parent = some ⟨"7a", "2017"⟩) ∧
    ¬ hasEdge graphFork "7b" "8a" :=
  ⟨by rfl, by rfl, by rfl, by decide, by decide⟩

end Dijkstra
